import Mathlib

set_option linter.unusedVariables false
set_option linter.unusedSectionVars false

/-!
Verification of the AA-tree ordered-set container in `src/tree.h`
(`template<class ValueType> class Set`).

The C++ code is a pointer structure with a shared sentinel ("bottom") node of
level 0 whose left/right/parent links point to itself.  We embed the tree
shape functionally: `AATree.bottom` is the sentinel, and the accessor
functions `level`, `left`, `right` return `0` / `bottom` / `bottom` on
`bottom`, mirroring the sentinel's self links.  Parent pointers are embedded
as paths from the root (a `List Bool`, `false` = left edge, `true` = right
edge); the iterator protocol (`get_next`, `get_previous`, `operator++`,
`operator--`) is translated to path manipulation, which is faithful because
the mutation routines of the source keep every node's parent pointer equal to
its actual tree parent and the root's parent equal to the sentinel.
-/

namespace AA

/-- Tree shapes of `struct Node`: `bottom` is the sentinel, `node` carries
`left`, `value`, `right` and the integer `level` field.  (`size_t level`
is embedded as `Nat`; all source arithmetic on it is non-wrapping.) -/
inductive AATree (α : Type) where
  | bottom : AATree α
  | node (left : AATree α) (value : α) (right : AATree α) (level : Nat) : AATree α
deriving DecidableEq

namespace AATree

variable {α : Type}

/-- `n->level`; the sentinel has level 0 (set once in `initialize`). -/
def level : AATree α → Nat
  | bottom => 0
  | node _ _ _ lv => lv

/-- `n->left`; the sentinel's left link points to itself. -/
def left : AATree α → AATree α
  | bottom => bottom
  | node l _ _ _ => l

/-- `n->right`; the sentinel's right link points to itself. -/
def right : AATree α → AATree α
  | bottom => bottom
  | node _ _ r _ => r

/-- The value stored at a node (`n->value`); the sentinel stores none. -/
def value? : AATree α → Option α
  | bottom => none
  | node _ x _ _ => some x

/-- In-order list of stored values (the iteration order of the container). -/
def inorder : AATree α → List α
  | bottom => []
  | node l x r _ => inorder l ++ x :: inorder r

/-- `Node::go_left`: descend left links while they are real (level > 0). -/
def go_left : AATree α → AATree α
  | bottom => bottom
  | node l x r lv =>
    match l with
    | bottom => node l x r lv
    | node la ly lb llv => go_left (node la ly lb llv)

/-- `Node::go_right`: descend right links while they are real (level > 0). -/
def go_right : AATree α → AATree α
  | bottom => bottom
  | node l x r lv =>
    match r with
    | bottom => node l x r lv
    | node ra ry rb rlv => go_right (node ra ry rb rlv)

end AATree

open AATree

variable {α : Type}

/-- `rotate_right(v)`: promotes `v->left` above `v`.  The source also fixes
the three parent links and the grandparent's child pointer; at the shape
level that bookkeeping is implicit.  The fallthrough case (`v` is the
sentinel or has a sentinel left child) is unreachable at every call site of
the source, because `skew`/`split` only rotate under level equalities that
force a real child. -/
def rotate_right : AATree α → AATree α
  | .node (.node a y b lvL) x r lv => .node a y (.node b x r lv) lvL
  | t => t

/-- `rotate_left(v)`: promotes `v->right` above `v` (mirror of
`rotate_right`). -/
def rotate_left : AATree α → AATree α
  | .node l x (.node b y c lvR) lv => .node (.node l x b lv) y c lvR
  | t => t

/-- `skew(node)`: sentinel is a no-op; if `node->level == node->left->level`
rotate right, else return unchanged. -/
def skew : AATree α → AATree α
  | .bottom => .bottom
  | .node l x r lv => if lv = l.level then rotate_right (.node l x r lv) else .node l x r lv

/-- Increment of `node->level` (the `node->right->level++` inside `split`). -/
def incLevel : AATree α → AATree α
  | .bottom => .bottom
  | .node l x r lv => .node l x r (lv + 1)

/-- `split(node)`: sentinel is a no-op; if
`node->level == node->right->level && node->level == node->right->right->level`
then increment the right child's level and rotate left, else unchanged. -/
def split : AATree α → AATree α
  | .bottom => .bottom
  | .node l x r lv =>
    if lv = r.level ∧ lv = r.right.level then rotate_left (.node l x (incLevel r) lv)
    else .node l x r lv

/-- `make_node(value)`: a fresh level-1 node, both children the sentinel. -/
def make_node (v : α) : AATree α := .node .bottom v .bottom 1

variable [LinearOrder α]

/-- `internal_insert(node, is_inserted, value)`: recursive BST descent;
allocate at the sentinel, signal duplicate on an equal value, and apply
`skew` then `split` on the way back up only when something was inserted.
Returns (new subtree, `is_inserted`). -/
def internal_insert : AATree α → α → AATree α × Bool
  | .bottom, v => (make_node v, true)
  | .node l x r lv, v =>
    if v < x then
      let res := internal_insert l v
      let t1 : AATree α := .node res.1 x r lv
      (if res.2 then split (skew t1) else t1, res.2)
    else if x < v then
      let res := internal_insert r v
      let t1 : AATree α := .node l x res.1 lv
      (if res.2 then split (skew t1) else t1, res.2)
    else
      (.node l x r lv, false)

/-- `internal_find(value)`: iterative BST search from the root, tracking in
`last` the most recent node whose value was found `≥ value` (the candidate
for `lower_bound`), with an early exit on an exact match.  We embed the
tracked node by its value (`none` = the sentinel). -/
def internal_find : AATree α → α → Option α → Option α
  | .bottom, _, last => last
  | .node l x r _, v, last =>
    if v < x then internal_find l v (some x)
    else if x < v then internal_find r v last
    else some x

/-- Update of `node->right` in place (used for the source statements
`this->skew(node->right)` etc., whose rotations relink through the parent's
right-child pointer).  On the sentinel this is a no-op, as in the source
(`bottom->right == bottom` and `skew(bottom)`/`split(bottom)` do nothing). -/
def updRight : AATree α → (AATree α → AATree α) → AATree α
  | .bottom, _ => .bottom
  | .node l x r lv, f => .node l x (f r) lv

/-- Decrement of `node->level` (within the erase repair block). -/
def decLevelRoot : AATree α → AATree α
  | .bottom => .bottom
  | .node l x r lv => .node l x r (lv - 1)

/-- The level decrement step of the erase repair block:
`node->level--; if (node->right->level > node->level) node->right->level--;`.
-/
def decLevelStep : AATree α → AATree α
  | .bottom => .bottom
  | .node l x r lv =>
    .node l x (if r.level > lv - 1 then decLevelRoot r else r) (lv - 1)

/-- The repair block at the end of `internal_erase` (tree.h lines 400-410):
if a child's level is more than one below the node's level, decrement the
node's level (and the right child's, if it now exceeds the node's), then
apply `skew(node)`, `skew(node->right)`, `skew(node->right->right)`,
`split(node)`, `split(node->right)` in that order; otherwise do nothing. -/
def adjust (t : AATree α) : AATree α :=
  if t.left.level + 1 < t.level ∨ t.right.level + 1 < t.level then
    updRight
      (split (updRight (updRight (skew (decLevelStep t)) skew) (fun r => updRight r skew)))
      split
  else t

/-- `internal_erase(node, is_erased, value)` with the member `to_erase` and
the static `last` made explicit.  The third argument is the value of the
node currently recorded as `to_erase` (`none` when `to_erase == nullptr`);
it is the value of the nearest ancestor at which the search moved right.
The result is (new subtree, `is_erased`, pending overwrite): the source's
`node == last` test holds exactly when the child just recursed into is the
sentinel, and the source's assignment `to_erase->value = last->value`
mutates an ancestor through a pointer, which we embed by returning
`some last.value` upward until the nearest right-moving ancestor (the node
recorded as `to_erase`) replaces its value with it. -/
def internal_erase : AATree α → α → Option α → AATree α × Bool × Option α
  | .bottom, _, _ => (.bottom, false, none)
  | .node l x r lv, v, toE =>
    if v < x then
      match l with
      | .bottom =>
        match toE with
        | some w =>
          if ¬ w < v ∧ ¬ v < w then
            (adjust r, true, some x)
          else (adjust (.node .bottom x r lv), false, none)
        | none => (adjust (.node .bottom x r lv), false, none)
      | .node la ly lb llv =>
        let res := internal_erase (.node la ly lb llv) v toE
        (adjust (.node res.1 x r lv), res.2.1, res.2.2)
    else
      match r with
      | .bottom =>
        if ¬ x < v ∧ ¬ v < x then
          (adjust l, true, none)
        else (adjust (.node l x .bottom lv), false, none)
      | .node ra ry rb rlv =>
        let res := internal_erase (.node ra ry rb rlv) v (some x)
        match res.2.2 with
        | some w => (adjust (.node l w res.1 lv), res.2.1, none)
        | none => (adjust (.node l x res.1 lv), res.2.1, none)

/-- The container: root pointer and element count (`node_count`).  The
sentinel is implicit (`AATree.bottom`). -/
structure Set (α : Type) where
  root : AATree α
  node_count : Nat
deriving DecidableEq

/-- A freshly constructed container (`Set()` / `initialize`): root is the
sentinel and the count is 0. -/
def Set.empty : Set α := ⟨.bottom, 0⟩

/-- `size()`. -/
def Set.size (s : Set α) : Nat := s.node_count

/-- `empty()`. -/
def Set.isEmpty (s : Set α) : Bool := s.node_count == 0

/-- `insert(value)`: run `internal_insert` from the root and bump the count
only when a node was actually added. -/
def Set.insert (s : Set α) (v : α) : Set α :=
  let res := internal_insert s.root v
  ⟨res.1, if res.2 then s.node_count + 1 else s.node_count⟩

/-- `erase(value)`: reset `to_erase`, run `internal_erase` from the root,
and decrement the count only when a node was physically removed. -/
def Set.erase (s : Set α) (v : α) : Set α :=
  let res := internal_erase s.root v none
  ⟨res.1, if res.2.1 then s.node_count - 1 else s.node_count⟩

/-- `lower_bound(value)`: the element at the node `internal_find` returns,
`none` when that node is the sentinel (then the source returns `end()`). -/
def Set.lower_bound (s : Set α) (v : α) : Option α :=
  internal_find s.root v none

/-- `find(value)`: `end()` (here `none`) unless `internal_find` landed on an
exactly equal value. -/
def Set.find (s : Set α) (v : α) : Option α :=
  match internal_find s.root v none with
  | none => none
  | some w => if v < w then none else some w

/-- `clear()`: free all nodes, root back to the sentinel, count 0. -/
def Set.clear (s : Set α) : Set α :=
  let _ := s
  ⟨.bottom, 0⟩

/-- Iteration order of the container (`begin()` to `end()`), used by the
copy constructor and `operator=`. -/
def Set.toList (s : Set α) : List α := s.root.inorder

/-- Insert every element of a list in order (the re-insertion loops of the
copy constructor and `operator=`). -/
def insertList (s : Set α) : List α → Set α
  | [] => s
  | v :: vs => insertList (s.insert v) vs

/-- `operator=`: the source first tests `this != &other`; the flag `same`
embeds that object-identity test (`true` means source and destination are
the same object).  On distinct objects it clears the destination and
re-inserts every element of the source in iteration order. -/
def Set.assign (dst src : Set α) (same : Bool) : Set α :=
  if same then dst else insertList dst.clear src.toList

/-- The AA-tree level invariants of spec §3, for every node reachable from
the root: the left child's level is exactly one less, the right child's
level is equal or one less, and a right-horizontal link is never followed by
another (`node.right.level == node.level` implies
`node.right.right.level < node.level`). -/
def AAInv : AATree α → Prop
  | .bottom => True
  | .node l _ r lv =>
    AAInv l ∧ AAInv r ∧ l.level + 1 = lv ∧
      (r.level = lv ∨ r.level + 1 = lv) ∧ (r.level = lv → r.right.level < lv)

instance AAInvDec : (t : AATree α) → Decidable (AAInv t)
  | .bottom => .isTrue trivial
  | .node l x r lv =>
    letI : Decidable (AAInv l) := AAInvDec l
    letI : Decidable (AAInv r) := AAInvDec r
    decidable_of_iff
      (AAInv l ∧ AAInv r ∧ l.level + 1 = lv ∧
        (r.level = lv ∨ r.level + 1 = lv) ∧ (r.level = lv → r.right.level < lv))
      Iff.rfl

/-- Binary-search-tree ordering invariant: at every node, all values in the
left subtree are smaller and all values in the right subtree larger. -/
def BSTInv : AATree α → Prop
  | .bottom => True
  | .node l x r _ =>
    BSTInv l ∧ BSTInv r ∧ (∀ y ∈ l.inorder, y < x) ∧ (∀ y ∈ r.inorder, x < y)

instance BSTInvDec : (t : AATree α) → Decidable (BSTInv t)
  | .bottom => .isTrue trivial
  | .node l x r _ =>
    letI : Decidable (BSTInv l) := BSTInvDec l
    letI : Decidable (BSTInv r) := BSTInvDec r
    decidable_of_iff
      (BSTInv l ∧ BSTInv r ∧ (∀ y ∈ l.inorder, y < x) ∧ (∀ y ∈ r.inorder, x < y))
      Iff.rfl

/-- A sequence of the two mutating public operations. -/
inductive Op (α : Type) where
  | ins (v : α) : Op α
  | del (v : α) : Op α

/-- Apply one operation. -/
def applyOp (s : Set α) : Op α → Set α
  | .ins v => s.insert v
  | .del v => s.erase v

/-- Apply a sequence of `insert`/`erase` calls from left to right. -/
def applyOps (s : Set α) : List (Op α) → Set α
  | [] => s
  | op :: rest => applyOps (applyOp s op) rest

section BasicLemmas

@[simp] theorem level_bottom : (AATree.bottom : AATree α).level = 0 := rfl

@[simp] theorem level_node (l : AATree α) (x : α) (r : AATree α) (lv : Nat) :
    (AATree.node l x r lv).level = lv := rfl

@[simp] theorem left_node (l : AATree α) (x : α) (r : AATree α) (lv : Nat) :
    (AATree.node l x r lv).left = l := rfl

@[simp] theorem right_node (l : AATree α) (x : α) (r : AATree α) (lv : Nat) :
    (AATree.node l x r lv).right = r := rfl

@[simp] theorem left_bottom : (AATree.bottom : AATree α).left = AATree.bottom := rfl

@[simp] theorem right_bottom : (AATree.bottom : AATree α).right = AATree.bottom := rfl

@[simp] theorem inorder_bottom : (AATree.bottom : AATree α).inorder = [] := rfl

@[simp] theorem inorder_node (l : AATree α) (x : α) (r : AATree α) (lv : Nat) :
    (AATree.node l x r lv).inorder = l.inorder ++ x :: r.inorder := rfl

@[simp] theorem aainv_bottom : AAInv (AATree.bottom : AATree α) := trivial

theorem aainv_node {l r : AATree α} {x : α} {lv : Nat} :
    AAInv (AATree.node l x r lv) ↔
      AAInv l ∧ AAInv r ∧ l.level + 1 = lv ∧
        (r.level = lv ∨ r.level + 1 = lv) ∧ (r.level = lv → r.right.level < lv) :=
  Iff.rfl

@[simp] theorem bstinv_bottom : BSTInv (AATree.bottom : AATree α) := trivial

theorem bstinv_node {l r : AATree α} {x : α} {lv : Nat} :
    BSTInv (AATree.node l x r lv) ↔
      BSTInv l ∧ BSTInv r ∧ (∀ y ∈ l.inorder, y < x) ∧ (∀ y ∈ r.inorder, x < y) :=
  Iff.rfl

/-- A real node has level at least 1 under the level invariants (the level
is one more than the left child's). -/
theorem aainv_level_pos {l r : AATree α} {x : α} {lv : Nat}
    (h : AAInv (AATree.node l x r lv)) : 1 ≤ lv := by
  rcases h with ⟨-, -, hl, -, -⟩
  omega

/-- The ordering invariant is equivalent to the in-order list being strictly
sorted. -/
theorem bstinv_iff_pairwise (t : AATree α) :
    BSTInv t ↔ List.Pairwise (· < ·) t.inorder := by
  induction t with
  | bottom => simp [BSTInv]
  | node l x r lv ihl ihr =>
    simp only [bstinv_node, inorder_node, List.pairwise_append, List.pairwise_cons, ihl, ihr]
    constructor
    · rintro ⟨pl, pr, hl, hr⟩
      refine ⟨pl, ⟨hr, pr⟩, ?_⟩
      intro a ha b hb
      rcases List.mem_cons.1 hb with rfl | hb
      · exact hl a ha
      · exact lt_trans (hl a ha) (hr b hb)
    · rintro ⟨pl, ⟨hr, pr⟩, hmix⟩
      exact ⟨pl, pr, fun a ha => hmix a ha x (List.mem_cons_self x _), hr⟩

@[simp] theorem inorder_rotate_right (t : AATree α) :
    (rotate_right t).inorder = t.inorder := by
  cases t with
  | bottom => rfl
  | node l x r lv => cases l <;> simp [rotate_right]

@[simp] theorem inorder_rotate_left (t : AATree α) :
    (rotate_left t).inorder = t.inorder := by
  cases t with
  | bottom => rfl
  | node l x r lv => cases r <;> simp [rotate_left]

@[simp] theorem inorder_incLevel (t : AATree α) : (incLevel t).inorder = t.inorder := by
  cases t <;> simp [incLevel]

@[simp] theorem inorder_skew (t : AATree α) : (skew t).inorder = t.inorder := by
  cases t with
  | bottom => rfl
  | node l x r lv =>
    simp only [skew]
    split <;> simp

@[simp] theorem inorder_split (t : AATree α) : (split t).inorder = t.inorder := by
  cases t with
  | bottom => rfl
  | node l x r lv =>
    simp only [split]
    split <;> simp

theorem inorder_updRight (t : AATree α) (f : AATree α → AATree α)
    (hf : (f t.right).inorder = t.right.inorder) :
    (updRight t f).inorder = t.inorder := by
  cases t with
  | bottom => rfl
  | node l x r lv => simp only [updRight, inorder_node, right_node] at hf ⊢; rw [hf]

@[simp] theorem inorder_decLevelRoot (t : AATree α) :
    (decLevelRoot t).inorder = t.inorder := by
  cases t <;> simp [decLevelRoot]

@[simp] theorem inorder_decLevelStep (t : AATree α) :
    (decLevelStep t).inorder = t.inorder := by
  cases t with
  | bottom => rfl
  | node l x r lv =>
    simp only [decLevelStep]
    split <;> simp

@[simp] theorem inorder_adjust (t : AATree α) : (adjust t).inorder = t.inorder := by
  have h2 : ∀ u : AATree α, (updRight u skew).inorder = u.inorder :=
    fun u => inorder_updRight u skew (inorder_skew _)
  have h1 : ∀ u : AATree α, (updRight u split).inorder = u.inorder :=
    fun u => inorder_updRight u split (inorder_split _)
  have h3 : ∀ u : AATree α, (updRight u (fun r => updRight r skew)).inorder = u.inorder :=
    fun u => inorder_updRight u _ (h2 _)
  rw [adjust]
  split
  · rw [h1, inorder_split, h3, h2, inorder_skew, inorder_decLevelStep]
  · rfl

/-- `skew` does not touch a node that satisfies the level invariants (the
left child is strictly one level below). -/
theorem skew_of_aainv {t : AATree α} (h : AAInv t) : skew t = t := by
  cases t with
  | bottom => rfl
  | node l x r lv =>
    rcases h with ⟨-, -, hl, -, -⟩
    rw [skew, if_neg (by omega)]

/-- `split` does not touch a node that satisfies the level invariants (no
two consecutive right-horizontal links exist). -/
theorem split_of_aainv {t : AATree α} (h : AAInv t) : split t = t := by
  cases t with
  | bottom => rfl
  | node l x r lv =>
    rcases h with ⟨-, -, hl, hr, hrr⟩
    rw [split, if_neg]
    rintro ⟨h1, h2⟩
    rcases hr with hr | hr
    · exact absurd h2.symm (Nat.ne_of_lt (hrr hr))
    · omega

/-- The erase repair block does nothing to a subtree already satisfying the
level invariants: no level drop is detected there. -/
theorem adjust_of_aainv {t : AATree α} (h : AAInv t) : adjust t = t := by
  cases t with
  | bottom => rfl
  | node l x r lv =>
    rcases h with ⟨-, -, hl, hr, -⟩
    rw [adjust, if_neg]
    simp only [left_node, right_node, level_node]
    omega

end BasicLemmas

section InsertLemmas

/-- The `BSTInv` predicate only depends on the in-order list. -/
theorem bstinv_congr_inorder {t u : AATree α} (h : t.inorder = u.inorder) :
    BSTInv t ↔ BSTInv u := by
  rw [bstinv_iff_pairwise, bstinv_iff_pairwise, h]

/-- When `internal_insert` signals "not inserted" it rebuilt the tree
unchanged (the skew/split fix-ups are skipped and every child pointer is
re-assigned to its old value). -/
theorem internal_insert_snd_false {t : AATree α} {v : α}
    (h : (internal_insert t v).2 = false) : (internal_insert t v).1 = t := by
  induction t with
  | bottom => simp [internal_insert] at h
  | node l x r lv ihl ihr =>
    by_cases h1 : v < x
    · have h' : (internal_insert l v).2 = false := by
        simpa [internal_insert, if_pos h1] using h
      simp [internal_insert, if_pos h1, h', ihl h']
    · by_cases h2 : x < v
      · have h' : (internal_insert r v).2 = false := by
          simpa [internal_insert, if_neg h1, if_pos h2] using h
        simp [internal_insert, if_neg h1, if_pos h2, h', ihr h']
      · simp [internal_insert, if_neg h1, if_neg h2]

/-- Inserting a value already present returns the identical tree and
signals "not inserted". -/
theorem internal_insert_of_mem {t : AATree α} {v : α} (hb : BSTInv t)
    (hm : v ∈ t.inorder) : internal_insert t v = (t, false) := by
  induction t with
  | bottom => simp at hm
  | node l x r lv ihl ihr =>
    rcases hb with ⟨bl, br, hlx, hxr⟩
    by_cases h1 : v < x
    · have hv : v ∈ l.inorder := by
        rcases List.mem_append.1 hm with h | h
        · exact h
        · rcases List.mem_cons.1 h with rfl | h
          · exact absurd h1 (lt_irrefl _)
          · exact absurd (hxr v h) (lt_asymm h1)
      simp [internal_insert, if_pos h1, ihl bl hv]
    · by_cases h2 : x < v
      · have hv : v ∈ r.inorder := by
          rcases List.mem_append.1 hm with h | h
          · exact absurd (hlx v h) (lt_asymm h2)
          · rcases List.mem_cons.1 h with rfl | h
            · exact absurd h2 (lt_irrefl _)
            · exact h
        simp [internal_insert, if_neg h1, if_pos h2, ihr br hv]
      · simp [internal_insert, if_neg h1, if_neg h2]

/-- Inserting an absent value signals "inserted", keeps the ordering
invariant, and the stored values afterwards are exactly the old ones plus
the new value. -/
theorem internal_insert_of_not_mem {t : AATree α} {v : α} (hb : BSTInv t)
    (hm : v ∉ t.inorder) :
    (internal_insert t v).2 = true ∧ BSTInv (internal_insert t v).1 ∧
      ∀ y, y ∈ (internal_insert t v).1.inorder ↔ y = v ∨ y ∈ t.inorder := by
  induction t with
  | bottom =>
    refine ⟨rfl, ?_, ?_⟩
    · exact ⟨trivial, trivial, by simp, by simp⟩
    · intro y; simp [internal_insert, make_node]
  | node l x r lv ihl ihr =>
    rcases hb with ⟨bl, br, hlx, hxr⟩
    by_cases h1 : v < x
    · have hm' : v ∉ l.inorder := fun h => hm (by simp [h])
      obtain ⟨hflag, hbst, hmem⟩ := ihl bl hm'
      rcases hres : internal_insert l v with ⟨t', flag⟩
      rw [hres] at hflag hbst hmem
      simp only at hflag hbst hmem
      subst hflag
      have hres1 : internal_insert (AATree.node l x r lv) v =
          (split (skew (AATree.node t' x r lv)), true) := by
        simp [internal_insert, if_pos h1, hres]
      rw [hres1]
      have hio : (split (skew (AATree.node t' x r lv))).inorder =
          t'.inorder ++ x :: r.inorder := by simp
      refine ⟨rfl, ?_, ?_⟩
      · rw [bstinv_congr_inorder (t := split (skew (AATree.node t' x r lv)))
          (u := AATree.node t' x r lv) (by simp)]
        refine ⟨hbst, br, ?_, hxr⟩
        intro y hy
        rcases (hmem y).1 hy with rfl | hy'
        · exact h1
        · exact hlx y hy'
      · intro y
        simp only [hio, List.mem_append, List.mem_cons, hmem y, inorder_node]
        tauto
    · by_cases h2 : x < v
      · have hm' : v ∉ r.inorder := fun h => hm (by simp [h])
        obtain ⟨hflag, hbst, hmem⟩ := ihr br hm'
        rcases hres : internal_insert r v with ⟨t', flag⟩
        rw [hres] at hflag hbst hmem
        simp only at hflag hbst hmem
        subst hflag
        have hres1 : internal_insert (AATree.node l x r lv) v =
            (split (skew (AATree.node l x t' lv)), true) := by
          simp [internal_insert, if_neg h1, if_pos h2, hres]
        rw [hres1]
        refine ⟨rfl, ?_, ?_⟩
        · rw [bstinv_congr_inorder (t := split (skew (AATree.node l x t' lv)))
            (u := AATree.node l x t' lv) (by simp)]
          refine ⟨bl, hbst, hlx, ?_⟩
          intro y hy
          rcases (hmem y).1 hy with rfl | hy'
          · exact h2
          · exact hxr y hy'
        · intro y
          simp only [List.mem_append, List.mem_cons, hmem y, inorder_node, inorder_split,
            inorder_skew]
          tauto
      · exact absurd (List.mem_append.2 (Or.inr (List.mem_cons_self x _)))
          (by
            have : v = x := le_antisymm (not_lt.1 h2) (not_lt.1 h1)
            subst this
            exact hm)

/-- Level-invariant preservation of `internal_insert`: the result satisfies
the invariants again, and its level either equals the old level or is one
greater; in the latter case the result is a fresh `split` shape (both
children exactly one level below) and the old tree had a right-horizontal
root link. -/
theorem internal_insert_aainv {t : AATree α} {v : α} (h : AAInv t) :
    AAInv (internal_insert t v).1 ∧
      ((internal_insert t v).1.level = t.level ∨
        ((internal_insert t v).1.level = t.level + 1 ∧
          (internal_insert t v).1.left.level + 1 = (internal_insert t v).1.level ∧
          (internal_insert t v).1.right.level + 1 = (internal_insert t v).1.level ∧
          t.right.level = t.level)) := by
  induction t with
  | bottom =>
    have hb : internal_insert (AATree.bottom : AATree α) v = (make_node v, true) := rfl
    rw [hb]
    refine ⟨⟨trivial, trivial, rfl, Or.inr rfl, ?_⟩, Or.inr ⟨rfl, rfl, rfl, rfl⟩⟩
    intro hcon
    simp at hcon
  | node l x r lv ihl ihr =>
    obtain ⟨al, ar, hlx, hr, hrh⟩ := h
    have hlv1 : 1 ≤ lv := by omega
    by_cases h1 : v < x
    · cases hflag : (internal_insert l v).2 with
      | false =>
        have hid := internal_insert_snd_false hflag
        have hres1 : internal_insert (AATree.node l x r lv) v = (AATree.node l x r lv, false) := by
          simp [internal_insert, if_pos h1, hflag, hid]
        rw [hres1]
        exact ⟨⟨al, ar, hlx, hr, hrh⟩, Or.inl rfl⟩
      | true =>
        obtain ⟨at', hlev⟩ := ihl al
        obtain ⟨u, hu⟩ : ∃ u, (internal_insert l v).1 = u := ⟨_, rfl⟩
        have hres1 : (internal_insert (AATree.node l x r lv) v).1 =
            split (skew (AATree.node u x r lv)) := by
          simp [internal_insert, if_pos h1, hflag, hu]
        rw [hu] at at' hlev
        have hres2 : ∀ w : AATree α,
            (internal_insert (AATree.node l x r lv) v).1 = w →
            AAInv w ∧ (w.level = lv ∨ (w.level = lv + 1 ∧ w.left.level + 1 = w.level ∧
              w.right.level + 1 = w.level ∧ r.level = lv)) →
            AAInv (internal_insert (AATree.node l x r lv) v).1 ∧
              ((internal_insert (AATree.node l x r lv) v).1.level =
                  (AATree.node l x r lv).level ∨
                ((internal_insert (AATree.node l x r lv) v).1.level =
                    (AATree.node l x r lv).level + 1 ∧
                  (internal_insert (AATree.node l x r lv) v).1.left.level + 1 =
                    (internal_insert (AATree.node l x r lv) v).1.level ∧
                  (internal_insert (AATree.node l x r lv) v).1.right.level + 1 =
                    (internal_insert (AATree.node l x r lv) v).1.level ∧
                  (AATree.node l x r lv).right.level = (AATree.node l x r lv).level)) := by
          intro w hw hprop
          rw [hw]
          simpa using hprop
        rcases hlev with hsame | ⟨hup, hupl, hupr, hold⟩
        · -- level of the left child unchanged: no skew, no split
          have hskew : skew (AATree.node u x r lv) = AATree.node u x r lv := by
            rw [skew, if_neg (by omega)]
          have hsplit : split (AATree.node u x r lv) = AATree.node u x r lv := by
            rw [split, if_neg]
            rintro ⟨hc1, hc2⟩
            rcases hr with hr' | hr'
            · exact absurd hc2.symm (Nat.ne_of_lt (hrh hr'))
            · omega
          refine hres2 (AATree.node u x r lv) (by rw [hres1, hskew, hsplit])
            ⟨⟨at', ar, by omega, hr, hrh⟩, Or.inl rfl⟩
        · -- the left child came back one level higher: skew fires
          cases u with
          | bottom =>
            exfalso
            simp only [level_bottom, level_node] at hup
            omega
          | node a y b blv =>
            simp only [level_node, left_node, right_node] at hup hupl hupr
            have hblv : lv = blv := by omega
            subst hblv
            obtain ⟨aa, ab, hab1, hab2, hab3⟩ := at'
            have hskew : skew (AATree.node (AATree.node a y b lv) x r lv) =
                AATree.node a y (AATree.node b x r lv) lv := by
              rw [skew, if_pos (by simp)]
              rfl
            rcases hr with hreq | hrsucc
            · -- right child horizontal: split fires and the level rises
              have hsplit : split (AATree.node a y (AATree.node b x r lv) lv) =
                  AATree.node (AATree.node a y b lv) x r (lv + 1) := by
                rw [split, if_pos (by simp [hreq])]
                rfl
              refine hres2 (AATree.node (AATree.node a y b lv) x r (lv + 1))
                (by rw [hres1, hskew, hsplit]) ⟨⟨⟨aa, ab, by omega, by omega,
                by intro hcon; omega⟩, ar, by simp, by omega,
                by intro hcon; omega⟩, Or.inr ⟨by simp, by simp,
                by simp only [right_node, level_node]; omega, hreq⟩⟩
            · -- right child one level below: the skewed tree is legal as is
              have hsplit : split (AATree.node a y (AATree.node b x r lv) lv) =
                  AATree.node a y (AATree.node b x r lv) lv := by
                rw [split, if_neg]
                rintro ⟨hc1, hc2⟩
                simp only [level_node, right_node] at hc1 hc2
                omega
              refine hres2 (AATree.node a y (AATree.node b x r lv) lv)
                (by rw [hres1, hskew, hsplit]) ⟨⟨aa, ⟨ab, ar, by omega,
                Or.inr (by omega), by intro hcon; omega⟩, by omega,
                Or.inl (by simp), ?_⟩, Or.inl (by simp)⟩
              intro hcon
              simp only [right_node, level_node]
              omega
    · by_cases h2 : x < v
      · cases hflag : (internal_insert r v).2 with
        | false =>
          have hid := internal_insert_snd_false hflag
          have hres1 : internal_insert (AATree.node l x r lv) v =
              (AATree.node l x r lv, false) := by
            simp [internal_insert, if_neg h1, if_pos h2, hflag, hid]
          rw [hres1]
          exact ⟨⟨al, ar, hlx, hr, hrh⟩, Or.inl rfl⟩
        | true =>
          obtain ⟨at', hlev⟩ := ihr ar
          obtain ⟨u, hu⟩ : ∃ u, (internal_insert r v).1 = u := ⟨_, rfl⟩
          have hres1 : (internal_insert (AATree.node l x r lv) v).1 =
              split (skew (AATree.node l x u lv)) := by
            simp [internal_insert, if_neg h1, if_pos h2, hflag, hu]
          rw [hu] at at' hlev
          have hres2 : ∀ w : AATree α,
              (internal_insert (AATree.node l x r lv) v).1 = w →
              AAInv w ∧ (w.level = lv ∨ (w.level = lv + 1 ∧ w.left.level + 1 = w.level ∧
                w.right.level + 1 = w.level ∧ r.level = lv)) →
              AAInv (internal_insert (AATree.node l x r lv) v).1 ∧
                ((internal_insert (AATree.node l x r lv) v).1.level =
                    (AATree.node l x r lv).level ∨
                  ((internal_insert (AATree.node l x r lv) v).1.level =
                      (AATree.node l x r lv).level + 1 ∧
                    (internal_insert (AATree.node l x r lv) v).1.left.level + 1 =
                      (internal_insert (AATree.node l x r lv) v).1.level ∧
                    (internal_insert (AATree.node l x r lv) v).1.right.level + 1 =
                      (internal_insert (AATree.node l x r lv) v).1.level ∧
                    (AATree.node l x r lv).right.level = (AATree.node l x r lv).level)) := by
            intro w hw hprop
            rw [hw]
            simpa using hprop
          have hskew : skew (AATree.node l x u lv) = AATree.node l x u lv := by
            rw [skew, if_neg (by omega)]
          rcases hlev with hsame | ⟨hup, hupl, hupr, hold⟩
          · rcases hr with hreq | hrsucc
            · -- old right child horizontal at `lv`
              cases u with
              | bottom =>
                exfalso
                simp only [level_node, level_bottom] at hsame
                omega
              | node b z c blv =>
                simp only [level_node] at hsame
                have hblv : lv = blv := by omega
                subst hblv
                obtain ⟨ab, ac, hbc1, hbc2, hbc3⟩ := at'
                rcases hbc2 with hceq | hcsucc
                · -- two right-horizontal links appeared: split fires, level rises
                  have hsplit : split (AATree.node l x (AATree.node b z c lv) lv) =
                      AATree.node (AATree.node l x b lv) z c (lv + 1) := by
                    rw [split, if_pos (by simp [hceq])]
                    rfl
                  refine hres2 (AATree.node (AATree.node l x b lv) z c (lv + 1))
                    (by rw [hres1, hskew, hsplit]) ⟨⟨⟨al, ab, hlx,
                    Or.inr (by omega), by intro hcon; omega⟩, ac, by simp, by omega,
                    by intro hcon; omega⟩, Or.inr ⟨by simp, by simp,
                    by simp only [right_node, level_node]; omega, hreq⟩⟩
                · have hsplit : split (AATree.node l x (AATree.node b z c lv) lv) =
                      AATree.node l x (AATree.node b z c lv) lv := by
                    rw [split, if_neg]
                    rintro ⟨hc1, hc2⟩
                    simp only [level_node, right_node] at hc1 hc2
                    omega
                  refine hres2 (AATree.node l x (AATree.node b z c lv) lv)
                    (by rw [hres1, hskew, hsplit]) ⟨⟨al,
                    ⟨ab, ac, hbc1, Or.inr (by omega), hbc3⟩, hlx,
                    Or.inl (by simp), ?_⟩, Or.inl (by simp)⟩
                  intro hcon
                  simp only [right_node, level_node]
                  omega
            · -- old right child one level below and unchanged level: no split
              have hsplit : split (AATree.node l x u lv) = AATree.node l x u lv := by
                rw [split, if_neg]
                rintro ⟨hc1, hc2⟩
                omega
              exact hres2 (AATree.node l x u lv) (by rw [hres1, hskew, hsplit]) ⟨⟨al, at', hlx,
                Or.inr (by omega), by intro hcon; omega⟩, Or.inl (by simp)⟩
          · -- right child raised: impossible when it was horizontal, harmless else
            rcases hr with hreq | hrsucc
            · exfalso
              have := hrh hreq
              omega
            · have hsplit : split (AATree.node l x u lv) = AATree.node l x u lv := by
                rw [split, if_neg]
                rintro ⟨hc1, hc2⟩
                omega
              exact hres2 (AATree.node l x u lv) (by rw [hres1, hskew, hsplit]) ⟨⟨al, at', hlx,
                Or.inl (by omega), by intro hcon; omega⟩, Or.inl (by simp)⟩
      · have hres1 : internal_insert (AATree.node l x r lv) v =
            (AATree.node l x r lv, false) := by
          simp [internal_insert, if_neg h1, if_neg h2]
        rw [hres1]
        exact ⟨⟨al, ar, hlx, hr, hrh⟩, Or.inl rfl⟩

end InsertLemmas

section EraseRebalance

theorem updRight_node (l : AATree α) (x : α) (r : AATree α) (lv : Nat)
    (f : AATree α → AATree α) :
    updRight (AATree.node l x r lv) f = AATree.node l x (f r) lv := rfl

theorem decLevelStep_node (l : AATree α) (x : α) (r : AATree α) (lv : Nat) :
    decLevelStep (AATree.node l x r lv) =
      AATree.node l x (if r.level > lv - 1 then decLevelRoot r else r) (lv - 1) := rfl

/-- `skew` on a node whose left child sits at the same level rotates right. -/
theorem skew_fire (a : AATree α) (y : α) (b : AATree α) (x : α) (r : AATree α) (lv : Nat) :
    skew (AATree.node (AATree.node a y b lv) x r lv) =
      AATree.node a y (AATree.node b x r lv) lv := by
  rw [skew, if_pos (by simp)]
  rfl

/-- `skew` without a left-horizontal link is the identity. -/
theorem skew_skip {l : AATree α} {lv : Nat} (x : α) (r : AATree α) (h : ¬ lv = l.level) :
    skew (AATree.node l x r lv) = AATree.node l x r lv := by
  rw [skew, if_neg h]

/-- `split` on a run of three equal-level nodes along right links lifts the
middle node. -/
theorem split_fire (l : AATree α) (x : α) (b : AATree α) (z : α) (c : AATree α) (lv : Nat)
    (h : lv = c.level) :
    split (AATree.node l x (AATree.node b z c lv) lv) =
      AATree.node (AATree.node l x b lv) z c (lv + 1) := by
  rw [split, if_pos ⟨by simp, by simpa using h⟩]
  rfl

/-- `split` without two consecutive right-horizontal links is the identity. -/
theorem split_skip {r : AATree α} {lv : Nat} (l : AATree α) (x : α)
    (h : ¬ (lv = r.level ∧ lv = r.right.level)) :
    split (AATree.node l x r lv) = AATree.node l x r lv := by
  rw [split, if_neg h]

/-- The erase repair block restores the level invariants at a node whose left
subtree came back one level lower than the invariant demands.  The result
keeps the node's level or drops it by one, and when the level is kept and
the old right child was not horizontal, the repaired tree's right child is
not horizontal either. -/
theorem adjust_left_drop {l r : AATree α} {x : α} {n : Nat}
    (al : AAInv l) (ar : AAInv r) (hl : l.level = n)
    (hr : r.level = n + 1 ∨ r.level = n + 2)
    (hrh : r.level = n + 2 → r.right.level < n + 2) :
    AAInv (adjust (AATree.node l x r (n + 2))) ∧
      ((adjust (AATree.node l x r (n + 2))).level = n + 1 ∨
        (adjust (AATree.node l x r (n + 2))).level = n + 2) ∧
      ((adjust (AATree.node l x r (n + 2))).level = n + 2 → r.level = n + 1 →
        (adjust (AATree.node l x r (n + 2))).right.level = n + 1) := by
  have hcond : (AATree.node l x r (n + 2)).left.level + 1 < (AATree.node l x r (n + 2)).level ∨
      (AATree.node l x r (n + 2)).right.level + 1 < (AATree.node l x r (n + 2)).level := by
    simp only [left_node, right_node, level_node]
    omega
  rcases hr with hr1 | hr2
  · -- the right child is one level below the node
    cases r with
    | bottom =>
      exfalso
      rw [level_bottom] at hr1
      omega
    | node rl rx rr rlv =>
      rw [level_node] at hr1
      subst hr1
      obtain ⟨arl, arr, hrl, hrr, hrrh⟩ := ar
      have harn : AAInv (AATree.node rl rx rr (n + 1)) := ⟨arl, arr, hrl, hrr, hrrh⟩
      rcases hrr with hrr1 | hrr2
      · -- the right child's right child is horizontal: the final split fires
        have hA : adjust (AATree.node l x (AATree.node rl rx rr (n + 1)) (n + 2)) =
            AATree.node (AATree.node l x rl (n + 1)) rx rr (n + 2) := by
          rw [adjust, if_pos hcond, decLevelStep_node, (by omega : n + 2 - 1 = n + 1),
            if_neg (by simp only [level_node]; omega), skew_skip x _ (by omega)]
          simp only [updRight_node]
          rw [skew_of_aainv harn]
          simp only [updRight_node]
          rw [skew_of_aainv arr, split_fire l x rl rx rr (n + 1) hrr1.symm]
          simp only [updRight_node]
          rw [split_of_aainv arr]
        rw [hA]
        refine ⟨⟨⟨al, arl, by omega, Or.inr (by omega), by intro hcon; omega⟩, arr,
          by simp, Or.inr (by omega), by intro hcon; omega⟩,
          Or.inr (by simp), ?_⟩
        intro h1 h2
        simp only [right_node, level_node]
        omega
      · -- no split needed: the node simply drops to level n+1
        have hA : adjust (AATree.node l x (AATree.node rl rx rr (n + 1)) (n + 2)) =
            AATree.node l x (AATree.node rl rx rr (n + 1)) (n + 1) := by
          rw [adjust, if_pos hcond, decLevelStep_node, (by omega : n + 2 - 1 = n + 1),
            if_neg (by simp only [level_node]; omega), skew_skip x _ (by omega)]
          simp only [updRight_node]
          rw [skew_of_aainv harn]
          simp only [updRight_node]
          rw [skew_of_aainv arr,
            split_skip l x (by rintro ⟨-, h2⟩; simp only [right_node, level_node] at h2; omega)]
          simp only [updRight_node]
          rw [split_of_aainv harn]
        rw [hA]
        refine ⟨⟨al, harn, by omega, Or.inl (by simp), ?_⟩, Or.inl (by simp), ?_⟩
        · intro hcon
          simp only [right_node, level_node]
          omega
        · intro h1 h2
          simp only [level_node] at h1
          omega
  · -- the right child was horizontal: it is decremented too
    cases r with
    | bottom =>
      exfalso
      rw [level_bottom] at hr2
      omega
    | node rl rx rr rlv =>
      rw [level_node] at hr2
      subst hr2
      obtain ⟨arl, arr, hrl, hrr, hrrh⟩ := ar
      have hrrn : rr.level = n + 1 := by
        have := hrh (by simp)
        simp only [right_node, level_node] at this
        omega
      cases rl with
      | bottom =>
        exfalso
        rw [level_bottom] at hrl
        omega
      | node rla rlx rlb rllv =>
        rw [level_node] at hrl
        have hrllv : rllv = n + 1 := by omega
        subst hrllv
        obtain ⟨arla, arlb, hrla, hrlb, hrlbh⟩ := arl
        have e1 : adjust (AATree.node l x
            (AATree.node (AATree.node rla rlx rlb (n + 1)) rx rr (n + 2)) (n + 2)) =
            updRight (split (AATree.node l x (AATree.node rla rlx
              (skew (AATree.node rlb rx rr (n + 1))) (n + 1)) (n + 1))) split := by
          rw [adjust, if_pos hcond, decLevelStep_node, (by omega : n + 2 - 1 = n + 1),
            if_pos (by simp only [level_node]; omega)]
          rw [show decLevelRoot (AATree.node (AATree.node rla rlx rlb (n + 1)) rx rr (n + 2)) =
            AATree.node (AATree.node rla rlx rlb (n + 1)) rx rr (n + 1) from by
              rw [decLevelRoot, (by omega : n + 2 - 1 = n + 1)]]
          rw [skew_skip x _ (by omega)]
          simp only [updRight_node]
          rw [skew_fire]
          simp only [updRight_node]
        rcases hrlb with hrlb1 | hrlb2
        · -- inner skew fires as well
          cases rlb with
          | bottom =>
            exfalso
            rw [level_bottom] at hrlb1
            omega
          | node p q s plv =>
            rw [level_node] at hrlb1
            subst hrlb1
            obtain ⟨ap, as, hp, hs, hsh⟩ := arlb
            have hsn : s.level = n := by
              have := hrlbh (by simp)
              simp only [right_node, level_node] at this
              omega
            have hA : adjust (AATree.node l x
                (AATree.node (AATree.node rla rlx (AATree.node p q s (n + 1)) (n + 1))
                  rx rr (n + 2)) (n + 2)) =
                AATree.node (AATree.node l x rla (n + 1)) rlx
                  (AATree.node (AATree.node p q s (n + 1)) rx rr (n + 2)) (n + 2) := by
              rw [e1, skew_fire,
                split_fire l x rla rlx (AATree.node p q (AATree.node s rx rr (n + 1)) (n + 1))
                  (n + 1) (by simp)]
              simp only [updRight_node]
              rw [split_fire p q s rx rr (n + 1) hrrn.symm]
            rw [hA]
            refine ⟨⟨⟨al, arla, by omega, Or.inr (by omega), by intro hcon; omega⟩,
              ⟨⟨ap, as, by omega, Or.inr (by omega), by intro hcon; omega⟩, arr,
                by simp, Or.inr (by omega), by intro hcon; omega⟩,
              by simp, Or.inl (by simp), ?_⟩, Or.inr (by simp), ?_⟩
            · intro hcon
              simp only [right_node, level_node]
              omega
            · intro h1 h2
              simp only [level_node] at h2
              omega
        · -- inner skew is the identity; the last split decides the shape
          have hskewskip : skew (AATree.node rlb rx rr (n + 1)) =
              AATree.node rlb rx rr (n + 1) := skew_skip rx rr (by omega)
          cases rr with
          | bottom =>
            exfalso
            rw [level_bottom] at hrrn
            omega
          | node rrl rrx rrr rrlv =>
            rw [level_node] at hrrn
            subst hrrn
            obtain ⟨arrl, arrr, hrrl, hrrr, hrrrh⟩ := arr
            have harr : AAInv (AATree.node rrl rrx rrr (n + 1)) :=
              ⟨arrl, arrr, hrrl, hrrr, hrrrh⟩
            rcases hrrr with hrrr1 | hrrr2
            · -- a run of three at level n+1 remains: the trailing split fires
              have hA : adjust (AATree.node l x
                  (AATree.node (AATree.node rla rlx rlb (n + 1)) rx
                    (AATree.node rrl rrx rrr (n + 1)) (n + 2)) (n + 2)) =
                  AATree.node (AATree.node l x rla (n + 1)) rlx
                    (AATree.node (AATree.node rlb rx rrl (n + 1)) rrx rrr (n + 2)) (n + 2) := by
                rw [e1, hskewskip,
                  split_fire l x rla rlx (AATree.node rlb rx
                    (AATree.node rrl rrx rrr (n + 1)) (n + 1)) (n + 1) (by simp)]
                simp only [updRight_node]
                rw [split_fire rlb rx rrl rrx rrr (n + 1) hrrr1.symm]
              rw [hA]
              refine ⟨⟨⟨al, arla, by omega, Or.inr (by omega), by intro hcon; omega⟩,
                ⟨⟨arlb, arrl, by omega, Or.inr (by omega), by intro hcon; omega⟩, arrr,
                  by simp, Or.inr (by omega), by intro hcon; omega⟩,
                by simp, Or.inl (by simp), ?_⟩, Or.inr (by simp), ?_⟩
              · intro hcon
                simp only [right_node, level_node]
                omega
              · intro h1 h2
                simp only [level_node] at h2
                omega
            · -- the trailing split is the identity
              have hA : adjust (AATree.node l x
                  (AATree.node (AATree.node rla rlx rlb (n + 1)) rx
                    (AATree.node rrl rrx rrr (n + 1)) (n + 2)) (n + 2)) =
                  AATree.node (AATree.node l x rla (n + 1)) rlx
                    (AATree.node rlb rx (AATree.node rrl rrx rrr (n + 1)) (n + 1)) (n + 2) := by
                rw [e1, hskewskip,
                  split_fire l x rla rlx (AATree.node rlb rx
                    (AATree.node rrl rrx rrr (n + 1)) (n + 1)) (n + 1) (by simp)]
                simp only [updRight_node]
                rw [split_skip rlb rx
                  (by rintro ⟨-, h2⟩; simp only [right_node, level_node] at h2; omega)]
              rw [hA]
              refine ⟨⟨⟨al, arla, by omega, Or.inr (by omega), by intro hcon; omega⟩,
                ⟨arlb, harr, by omega, Or.inl (by simp), ?_⟩,
                by simp, Or.inr (by simp),
                by intro hcon; simp only [right_node, level_node]; omega⟩,
                Or.inr (by simp), ?_⟩
              · intro hcon
                simp only [right_node, level_node]
                omega
              · intro h1 h2
                simp only [level_node] at h2
                omega

/-- The erase repair block restores the level invariants at a node whose
right subtree came back one level lower than the invariant demands.  The
result keeps the node's level or drops it by one, and when the level is kept
the repaired tree's right child is not horizontal. -/
theorem adjust_right_drop {l r : AATree α} {x : α} {n : Nat}
    (al : AAInv l) (ar : AAInv r) (hl : l.level = n + 1) (hr : r.level = n) :
    AAInv (adjust (AATree.node l x r (n + 2))) ∧
      ((adjust (AATree.node l x r (n + 2))).level = n + 1 ∨
        (adjust (AATree.node l x r (n + 2))).level = n + 2) ∧
      ((adjust (AATree.node l x r (n + 2))).level = n + 2 →
        (adjust (AATree.node l x r (n + 2))).right.level = n + 1) := by
  have hcond : (AATree.node l x r (n + 2)).left.level + 1 < (AATree.node l x r (n + 2)).level ∨
      (AATree.node l x r (n + 2)).right.level + 1 < (AATree.node l x r (n + 2)).level := by
    simp only [left_node, right_node, level_node]
    omega
  cases l with
  | bottom =>
    exfalso
    rw [level_bottom] at hl
    omega
  | node la lx lb llv =>
    rw [level_node] at hl
    subst hl
    obtain ⟨ala, alb, hla, hlb, hlbh⟩ := al
    have e1 : adjust (AATree.node (AATree.node la lx lb (n + 1)) x r (n + 2)) =
        updRight (split (AATree.node la lx
          (updRight (skew (AATree.node lb x r (n + 1))) skew) (n + 1))) split := by
      rw [adjust, if_pos hcond, decLevelStep_node, (by omega : n + 2 - 1 = n + 1),
        if_neg (by omega), skew_fire]
      simp only [updRight_node]
    rcases hlb with hlb1 | hlb2
    · -- the left child's right child was horizontal: the inner skew fires
      cases lb with
      | bottom =>
        exfalso
        rw [level_bottom] at hlb1
        omega
      | node p q s plv =>
        rw [level_node] at hlb1
        subst hlb1
        obtain ⟨ap, as, hp, hs, hsh⟩ := alb
        have hsn : s.level = n := by
          have := hlbh (by simp)
          simp only [right_node, level_node] at this
          omega
        have hA : adjust (AATree.node (AATree.node la lx
            (AATree.node p q s (n + 1)) (n + 1)) x r (n + 2)) =
            AATree.node (AATree.node la lx p (n + 1)) q
              (AATree.node s x r (n + 1)) (n + 2) := by
          rw [e1, skew_fire]
          simp only [updRight_node]
          rw [skew_skip x r (by omega),
            split_fire la lx p q (AATree.node s x r (n + 1)) (n + 1) (by simp)]
          simp only [updRight_node]
          rw [split_skip s x (by rintro ⟨h1, -⟩; omega)]
        rw [hA]
        refine ⟨⟨⟨ala, ap, by omega, Or.inr (by omega), by intro hcon; omega⟩,
          ⟨as, ar, by omega, Or.inr (by omega), by intro hcon; omega⟩,
          by simp, Or.inr (by simp),
          by intro hcon; simp only [right_node, level_node]; omega⟩,
          Or.inr (by simp), ?_⟩
        intro h1
        simp [right_node, level_node]
    · -- the inner skew is the identity and no split fires: level drops
      have hA : adjust (AATree.node (AATree.node la lx lb (n + 1)) x r (n + 2)) =
          AATree.node la lx (AATree.node lb x r (n + 1)) (n + 1) := by
        rw [e1, skew_skip x r (by omega)]
        simp only [updRight_node]
        rw [skew_of_aainv ar,
          split_skip la lx
            (by rintro ⟨-, h2⟩; simp only [right_node, level_node] at h2; omega)]
        simp only [updRight_node]
        rw [split_skip lb x (by rintro ⟨h1, -⟩; omega)]
      rw [hA]
      refine ⟨⟨ala, ⟨alb, ar, by omega, Or.inr (by omega), by intro hcon; omega⟩,
        by omega, Or.inl (by simp),
        by intro hcon; simp only [right_node, level_node]; omega⟩,
        Or.inl (by simp), ?_⟩
      intro h1
      simp only [level_node] at h1
      omega

/-- Level-invariant preservation of `internal_erase`: the result satisfies
the invariants, its level equals the old level or is one less, and when the
level is kept and the old right child was below the node's level, the new
right child still is (no right-horizontal link appears at a node that had
none). -/
theorem internal_erase_aainv (toE : Option α) {t : AATree α} {v : α} (h : AAInv t) :
    AAInv (internal_erase t v toE).1 ∧
      ((internal_erase t v toE).1.level = t.level ∨
        (internal_erase t v toE).1.level + 1 = t.level) ∧
      ((internal_erase t v toE).1.level = t.level → t.right.level < t.level →
        (internal_erase t v toE).1.right.level < (internal_erase t v toE).1.level) := by
  induction t generalizing toE with
  | bottom =>
    refine ⟨trivial, Or.inl rfl, ?_⟩
    intro h1 h2
    simp at h2
  | node l x r lv ihl ihr =>
    obtain ⟨al, ar, hlx, hr, hrh⟩ := h
    have key : ∀ w : AATree α, (internal_erase (AATree.node l x r lv) v toE).1 = w →
        AAInv w ∧ (w.level = lv ∨ w.level + 1 = lv) ∧
          (w.level = lv → r.level < lv → w.right.level < w.level) →
        AAInv (internal_erase (AATree.node l x r lv) v toE).1 ∧
          ((internal_erase (AATree.node l x r lv) v toE).1.level =
              (AATree.node l x r lv).level ∨
            (internal_erase (AATree.node l x r lv) v toE).1.level + 1 =
              (AATree.node l x r lv).level) ∧
          ((internal_erase (AATree.node l x r lv) v toE).1.level =
              (AATree.node l x r lv).level →
            (AATree.node l x r lv).right.level < (AATree.node l x r lv).level →
            (internal_erase (AATree.node l x r lv) v toE).1.right.level <
              (internal_erase (AATree.node l x r lv) v toE).1.level) := by
      intro w hw hprop
      rw [hw]
      simpa using hprop
    by_cases h1 : v < x
    · cases l with
      | bottom =>
        rw [level_bottom] at hlx
        have hlv : lv = 1 := by omega
        subst hlv
        rcases toE with _ | w0
        · have he : internal_erase (AATree.node AATree.bottom x r 1) v none =
              (adjust (AATree.node AATree.bottom x r 1), false, none) := by
            rw [internal_erase.eq_def]
            simp [if_pos h1]
          have hinv : AAInv (AATree.node AATree.bottom x r 1) :=
            ⟨trivial, ar, by simp, hr, hrh⟩
          refine key _ (by rw [he]; exact adjust_of_aainv hinv) ⟨hinv, Or.inl rfl, ?_⟩
          intro hc1 hc2
          simpa using hc2
        · by_cases hm : ¬ w0 < v ∧ ¬ v < w0
          · have he : internal_erase (AATree.node AATree.bottom x r 1) v (some w0) =
                (adjust r, true, some x) := by
              rw [internal_erase.eq_def]
              simp [if_pos h1, hm]
            refine key r (by rw [he]; exact adjust_of_aainv ar) ⟨ar, hr, ?_⟩
            intro hc1 hc2
            omega
          · have he : internal_erase (AATree.node AATree.bottom x r 1) v (some w0) =
                (adjust (AATree.node AATree.bottom x r 1), false, none) := by
              rw [internal_erase.eq_def]
              simp only [if_pos h1]
              rw [if_neg hm]
            have hinv : AAInv (AATree.node AATree.bottom x r 1) :=
              ⟨trivial, ar, by simp, hr, hrh⟩
            refine key _ (by rw [he]; exact adjust_of_aainv hinv) ⟨hinv, Or.inl rfl, ?_⟩
            intro hc1 hc2
            simpa using hc2
      | node la ly lb llv =>
        have he : (internal_erase
            (AATree.node (AATree.node la ly lb llv) x r lv) v toE).1 =
            adjust (AATree.node
              (internal_erase (AATree.node la ly lb llv) v toE).1 x r lv) := by
          rw [internal_erase.eq_def]
          simp [if_pos h1]
        simp only [level_node] at hlx
        obtain ⟨ie, ilev, isngl⟩ := ihl toE al
        obtain ⟨u, hu⟩ : ∃ u, (internal_erase (AATree.node la ly lb llv) v toE).1 = u :=
          ⟨_, rfl⟩
        rw [hu] at ie ilev isngl he
        simp only [level_node] at ilev
        rcases ilev with hsame | hdrop
        · -- left subtree level unchanged: the repair block is a no-op
          have hinv : AAInv (AATree.node u x r lv) := ⟨ie, ar, by omega, hr, hrh⟩
          refine key _ (by rw [he]; exact adjust_of_aainv hinv) ⟨hinv, Or.inl rfl, ?_⟩
          intro hc1 hc2
          simpa using hc2
        · -- left subtree dropped a level: apply the repair analysis
          obtain ⟨n, rfl⟩ : ∃ n, lv = n + 2 := ⟨lv - 2, by omega⟩
          have hn : u.level = n := by omega
          have hr' : r.level = n + 1 ∨ r.level = n + 2 := by omega
          obtain ⟨ja, jl, js⟩ := adjust_left_drop ie ar hn hr' hrh
          refine key _ (by rw [he]) ⟨ja, by omega, ?_⟩
          intro hc1 hc2
          have := js hc1 (by omega)
          omega
    · cases r with
      | bottom =>
        simp only [level_bottom] at hr hrh
        have hlv : lv = 1 := by omega
        subst hlv
        have hlb : l = AATree.bottom := by
          cases l with
          | bottom => rfl
          | node la' ly' lb' llv' =>
            exfalso
            have := aainv_level_pos al
            rw [level_node] at hlx
            omega
        subst hlb
        by_cases hm : ¬ x < v ∧ ¬ v < x
        · have he : internal_erase (AATree.node AATree.bottom x AATree.bottom 1) v toE =
              (adjust AATree.bottom, true, none) := by
            rw [internal_erase.eq_def]
            simp only [if_neg h1]
            rw [if_pos hm]
          refine key AATree.bottom (by rw [he]; exact adjust_of_aainv aainv_bottom)
            ⟨trivial, Or.inr (by simp), ?_⟩
          intro hc1
          simp at hc1
        · have he : internal_erase (AATree.node AATree.bottom x AATree.bottom 1) v toE =
              (adjust (AATree.node AATree.bottom x AATree.bottom 1), false, none) := by
            rw [internal_erase.eq_def]
            simp only [if_neg h1]
            rw [if_neg hm]
          have hinv : AAInv (AATree.node AATree.bottom x AATree.bottom 1) :=
            ⟨trivial, trivial, by simp, Or.inr (by simp), by intro hcon; simp at hcon⟩
          refine key _ (by rw [he]; exact adjust_of_aainv hinv) ⟨hinv, Or.inl rfl, ?_⟩
          intro hc1 hc2
          simp
      | node ra ry rb rlv =>
        simp only [level_node, right_node] at hr hrh
        have main : ∀ z : α,
            (internal_erase (AATree.node l x (AATree.node ra ry rb rlv) lv) v toE).1 =
              adjust (AATree.node l z
                (internal_erase (AATree.node ra ry rb rlv) v (some x)).1 lv) →
            AAInv (internal_erase (AATree.node l x (AATree.node ra ry rb rlv) lv) v toE).1 ∧
              ((internal_erase (AATree.node l x (AATree.node ra ry rb rlv) lv) v toE).1.level =
                  (AATree.node l x (AATree.node ra ry rb rlv) lv).level ∨
                (internal_erase
                    (AATree.node l x (AATree.node ra ry rb rlv) lv) v toE).1.level + 1 =
                  (AATree.node l x (AATree.node ra ry rb rlv) lv).level) ∧
              ((internal_erase (AATree.node l x (AATree.node ra ry rb rlv) lv) v toE).1.level =
                  (AATree.node l x (AATree.node ra ry rb rlv) lv).level →
                (AATree.node l x (AATree.node ra ry rb rlv) lv).right.level <
                  (AATree.node l x (AATree.node ra ry rb rlv) lv).level →
                (internal_erase
                    (AATree.node l x (AATree.node ra ry rb rlv) lv) v toE).1.right.level <
                  (internal_erase
                    (AATree.node l x (AATree.node ra ry rb rlv) lv) v toE).1.level) := by
          intro z hz
          obtain ⟨ie, ilev, isngl⟩ := ihr (some x) ar
          obtain ⟨u, hu⟩ :
              ∃ u, (internal_erase (AATree.node ra ry rb rlv) v (some x)).1 = u := ⟨_, rfl⟩
          rw [hu] at ie ilev isngl hz
          simp only [level_node, right_node] at ilev isngl
          rcases ilev with hsame | hdrop
          · -- right subtree level unchanged
            have hinv : AAInv (AATree.node l z u lv) := by
              refine ⟨al, ie, hlx, by omega, ?_⟩
              intro hcon
              have hh : rb.level < rlv := by
                have := hrh (by omega)
                omega
              have := isngl (by omega) hh
              omega
            refine key _ (by rw [hz]; exact adjust_of_aainv hinv) ⟨hinv, Or.inl rfl, ?_⟩
            intro hc1 hc2
            simp only [right_node, level_node] at hc2 ⊢
            omega
          · rcases hr with hreq | hrsucc
            · -- the right child was horizontal: its level drop keeps things legal
              have hinv : AAInv (AATree.node l z u lv) := by
                refine ⟨al, ie, hlx, Or.inr (by omega), ?_⟩
                intro hcon
                omega
              refine key _ (by rw [hz]; exact adjust_of_aainv hinv) ⟨hinv, Or.inl rfl, ?_⟩
              intro hc1 hc2
              simp only [level_node] at hc2
              omega
            · -- the right child dropped below legal range: apply the repair analysis
              obtain ⟨n, rfl⟩ : ∃ n, lv = n + 2 := ⟨lv - 2, by omega⟩
              have hdl : l.level = n + 1 := by omega
              have hdu : u.level = n := by omega
              obtain ⟨ja, jl, js⟩ := adjust_right_drop al ie hdl hdu
              refine key _ (by rw [hz]) ⟨ja, by omega, ?_⟩
              intro hc1 hc2
              have := js hc1
              omega
        rcases hp : (internal_erase (AATree.node ra ry rb rlv) v (some x)).2.2 with _ | w
        · exact main x (by rw [internal_erase.eq_def]; simp [if_neg h1, hp])
        · exact main w (by rw [internal_erase.eq_def]; simp [if_neg h1, hp])

end EraseRebalance

section EraseInorder

theorem filter_ne_of_forall_gt {L : List α} {v : α} (h : ∀ y ∈ L, v < y) :
    L.filter (fun y => decide (y ≠ v)) = L := by
  rw [List.filter_eq_self]
  intro a ha
  simpa using ne_of_gt (h a ha)

theorem filter_ne_of_forall_lt {L : List α} {v : α} (h : ∀ y ∈ L, y < v) :
    L.filter (fun y => decide (y ≠ v)) = L := by
  rw [List.filter_eq_self]
  intro a ha
  simpa using ne_of_lt (h a ha)

theorem filter_chunk_left {L R : List α} {v x : α} (hvx : v < x) (hR : ∀ y ∈ R, x < y) :
    (L ++ x :: R).filter (fun y => decide (y ≠ v)) =
      L.filter (fun y => decide (y ≠ v)) ++ x :: R := by
  rw [List.filter_append, List.filter_cons]
  have hx : decide (x ≠ v) = true := by simpa using ne_of_gt hvx
  rw [hx]
  simp only [if_true]
  rw [filter_ne_of_forall_gt (fun y hy => lt_trans hvx (hR y hy))]

theorem filter_chunk_right {L R : List α} {v x : α} (hxv : x < v) (hL : ∀ y ∈ L, y < x) :
    (L ++ x :: R).filter (fun y => decide (y ≠ v)) =
      L ++ x :: R.filter (fun y => decide (y ≠ v)) := by
  rw [List.filter_append, List.filter_cons]
  have hx : decide (x ≠ v) = true := by simpa using ne_of_lt hxv
  rw [hx]
  simp only [if_true]
  rw [filter_ne_of_forall_lt (fun y hy => lt_trans (hL y hy) hxv)]

theorem filter_chunk_eq {L R : List α} {v : α} (hL : ∀ y ∈ L, y < v) (hR : ∀ y ∈ R, v < y) :
    (L ++ v :: R).filter (fun y => decide (y ≠ v)) = L ++ R := by
  rw [List.filter_append, List.filter_cons]
  have hx : decide (v ≠ v) = false := by simp
  rw [hx]
  simp only [if_false, Bool.false_eq_true]
  rw [filter_ne_of_forall_lt hL, filter_ne_of_forall_gt hR]

/-- Value-level specification of `internal_erase` on a binary search tree.
Three exclusive situations arise, matching the source's `to_erase`/`last`
protocol:
* the target value is stored in the subtree: exactly it is removed from the
  in-order sequence and `is_erased` is signalled (the pending overwrite has
  been resolved inside the subtree);
* the subtree is a proper right-spine continuation of the recorded
  `to_erase` node (`to_erase->value == value`, every element here is larger
  than the target): the subtree's minimum is spliced out, `is_erased` is
  signalled, and the minimum is handed up to overwrite `to_erase->value`;
* otherwise nothing changes and nothing is signalled. -/
theorem internal_erase_spec (t : AATree α) (v : α) :
    BSTInv t → ∀ toE : Option α, (toE = some v → ∀ y ∈ t.inorder, v < y) →
      ((v ∈ t.inorder →
          (internal_erase t v toE).1.inorder =
            t.inorder.filter (fun y => decide (y ≠ v)) ∧
          (internal_erase t v toE).2.1 = true ∧
          (internal_erase t v toE).2.2 = none) ∧
        (v ∉ t.inorder → toE = some v → t ≠ AATree.bottom →
          ∃ m L', t.inorder = m :: L' ∧
            (internal_erase t v toE).1.inorder = L' ∧
            (internal_erase t v toE).2.1 = true ∧
            (internal_erase t v toE).2.2 = some m) ∧
        (v ∉ t.inorder → toE ≠ some v →
          (internal_erase t v toE).1.inorder = t.inorder ∧
          (internal_erase t v toE).2.1 = false ∧
          (internal_erase t v toE).2.2 = none)) := by
  induction t with
  | bottom =>
    intro hb toE hctx
    refine ⟨?_, ?_, ?_⟩
    · intro hmem
      simp at hmem
    · intro _ _ hne
      exact absurd rfl hne
    · intro _ _
      exact ⟨rfl, rfl, rfl⟩
  | node l x r lv ihl ihr =>
    intro hb toE hctx
    obtain ⟨bl, br, hl_lt, hr_gt⟩ := hb
    by_cases h1 : v < x
    · -- descend left
      have hvmem : v ∈ (AATree.node l x r lv).inorder ↔ v ∈ l.inorder := by
        simp only [inorder_node, List.mem_append, List.mem_cons]
        constructor
        · rintro (h | rfl | h)
          · exact h
          · exact absurd h1 (lt_irrefl _)
          · exact absurd (hr_gt v h) (lt_asymm h1)
        · exact fun h => Or.inl h
      have hctx' : toE = some v → ∀ y ∈ l.inorder, v < y := by
        intro he' y hy
        exact hctx he' y (by simp [hy])
      cases l with
      | bottom =>
        have hnm : v ∉ (AATree.node AATree.bottom x r lv).inorder := by
          intro h
          simpa using hvmem.1 h
        rcases toE with _ | w0
        · have he : internal_erase (AATree.node AATree.bottom x r lv) v none =
              (adjust (AATree.node AATree.bottom x r lv), false, none) := by
            rw [internal_erase.eq_def]
            simp [if_pos h1]
          rw [he]
          refine ⟨fun hmem => absurd hmem hnm, ?_, ?_⟩
          · intro _ hee _
            exact absurd hee (by simp)
          · intro _ _
            exact ⟨by simp, rfl, rfl⟩
        · by_cases hm : ¬ w0 < v ∧ ¬ v < w0
          · have hw0 : w0 = v := le_antisymm (not_lt.1 hm.2) (not_lt.1 hm.1)
            have he : internal_erase (AATree.node AATree.bottom x r lv) v (some w0) =
                (adjust r, true, some x) := by
              rw [internal_erase.eq_def]
              simp [if_pos h1, hm]
            rw [he]
            refine ⟨fun hmem => absurd hmem hnm, ?_, ?_⟩
            · intro _ _ _
              exact ⟨x, r.inorder, by simp, by simp, rfl, rfl⟩
            · intro _ hne
              exact absurd (by rw [hw0]) hne
          · have hw0 : w0 ≠ v := by
              intro hh
              subst hh
              exact hm ⟨lt_irrefl w0, lt_irrefl w0⟩
            have he : internal_erase (AATree.node AATree.bottom x r lv) v (some w0) =
                (adjust (AATree.node AATree.bottom x r lv), false, none) := by
              rw [internal_erase.eq_def]
              simp only [if_pos h1]
              rw [if_neg hm]
            rw [he]
            refine ⟨fun hmem => absurd hmem hnm, ?_, ?_⟩
            · intro _ hee _
              exact absurd (Option.some.inj hee) hw0
            · intro _ _
              exact ⟨by simp, rfl, rfl⟩
      | node la ly lb llv =>
        obtain ⟨A1, B1, C1⟩ := ihl bl toE hctx'
        rcases hres : internal_erase (AATree.node la ly lb llv) v toE with ⟨t', e, p⟩
        rw [hres] at A1 B1 C1
        simp only at A1 B1 C1
        have he : internal_erase
            (AATree.node (AATree.node la ly lb llv) x r lv) v toE =
            (adjust (AATree.node t' x r lv), e, p) := by
          rw [internal_erase.eq_def]
          simp [if_pos h1, hres]
        rw [he]
        have hgt : ∀ y ∈ r.inorder, x < y := hr_gt
        refine ⟨?_, ?_, ?_⟩
        · intro hmem
          obtain ⟨e1, e2, e3⟩ := A1 (hvmem.1 hmem)
          subst e2
          subst e3
          refine ⟨?_, rfl, rfl⟩
          simp only [inorder_node] at e1
          simp only [inorder_adjust, inorder_node]
          rw [filter_chunk_left h1 hgt, e1]
        · intro hnm hee hbot
          obtain ⟨m, L', hm1, hm2, hm3, hm4⟩ :=
            B1 (fun hh => hnm (hvmem.2 hh)) hee (by simp)
          subst hm3
          subst hm4
          refine ⟨m, L' ++ x :: r.inorder, ?_, ?_, rfl, rfl⟩
          · simp [hm1]
          · simp [hm2]
        · intro hnm hne
          obtain ⟨e1, e2, e3⟩ := C1 (fun hh => hnm (hvmem.2 hh)) hne
          subst e2
          subst e3
          refine ⟨?_, rfl, rfl⟩
          simp [e1]
    · -- equal or descend right
      have hxle : x ≤ v := not_lt.1 h1
      have hvniml : v ∉ l.inorder := by
        intro hh
        exact absurd (hl_lt v hh) h1
      cases r with
      | bottom =>
        by_cases hm : ¬ x < v ∧ ¬ v < x
        · have hxv : x = v := le_antisymm hxle (not_lt.1 hm.1)
          subst hxv
          have he : internal_erase (AATree.node l x AATree.bottom lv) x toE =
              (adjust l, true, none) := by
            rw [internal_erase.eq_def]
            simp only [if_neg h1]
            rw [if_pos hm]
          rw [he]
          have hmem : x ∈ (AATree.node l x AATree.bottom lv).inorder := by simp
          refine ⟨?_, ?_, ?_⟩
          · intro _
            refine ⟨?_, rfl, rfl⟩
            simp only [inorder_node, inorder_bottom]
            rw [filter_chunk_eq hl_lt (by simp)]
            simp
          · intro hnm
            exact absurd hmem hnm
          · intro hnm
            exact absurd hmem hnm
        · have hxv : x < v := by
            rcases not_and_or.1 hm with h | h
            · exact not_not.1 h
            · exact absurd (not_not.1 h) h1
          have hnm : v ∉ (AATree.node l x AATree.bottom lv).inorder := by
            simp only [inorder_node, inorder_bottom, List.mem_append, List.mem_cons]
            rintro (h | rfl | h)
            · exact absurd (hl_lt v h) (lt_asymm hxv)
            · exact absurd hxv (lt_irrefl v)
            · simp at h
          have he : internal_erase (AATree.node l x AATree.bottom lv) v toE =
              (adjust (AATree.node l x AATree.bottom lv), false, none) := by
            rw [internal_erase.eq_def]
            simp only [if_neg h1]
            rw [if_neg hm]
          rw [he]
          refine ⟨fun hmem => absurd hmem hnm, ?_, ?_⟩
          · intro _ hee _
            have := hctx hee x (by simp)
            exact absurd this (lt_asymm hxv)
          · intro _ _
            exact ⟨by simp, rfl, rfl⟩
      | node ra ry rb rlv =>
        have hctx'' : (some x : Option α) = some v →
            ∀ y ∈ (AATree.node ra ry rb rlv).inorder, v < y := by
          intro hee y hy
          have hxv := Option.some.inj hee
          subst hxv
          exact hr_gt y hy
        obtain ⟨A1, B1, C1⟩ := ihr br (some x) hctx''
        rcases hres : internal_erase (AATree.node ra ry rb rlv) v (some x) with ⟨t', e, p⟩
        rw [hres] at A1 B1 C1
        simp only at A1 B1 C1
        by_cases hx : x = v
        · -- the node holding the value: splice out the right subtree's minimum
          subst hx
          have hvnr : x ∉ (AATree.node ra ry rb rlv).inorder := by
            intro hh
            exact absurd (hr_gt x hh) (lt_irrefl x)
          obtain ⟨m, L', hm1, hm2, hm3, hm4⟩ := B1 hvnr rfl (by simp)
          subst hm3
          subst hm4
          have he : internal_erase
              (AATree.node l x (AATree.node ra ry rb rlv) lv) x toE =
              (adjust (AATree.node l m t' lv), true, none) := by
            rw [internal_erase.eq_def]
            simp [if_neg h1, hres]
          rw [he]
          have hmem : x ∈ (AATree.node l x (AATree.node ra ry rb rlv) lv).inorder := by simp
          refine ⟨?_, ?_, ?_⟩
          · intro _
            refine ⟨?_, rfl, rfl⟩
            simp only [inorder_node] at hm1
            simp only [inorder_adjust, inorder_node]
            have hr_gt' : ∀ y ∈ ra.inorder ++ ry :: rb.inorder, x < y := hr_gt
            rw [filter_chunk_eq hl_lt hr_gt', hm1, hm2]
          · intro hnm
            exact absurd hmem hnm
          · intro hnm
            exact absurd hmem hnm
        · have hxv : x < v := lt_of_le_of_ne hxle hx
          have hvmem : v ∈ (AATree.node l x (AATree.node ra ry rb rlv) lv).inorder ↔
              v ∈ (AATree.node ra ry rb rlv).inorder := by
            simp only [inorder_node, List.mem_append, List.mem_cons]
            constructor
            · rintro (h | rfl | h)
              · exact absurd (hl_lt v h) (lt_asymm hxv)
              · exact absurd hxv (lt_irrefl v)
              · exact h
            · intro h
              right; right; exact h
          by_cases hvr : v ∈ (AATree.node ra ry rb rlv).inorder
          · obtain ⟨e1, e2, e3⟩ := A1 hvr
            subst e2
            subst e3
            have he : internal_erase
                (AATree.node l x (AATree.node ra ry rb rlv) lv) v toE =
                (adjust (AATree.node l x t' lv), true, none) := by
              rw [internal_erase.eq_def]
              simp [if_neg h1, hres]
            rw [he]
            refine ⟨?_, ?_, ?_⟩
            · intro _
              refine ⟨?_, rfl, rfl⟩
              simp only [inorder_node] at e1
              simp only [inorder_adjust, inorder_node]
              rw [filter_chunk_right hxv hl_lt, e1]
            · intro hnm
              exact absurd (hvmem.2 hvr) hnm
            · intro hnm
              exact absurd (hvmem.2 hvr) hnm
          · obtain ⟨e1, e2, e3⟩ := C1 hvr (fun hh => hx (Option.some.inj hh))
            subst e2
            subst e3
            have he : internal_erase
                (AATree.node l x (AATree.node ra ry rb rlv) lv) v toE =
                (adjust (AATree.node l x t' lv), false, none) := by
              rw [internal_erase.eq_def]
              simp [if_neg h1, hres]
            rw [he]
            refine ⟨?_, ?_, ?_⟩
            · intro hmem
              exact absurd (hvmem.1 hmem) hvr
            · intro _ hee _
              have := hctx hee x (by simp)
              exact absurd this (lt_asymm hxv)
            · intro _ _
              refine ⟨?_, rfl, rfl⟩
              simp [e1]

end EraseInorder

section FindLemmas

/-- `internal_find` returns the first in-order value that is `≥ value`
(the last node at which the search went left or stopped on equality), and
otherwise the tracked `last` node it was started with. -/
theorem internal_find_spec (t : AATree α) (v : α) (hb : BSTInv t) :
    ∀ last : Option α,
      internal_find t v last =
        ((t.inorder.find? (fun y => decide (v ≤ y))).orElse (fun _ => last)) := by
  induction t with
  | bottom =>
    intro last
    simp [internal_find, Option.orElse]
  | node l x r lv ihl ihr =>
    obtain ⟨bl, br, hl_lt, hr_gt⟩ := hb
    intro last
    by_cases h1 : v < x
    · have hfr : internal_find (AATree.node l x r lv) v last = internal_find l v (some x) := by
        rw [internal_find.eq_def]
        simp [if_pos h1]
      rw [hfr, ihl bl (some x)]
      simp only [inorder_node, List.find?_append]
      have hx : (x :: r.inorder).find? (fun y => decide (v ≤ y)) = some x :=
        List.find?_cons_of_pos _ (by simpa using le_of_lt h1)
      rw [hx]
      cases l.inorder.find? (fun y => decide (v ≤ y)) <;> simp [Option.orElse]
    · by_cases h2 : x < v
      · have hfr : internal_find (AATree.node l x r lv) v last = internal_find r v last := by
          rw [internal_find.eq_def]
          simp [if_neg h1, if_pos h2]
        rw [hfr, ihr br last]
        have hfl : l.inorder.find? (fun y => decide (v ≤ y)) = none := by
          rw [List.find?_eq_none]
          intro y hy
          simp only [decide_eq_true_eq]
          exact not_le.2 (lt_trans (hl_lt y hy) h2)
        have hfx : ¬ (fun y => decide (v ≤ y)) x = true := by
          simpa using not_le.2 h2
        have hrhs : (x :: r.inorder).find? (fun y => decide (v ≤ y)) =
            r.inorder.find? (fun y => decide (v ≤ y)) := List.find?_cons_of_neg _ hfx
        simp only [inorder_node, List.find?_append, hfl, hrhs]
        cases r.inorder.find? (fun y => decide (v ≤ y)) <;> simp [Option.orElse]
      · have hveq : v = x := le_antisymm (not_lt.1 h2) (not_lt.1 h1)
        subst hveq
        have hfr : internal_find (AATree.node l v r lv) v last = some v := by
          rw [internal_find.eq_def]
          simp [if_neg h1, if_neg h2]
        have hfl : l.inorder.find? (fun y => decide (v ≤ y)) = none := by
          rw [List.find?_eq_none]
          intro y hy
          simp only [decide_eq_true_eq]
          exact not_le.2 (hl_lt y hy)
        have hx : (v :: r.inorder).find? (fun y => decide (v ≤ y)) = some v :=
          List.find?_cons_of_pos _ (by simp)
        rw [hfr]
        simp only [inorder_node, List.find?_append, hfl, hx]
        simp [Option.orElse]

/-- The first element `≥ v` of a strictly sorted list is the minimum of all
elements `≥ v`. -/
theorem sorted_find_min {L : List α} (hs : List.Pairwise (· < ·) L) {v w : α}
    (h : L.find? (fun y => decide (v ≤ y)) = some w) :
    ∀ y ∈ L, v ≤ y → w ≤ y := by
  induction L with
  | nil => simp at h
  | cons a L ih =>
    rcases List.pairwise_cons.1 hs with ⟨ha, hL⟩
    by_cases hp : v ≤ a
    · rw [List.find?_cons_of_pos _ (by simpa using hp)] at h
      have hw : a = w := Option.some.inj h
      subst hw
      intro y hy hvy
      rcases List.mem_cons.1 hy with rfl | hy'
      · exact le_refl _
      · exact le_of_lt (ha y hy')
    · rw [List.find?_cons_of_neg _ (by simpa using hp)] at h
      intro y hy hvy
      rcases List.mem_cons.1 hy with rfl | hy'
      · exact absurd hvy hp
      · exact ih hL h y hy' hvy

end FindLemmas

section SetLevel

/-- Inserting a fresh value grows the in-order list by exactly one entry. -/
theorem internal_insert_length {t : AATree α} {v : α}
    (h : (internal_insert t v).2 = true) :
    (internal_insert t v).1.inorder.length = t.inorder.length + 1 := by
  induction t with
  | bottom => simp [internal_insert, make_node]
  | node l x r lv ihl ihr =>
    by_cases h1 : v < x
    · have hfl : (internal_insert l v).2 = true := by
        simpa [internal_insert, if_pos h1] using h
      have he : (internal_insert (AATree.node l x r lv) v).1 =
          split (skew (AATree.node (internal_insert l v).1 x r lv)) := by
        simp [internal_insert, if_pos h1, hfl]
      rw [he]
      simp only [inorder_split, inorder_skew, inorder_node, List.length_append,
        List.length_cons, ihl hfl]
      omega
    · by_cases h2 : x < v
      · have hfr : (internal_insert r v).2 = true := by
          simpa [internal_insert, if_neg h1, if_pos h2] using h
        have he : (internal_insert (AATree.node l x r lv) v).1 =
            split (skew (AATree.node l x (internal_insert r v).1 lv)) := by
          simp [internal_insert, if_neg h1, if_pos h2, hfr]
        rw [he]
        simp only [inorder_split, inorder_skew, inorder_node, List.length_append,
          List.length_cons, ihr hfr]
        omega
      · exfalso
        simp [internal_insert, if_neg h1, if_neg h2] at h

/-- Filtering one present value out of a duplicate-free list shortens it by
exactly one entry. -/
theorem length_filter_ne_of_mem {L : List α} (hn : L.Nodup) {v : α} (hm : v ∈ L) :
    (L.filter (fun y => decide (y ≠ v))).length + 1 = L.length := by
  induction L with
  | nil => simp at hm
  | cons a L ih =>
    rcases List.nodup_cons.1 hn with ⟨hna, hnL⟩
    rcases List.mem_cons.1 hm with rfl | hm'
    · have hfix : L.filter (fun y => decide (y ≠ v)) = L := by
        rw [List.filter_eq_self]
        intro y hy
        simp only [decide_eq_true_eq]
        intro hh
        exact hna (hh ▸ hy)
      have hstep : (v :: L).filter (fun y => decide (y ≠ v)) =
          L.filter (fun y => decide (y ≠ v)) := by
        rw [List.filter_cons]
        simp
      rw [hstep, hfix]
      simp
    · have hne : decide (a ≠ v) = true := by
        simp only [decide_eq_true_eq]
        intro hh
        exact hna (hh ▸ hm')
      rw [List.filter_cons, hne]
      simp only [if_true, List.length_cons]
      rw [← ih hnL hm']

/-- The representation invariant of a container state: tree level invariants,
search-tree ordering, and an accurate `node_count`. -/
def Valid (s : Set α) : Prop :=
  AAInv s.root ∧ BSTInv s.root ∧ s.node_count = s.root.inorder.length

theorem valid_empty : Valid (Set.empty : Set α) := ⟨trivial, trivial, rfl⟩

/-- `insert` of an already stored value is a complete no-op on the container
state. -/
theorem Set.insert_of_mem {s : Set α} (h : Valid s) {v : α} (hm : v ∈ s.toList) :
    s.insert v = s := by
  obtain ⟨ha, hb, hc⟩ := h
  have hi := internal_insert_of_mem hb hm
  cases s with
  | mk root cnt => simp_all [Set.insert]

/-- `insert` preserves the representation invariant and stores exactly the
old values plus the new one. -/
theorem Set.insert_valid {s : Set α} (h : Valid s) (v : α) :
    Valid (s.insert v) ∧ ∀ y, y ∈ (s.insert v).toList ↔ y = v ∨ y ∈ s.toList := by
  by_cases hm : v ∈ s.toList
  · rw [Set.insert_of_mem h hm]
    refine ⟨h, fun y => ?_⟩
    constructor
    · exact Or.inr
    · rintro (rfl | hy)
      · exact hm
      · exact hy
  · obtain ⟨ha, hb, hc⟩ := h
    obtain ⟨hflag, hbst, hmem⟩ := internal_insert_of_not_mem hb hm
    have haa := (internal_insert_aainv (v := v) ha).1
    have hlen := internal_insert_length hflag
    constructor
    · refine ⟨?_, ?_, ?_⟩
      · simpa [Set.insert] using haa
      · simpa [Set.insert] using hbst
      · simp [Set.insert, hflag, hlen, hc]
    · intro y
      simpa [Set.insert, Set.toList] using hmem y

/-- `erase` preserves the representation invariant and stores exactly the
old values minus the target. -/
theorem Set.erase_valid {s : Set α} (h : Valid s) (v : α) :
    Valid (s.erase v) ∧ ∀ y, y ∈ (s.erase v).toList ↔ y ∈ s.toList ∧ y ≠ v := by
  obtain ⟨ha, hb, hc⟩ := h
  have haa := (internal_erase_aainv (v := v) none ha).1
  obtain ⟨A1, B1, C1⟩ := internal_erase_spec s.root v hb none (by simp)
  have hpw := (bstinv_iff_pairwise s.root).1 hb
  by_cases hm : v ∈ s.root.inorder
  · obtain ⟨e1, e2, e3⟩ := A1 hm
    have hnodup : s.root.inorder.Nodup := hpw.imp ne_of_lt
    have hlen := length_filter_ne_of_mem hnodup hm
    constructor
    · refine ⟨?_, ?_, ?_⟩
      · simpa [Set.erase] using haa
      · rw [bstinv_iff_pairwise]
        have hroot : (s.erase v).root = (internal_erase s.root v none).1 := by
          simp [Set.erase]
        rw [hroot, e1]
        exact List.Pairwise.sublist (List.filter_sublist _) hpw
      · simp only [Set.erase, e2, if_true]
        rw [e1, hc]
        omega
    · intro y
      have : (s.erase v).toList = (internal_erase s.root v none).1.inorder := by
        simp [Set.erase, Set.toList]
      rw [this, e1]
      simp [List.mem_filter, Set.toList]
  · obtain ⟨e1, e2, e3⟩ := C1 hm (by simp)
    constructor
    · refine ⟨?_, ?_, ?_⟩
      · simpa [Set.erase] using haa
      · rw [bstinv_iff_pairwise]
        have hroot : (s.erase v).root = (internal_erase s.root v none).1 := by
          simp [Set.erase]
        rw [hroot, e1]
        exact hpw
      · simp only [Set.erase, e2]
        rw [e1, hc]
        simp
    · intro y
      have : (s.erase v).toList = (internal_erase s.root v none).1.inorder := by
        simp [Set.erase, Set.toList]
      rw [this, e1]
      constructor
      · intro hy
        exact ⟨hy, fun hh => hm (hh ▸ hy)⟩
      · exact fun hy => hy.1

/-- A container reached from `Set.empty` by any operation sequence satisfies
the representation invariant. -/
theorem valid_applyOps_of {s : Set α} (h : Valid s) (ops : List (Op α)) :
    Valid (applyOps s ops) := by
  induction ops generalizing s with
  | nil => exact h
  | cons op rest ih =>
    cases op with
    | ins v => exact ih (Set.insert_valid h v).1
    | del v => exact ih (Set.erase_valid h v).1

theorem valid_applyOps (ops : List (Op α)) : Valid (applyOps Set.empty ops) :=
  valid_applyOps_of valid_empty ops

/-- `find` on a valid container returns exactly the stored value equal to
the query, or nothing. -/
theorem Set.find_spec {s : Set α} (h : Valid s) (v : α) :
    s.find v = if v ∈ s.toList then some v else none := by
  obtain ⟨ha, hb, hc⟩ := h
  have hf := internal_find_spec s.root v hb none
  cases hfind : s.root.inorder.find? (fun y => decide (v ≤ y)) with
  | none =>
    have hif : internal_find s.root v none = none := by
      rw [hf, hfind]
      rfl
    have hnm : v ∉ s.toList := by
      intro hmem
      have := List.find?_eq_none.1 hfind v hmem
      simp at this
    simp [Set.find, hif, hnm]
  | some w =>
    have hif : internal_find s.root v none = some w := by
      rw [hf, hfind]
      rfl
    have hwmem : w ∈ s.toList := List.mem_of_find?_eq_some hfind
    have hwge : v ≤ w := by simpa using List.find?_some hfind
    by_cases hm : v ∈ s.toList
    · have hmin := sorted_find_min ((bstinv_iff_pairwise _).1 hb) hfind v hm (le_refl v)
      have hveq : w = v := le_antisymm hmin hwge
      subst hveq
      simp [Set.find, hif, hm]
    · have hne : w ≠ v := fun hh => hm (hh ▸ hwmem)
      have hlt : v < w := lt_of_le_of_ne hwge (fun hh => hne hh.symm)
      simp [Set.find, hif, if_pos hlt, hm]

/-- `lower_bound` on a valid container: `none` exactly when no stored value
is `≥ v`, otherwise the least stored value `≥ v`. -/
theorem Set.lower_bound_spec {s : Set α} (h : Valid s) (v : α) :
    (s.lower_bound v = none → ∀ y ∈ s.toList, y < v) ∧
      (∀ w, s.lower_bound v = some w →
        w ∈ s.toList ∧ v ≤ w ∧ ∀ y ∈ s.toList, v ≤ y → w ≤ y) := by
  obtain ⟨ha, hb, hc⟩ := h
  have hf : s.lower_bound v =
      ((s.root.inorder.find? (fun y => decide (v ≤ y))).orElse (fun _ => none)) :=
    internal_find_spec s.root v hb none
  cases hfind : s.root.inorder.find? (fun y => decide (v ≤ y)) with
  | none =>
    rw [hfind] at hf
    refine ⟨?_, ?_⟩
    · intro _ y hy
      have := List.find?_eq_none.1 hfind y hy
      simpa using this
    · intro w hw
      rw [hf] at hw
      simp [Option.orElse] at hw
  | some w0 =>
    rw [hfind] at hf
    have hf' : s.lower_bound v = some w0 := by
      rw [hf]
      rfl
    refine ⟨?_, ?_⟩
    · intro hcon
      rw [hf'] at hcon
      simp at hcon
    · intro w hw
      rw [hf'] at hw
      have hww : w0 = w := Option.some.inj hw
      subst hww
      refine ⟨List.mem_of_find?_eq_some hfind, by simpa using List.find?_some hfind, ?_⟩
      exact sorted_find_min ((bstinv_iff_pairwise _).1 hb) hfind

end SetLevel

section Paths

/-- A position in the tree: the list of edges from the root (`false` = left
child, `true` = right child).  This is the path-level image of a node
pointer; parent pointers are path prefixes (the source maintains
`parent` fields that always agree with the tree shape, and the root's
parent is the sentinel). -/
def subtreeAt : AATree α → List Bool → AATree α
  | t, [] => t
  | t, d :: p => subtreeAt (if d then t.right else t.left) p

@[simp] theorem subtreeAt_nil (t : AATree α) : subtreeAt t [] = t := rfl

@[simp] theorem subtreeAt_cons_false (l : AATree α) (x : α) (r : AATree α) (lv : Nat)
    (p : List Bool) : subtreeAt (AATree.node l x r lv) (false :: p) = subtreeAt l p := rfl

@[simp] theorem subtreeAt_cons_true (l : AATree α) (x : α) (r : AATree α) (lv : Nat)
    (p : List Bool) : subtreeAt (AATree.node l x r lv) (true :: p) = subtreeAt r p := rfl

@[simp] theorem subtreeAt_bottom (p : List Bool) :
    subtreeAt (AATree.bottom : AATree α) p = AATree.bottom := by
  induction p with
  | nil => rfl
  | cons d p ih => cases d <;> simpa using ih

/-- The path `Node::go_left` walks (left edges while the left child is real). -/
def leftSpinePath : AATree α → List Bool
  | .bottom => []
  | .node l _ _ _ =>
    match l with
    | .bottom => []
    | .node la ly lb llv => false :: leftSpinePath (.node la ly lb llv)

/-- The path `Node::go_right` walks (right edges while the right child is
real). -/
def rightSpinePath : AATree α → List Bool
  | .bottom => []
  | .node _ _ r _ =>
    match r with
    | .bottom => []
    | .node ra ry rb rlv => true :: rightSpinePath (.node ra ry rb rlv)

/-- The parent walk of `get_next` on a reversed path: pop right edges until
a left edge is popped (the first ancestor reached through its left child);
`none` when the walk exits through the root (the loop of the source then
returns the sentinel). -/
def upLeftRev : List Bool → Option (List Bool)
  | [] => none
  | true :: rest => upLeftRev rest
  | false :: rest => some rest

/-- The mirror parent walk of `get_previous`. -/
def upRightRev : List Bool → Option (List Bool)
  | [] => none
  | false :: rest => upRightRev rest
  | true :: rest => some rest

/-- `Node::get_next` at the path level: if the right child is real, the
leftmost node of the right subtree; otherwise walk up parent links until
arriving from a left child; `none` is the sentinel ("no successor").  The
`level = 0` guard mirrors the source's loop condition when `get_next` is
invoked on the sentinel itself. -/
def get_next_path (t : AATree α) (p : List Bool) : Option (List Bool) :=
  let n := subtreeAt t p
  if 0 < n.right.level then some (p ++ true :: leftSpinePath n.right)
  else if n.level = 0 then none
  else (upLeftRev p.reverse).map List.reverse

/-- `Node::get_previous` at the path level (mirror of `get_next_path`). -/
def get_previous_path (t : AATree α) (p : List Bool) : Option (List Bool) :=
  let n := subtreeAt t p
  if 0 < n.left.level then some (p ++ false :: rightSpinePath n.left)
  else if n.level = 0 then none
  else (upRightRev p.reverse).map List.reverse

/-- The iterator state: a node position and the `is_end` flag. -/
structure Iter where
  path : List Bool
  is_end : Bool
deriving DecidableEq

/-- `iterator::operator++`: if the successor is the sentinel (level 0), set
`is_end` without moving the node pointer; otherwise move to the successor
and leave the flag untouched. -/
def iterSucc (t : AATree α) (it : Iter) : Iter :=
  match get_next_path t it.path with
  | none => ⟨it.path, true⟩
  | some q => ⟨q, it.is_end⟩

/-- `iterator::operator--`: at the end position clear `is_end` without
moving the node pointer; otherwise move to the predecessor.  When no
predecessor exists the source parks the node pointer on the sentinel, which
we represent by a path that walks into the sentinel (undefined behaviour
per spec §7; never reached from valid iterator use). -/
def iterPred (t : AATree α) (it : Iter) : Iter :=
  if it.is_end then ⟨it.path, false⟩
  else
    match get_previous_path t it.path with
    | some q => ⟨q, it.is_end⟩
    | none => ⟨it.path ++ [false], it.is_end⟩

/-- The private iterator constructor: forces `is_end` when the node is the
sentinel (level 0). -/
def mkIter (t : AATree α) (p : List Bool) (e : Bool) : Iter :=
  ⟨p, if (subtreeAt t p).level = 0 then true else e⟩

/-- `begin()`: iterator at the leftmost node. -/
def Set.beginIt (s : Set α) : Iter := mkIter s.root (leftSpinePath s.root) false

/-- `end()`: iterator backed by the rightmost node with `is_end` set. -/
def Set.endIt (s : Set α) : Iter := mkIter s.root (rightSpinePath s.root) true

/-- The value stored at a position. -/
def valueAt (t : AATree α) (p : List Bool) : Option α := (subtreeAt t p).value?

/-- Repeated `operator++` from an iterator, collecting `operator*` at every
position until `is_end`; the fuel bounds the number of steps. -/
def travel (t : AATree α) : Nat → Iter → List α
  | 0, _ => []
  | fuel + 1, it =>
    if it.is_end then []
    else
      match (subtreeAt t it.path).value? with
      | none => []
      | some x => x :: travel t fuel (iterSucc t it)

/-- The full traversal `begin()` to `end()`. -/
def Set.traverse (s : Set α) : List α := travel s.root (s.size + 1) s.beginIt

/-- The in-order sequence of positions (paths) of a tree. -/
def inorderPaths : AATree α → List (List Bool)
  | .bottom => []
  | .node l _ r _ =>
    (inorderPaths l).map (List.cons false) ++ [] :: (inorderPaths r).map (List.cons true)

/-- Every stored level is positive (the sentinel aside). -/
def PosLevels : AATree α → Prop
  | .bottom => True
  | .node l _ r lv => 0 < lv ∧ PosLevels l ∧ PosLevels r

theorem posLevels_of_aainv {t : AATree α} (h : AAInv t) : PosLevels t := by
  induction t with
  | bottom => trivial
  | node l x r lv ihl ihr =>
    obtain ⟨al, ar, hlx, hr, hrh⟩ := h
    exact ⟨by omega, ihl al, ihr ar⟩

theorem inorderPaths_length (t : AATree α) :
    (inorderPaths t).length = t.inorder.length := by
  induction t with
  | bottom => rfl
  | node l x r lv ihl ihr => simp [inorderPaths, ihl, ihr]

theorem inorderPaths_values (t : AATree α) :
    (inorderPaths t).map (valueAt t) = t.inorder.map some := by
  induction t with
  | bottom => rfl
  | node l x r lv ihl ihr =>
    have h1 : (inorderPaths l).map (valueAt (AATree.node l x r lv) ∘ List.cons false) =
        l.inorder.map some := by
      rw [← ihl]
      rfl
    have h2 : (inorderPaths r).map (valueAt (AATree.node l x r lv) ∘ List.cons true) =
        r.inorder.map some := by
      rw [← ihr]
      rfl
    simp only [inorderPaths, inorder_node, List.map_append, List.map_cons, List.map_map]
    rw [h1, h2]
    rfl

theorem inorderPaths_real (t : AATree α) :
    ∀ p ∈ inorderPaths t, subtreeAt t p ≠ AATree.bottom := by
  induction t with
  | bottom => simp [inorderPaths]
  | node l x r lv ihl ihr =>
    intro p hp
    simp only [inorderPaths, List.mem_append, List.mem_cons, List.mem_map] at hp
    rcases hp with ⟨q, hq, rfl⟩ | rfl | ⟨q, hq, rfl⟩
    · simpa using ihl q hq
    · simp
    · simpa using ihr q hq

theorem inorderPaths_ne_nil {l r : AATree α} {x : α} {lv : Nat} :
    inorderPaths (AATree.node l x r lv) ≠ [] := by
  simp [inorderPaths]

theorem inorderPaths_head (t : AATree α) (h : t ≠ AATree.bottom) :
    (inorderPaths t).head? = some (leftSpinePath t) := by
  induction t with
  | bottom => exact absurd rfl h
  | node l x r lv ihl ihr =>
    cases l with
    | bottom => simp [inorderPaths, leftSpinePath]
    | node la ly lb llv =>
      have hh := ihl (by simp)
      rw [show leftSpinePath (AATree.node (AATree.node la ly lb llv) x r lv) =
        false :: leftSpinePath (AATree.node la ly lb llv) from rfl]
      rw [show inorderPaths (AATree.node (AATree.node la ly lb llv) x r lv) =
        (inorderPaths (AATree.node la ly lb llv)).map (List.cons false) ++
          ([] : List Bool) :: (inorderPaths r).map (List.cons true) from rfl]
      rw [List.head?_append, List.head?_map, hh]
      rfl

theorem inorderPaths_getLast (t : AATree α) (h : t ≠ AATree.bottom) :
    (inorderPaths t).getLast? = some (rightSpinePath t) := by
  induction t with
  | bottom => exact absurd rfl h
  | node l x r lv ihl ihr =>
    cases r with
    | bottom => simp [inorderPaths, rightSpinePath]
    | node ra ry rb rlv =>
      have hh := ihr (by simp)
      rw [show rightSpinePath (AATree.node l x (AATree.node ra ry rb rlv) lv) =
        true :: rightSpinePath (AATree.node ra ry rb rlv) from rfl]
      rw [show inorderPaths (AATree.node l x (AATree.node ra ry rb rlv) lv) =
        (inorderPaths l).map (List.cons false) ++
          (([] : List Bool) ::
            (inorderPaths (AATree.node ra ry rb rlv)).map (List.cons true)) from rfl]
      rw [List.getLast?_append]
      rw [show (([] : List Bool) ::
          (inorderPaths (AATree.node ra ry rb rlv)).map (List.cons true)) =
        [([] : List Bool)] ++
          (inorderPaths (AATree.node ra ry rb rlv)).map (List.cons true) from rfl]
      rw [List.getLast?_append, List.getLast?_map, hh]
      rfl

theorem rightSpinePath_all_true (t : AATree α) : ∀ d ∈ rightSpinePath t, d = true := by
  induction t with
  | bottom => simp [rightSpinePath]
  | node l x r lv ihl ihr =>
    cases r with
    | bottom => simp [rightSpinePath]
    | node ra ry rb rlv =>
      intro d hd
      rw [show rightSpinePath (AATree.node l x (AATree.node ra ry rb rlv) lv) =
        true :: rightSpinePath (AATree.node ra ry rb rlv) from rfl] at hd
      rcases List.mem_cons.1 hd with rfl | hd'
      · rfl
      · exact ihr d hd'

theorem subtreeAt_rightSpine (t : AATree α) :
    (subtreeAt t (rightSpinePath t)).right = AATree.bottom := by
  induction t with
  | bottom => simp [rightSpinePath]
  | node l x r lv ihl ihr =>
    cases r with
    | bottom => simp [rightSpinePath]
    | node ra ry rb rlv =>
      rw [show rightSpinePath (AATree.node l x (AATree.node ra ry rb rlv) lv) =
        true :: rightSpinePath (AATree.node ra ry rb rlv) from rfl]
      simpa using ihr

theorem subtreeAt_rightSpine_ne {l r : AATree α} {x : α} {lv : Nat} :
    subtreeAt (AATree.node l x r lv) (rightSpinePath (AATree.node l x r lv)) ≠
      AATree.bottom := by
  induction r generalizing l x lv with
  | bottom => simp [rightSpinePath]
  | node ra ry rb rlv iha ihb =>
    rw [show rightSpinePath (AATree.node l x (AATree.node ra ry rb rlv) lv) =
      true :: rightSpinePath (AATree.node ra ry rb rlv) from rfl]
    simpa using ihb

theorem subtreeAt_leftSpine_ne {l r : AATree α} {x : α} {lv : Nat} :
    subtreeAt (AATree.node l x r lv) (leftSpinePath (AATree.node l x r lv)) ≠
      AATree.bottom := by
  induction l generalizing x r lv with
  | bottom => simp [leftSpinePath]
  | node la ly lb llv iha ihb =>
    rw [show leftSpinePath (AATree.node (AATree.node la ly lb llv) x r lv) =
      false :: leftSpinePath (AATree.node la ly lb llv) from rfl]
    simpa using iha

theorem upLeftRev_append (xs ys : List Bool) :
    upLeftRev (xs ++ ys) =
      match upLeftRev xs with
      | some q => some (q ++ ys)
      | none => upLeftRev ys := by
  induction xs with
  | nil => simp [upLeftRev]
  | cons d xs ih =>
    cases d <;> simp [upLeftRev, ih]

theorem posLevels_subtreeAt {t : AATree α} (h : PosLevels t) (p : List Bool) :
    PosLevels (subtreeAt t p) := by
  induction p generalizing t with
  | nil => exact h
  | cons d p ih =>
    cases t with
    | bottom =>
      rw [subtreeAt_bottom]
      trivial
    | node l x r lv =>
      obtain ⟨-, hl, hr⟩ := h
      cases d
      · simpa using ih hl
      · simpa using ih hr

theorem level_pos_of_posLevels {t : AATree α} (h : PosLevels t)
    (hne : t ≠ AATree.bottom) : 0 < t.level := by
  cases t with
  | bottom => exact absurd rfl hne
  | node l x r lv => exact h.1

theorem aainv_subtreeAt {t : AATree α} (h : AAInv t) (p : List Bool) :
    AAInv (subtreeAt t p) := by
  induction p generalizing t with
  | nil => exact h
  | cons d p ih =>
    cases t with
    | bottom =>
      rw [subtreeAt_bottom]
      trivial
    | node l x r lv =>
      obtain ⟨hl, hr, -, -, -⟩ := h
      cases d
      · simpa using ih hl
      · simpa using ih hr

theorem upLeftRev_all_true {l : List Bool} (h : ∀ d ∈ l, d = true) :
    upLeftRev l = none := by
  induction l with
  | nil => rfl
  | cons d rest ih =>
    have hd : d = true := h d (by simp)
    subst hd
    exact ih fun d hd => h d (by simp [hd])

/-- `get_next` at the rightmost node goes all the way up without ever
arriving from a left child and lands on the sentinel. -/
theorem get_next_rightSpine {t : AATree α} (hp : PosLevels t)
    (hne : t ≠ AATree.bottom) : get_next_path t (rightSpinePath t) = none := by
  have h1 : (subtreeAt t (rightSpinePath t)).right = AATree.bottom :=
    subtreeAt_rightSpine t
  have h2 : subtreeAt t (rightSpinePath t) ≠ AATree.bottom := by
    cases t with
    | bottom => exact absurd rfl hne
    | node l x r lv => exact subtreeAt_rightSpine_ne
  have h3 : 0 < (subtreeAt t (rightSpinePath t)).level :=
    level_pos_of_posLevels (posLevels_subtreeAt hp _) h2
  have h4 : upLeftRev (rightSpinePath t).reverse = none :=
    upLeftRev_all_true fun d hd =>
      rightSpinePath_all_true t d (List.mem_reverse.1 hd)
  simp only [get_next_path, h1, level_bottom, h4]
  rw [if_neg (by omega), if_neg (by omega)]
  rfl

/-- Moving the successor computation one step below a right edge. -/
theorem get_next_path_cons_true (l : AATree α) (x : α) (r : AATree α) (lv : Nat)
    (p : List Bool) :
    get_next_path (AATree.node l x r lv) (true :: p) =
      (get_next_path r p).map (List.cons true) := by
  simp only [get_next_path, subtreeAt_cons_true]
  by_cases h1 : 0 < (subtreeAt r p).right.level
  · rw [if_pos h1, if_pos h1]
    rfl
  · rw [if_neg h1, if_neg h1]
    by_cases h2 : (subtreeAt r p).level = 0
    · rw [if_pos h2, if_pos h2]
      rfl
    · rw [if_neg h2, if_neg h2]
      rw [show (true :: p).reverse = p.reverse ++ [true] by simp, upLeftRev_append]
      cases hu : upLeftRev p.reverse with
      | none => rfl
      | some u => simp

/-- Moving the successor computation one step below a left edge, when the
node below has a successor of its own. -/
theorem get_next_path_cons_false_some (l : AATree α) (x : α) (r : AATree α)
    (lv : Nat) {p q : List Bool} (hq : get_next_path l p = some q) :
    get_next_path (AATree.node l x r lv) (false :: p) = some (false :: q) := by
  simp only [get_next_path, subtreeAt_cons_false] at hq ⊢
  by_cases h1 : 0 < (subtreeAt l p).right.level
  · rw [if_pos h1] at hq ⊢
    obtain rfl : p ++ true :: leftSpinePath (subtreeAt l p).right = q := by
      simpa using hq
    rfl
  · rw [if_neg h1] at hq ⊢
    by_cases h2 : (subtreeAt l p).level = 0
    · rw [if_pos h2] at hq
      simp at hq
    · rw [if_neg h2] at hq ⊢
      rw [show (false :: p).reverse = p.reverse ++ [false] by simp, upLeftRev_append]
      cases hu : upLeftRev p.reverse with
      | none =>
        rw [hu] at hq
        simp at hq
      | some u =>
        rw [hu] at hq
        obtain rfl : u.reverse = q := by simpa using hq
        simp

/-- Moving the successor computation one step below a left edge, when the
node below is the maximum of its subtree: the successor is the parent. -/
theorem get_next_path_cons_false_none (l : AATree α) (x : α) (r : AATree α)
    (lv : Nat) {p : List Bool} (hp : 0 < (subtreeAt l p).level)
    (hq : get_next_path l p = none) :
    get_next_path (AATree.node l x r lv) (false :: p) = some [] := by
  simp only [get_next_path, subtreeAt_cons_false] at hq ⊢
  by_cases h1 : 0 < (subtreeAt l p).right.level
  · rw [if_pos h1] at hq
    simp at hq
  · rw [if_neg h1] at hq ⊢
    rw [if_neg (by omega)] at hq ⊢
    rw [show (false :: p).reverse = p.reverse ++ [false] by simp, upLeftRev_append]
    cases hu : upLeftRev p.reverse with
    | some u =>
      rw [hu] at hq
      simp at hq
    | none => rfl

/-- The successor of the root position. -/
theorem get_next_path_nil (l : AATree α) (x : α) (r : AATree α) (lv : Nat)
    (hlv : 0 < lv) :
    get_next_path (AATree.node l x r lv) [] =
      if 0 < r.level then some (true :: leftSpinePath r) else none := by
  simp only [get_next_path, subtreeAt_nil, right_node, level_node]
  by_cases h1 : 0 < r.level
  · rw [if_pos h1, if_pos h1]
    rfl
  · rw [if_neg h1, if_neg h1, if_neg (by omega)]
    rfl

/-- The in-order positions are linked, one to the next, by `get_next`, and
the last one has no successor. -/
theorem chain_inorderPaths (t : AATree α) (hp : PosLevels t) :
    List.Chain' (fun p q => get_next_path t p = some q) (inorderPaths t) ∧
      (∀ m, (inorderPaths t).getLast? = some m → get_next_path t m = none) := by
  induction t with
  | bottom => exact ⟨List.chain'_nil, by simp [inorderPaths]⟩
  | node l x r lv ihl ihr =>
    obtain ⟨hlv, hpl, hpr⟩ := hp
    obtain ⟨chl, lastl⟩ := ihl hpl
    obtain ⟨chr, lastr⟩ := ihr hpr
    have htne : AATree.node l x r lv ≠ AATree.bottom := fun hh =>
      AATree.noConfusion hh
    constructor
    · rw [show inorderPaths (AATree.node l x r lv) =
        (inorderPaths l).map (List.cons false) ++
          ([] : List Bool) :: (inorderPaths r).map (List.cons true) from rfl]
      rw [List.chain'_append]
      refine ⟨?_, ?_, ?_⟩
      · rw [List.chain'_map]
        exact chl.imp fun a b hab => get_next_path_cons_false_some l x r lv hab
      · rw [List.chain'_cons']
        constructor
        · intro y hy
          cases r with
          | bottom => simp [inorderPaths] at hy
          | node ra ry rb rlv =>
            have hh : ((inorderPaths (AATree.node ra ry rb rlv)).map
                (List.cons true)).head? = some (true :: leftSpinePath
                  (AATree.node ra ry rb rlv)) := by
              rw [List.head?_map, inorderPaths_head _ (fun hh =>
                AATree.noConfusion hh)]
              rfl
            rw [hh] at hy
            obtain rfl : true :: leftSpinePath (AATree.node ra ry rb rlv) = y := by
              simpa using hy
            rw [get_next_path_nil l x _ lv (by omega),
              if_pos (by exact hpr.1)]
        · rw [List.chain'_map]
          exact chr.imp fun a b hab => by
            rw [get_next_path_cons_true, hab]
            rfl
      · intro a ha b hb
        cases l with
        | bottom => simp [inorderPaths] at ha
        | node la ly lb llv =>
          have hlne : AATree.node la ly lb llv ≠ AATree.bottom := fun hh =>
            AATree.noConfusion hh
          have hha : ((inorderPaths (AATree.node la ly lb llv)).map
              (List.cons false)).getLast? = some (false :: rightSpinePath
                (AATree.node la ly lb llv)) := by
            rw [List.getLast?_map, inorderPaths_getLast _ hlne]
            rfl
          rw [hha] at ha
          obtain rfl : false :: rightSpinePath (AATree.node la ly lb llv) = a := by
            simpa using ha
          obtain rfl : ([] : List Bool) = b := by simpa using hb
          exact get_next_path_cons_false_none _ x r lv
            (level_pos_of_posLevels (posLevels_subtreeAt hpl _)
              subtreeAt_rightSpine_ne)
            (get_next_rightSpine hpl hlne)
    · intro m hm
      rw [inorderPaths_getLast _ htne] at hm
      obtain rfl : rightSpinePath (AATree.node l x r lv) = m := by simpa using hm
      exact get_next_rightSpine ⟨hlv, hpl, hpr⟩ htne

/-- Every in-order position other than the rightmost has a real successor. -/
theorem get_next_of_ne_max {t : AATree α} (hp : PosLevels t) :
    ∀ p ∈ inorderPaths t, p ≠ rightSpinePath t →
      ∃ q, get_next_path t p = some q := by
  induction t with
  | bottom => simp [inorderPaths]
  | node l x r lv ihl ihr =>
    obtain ⟨hlv, hpl, hpr⟩ := hp
    intro p hpmem hpne
    simp only [inorderPaths, List.mem_append, List.mem_cons, List.mem_map] at hpmem
    rcases hpmem with ⟨q', hq', rfl⟩ | rfl | ⟨q', hq', rfl⟩
    · have hlne : l ≠ AATree.bottom := by
        cases l with
        | bottom => simp [inorderPaths] at hq'
        | node la ly lb llv => exact fun hh => AATree.noConfusion hh
      by_cases hql : q' = rightSpinePath l
      · subst hql
        refine ⟨[], get_next_path_cons_false_none l x r lv ?_
          (get_next_rightSpine hpl hlne)⟩
        cases l with
        | bottom => exact absurd rfl hlne
        | node la ly lb llv =>
          exact level_pos_of_posLevels (posLevels_subtreeAt hpl _)
            subtreeAt_rightSpine_ne
      · obtain ⟨q, hq⟩ := ihl hpl q' hq' hql
        exact ⟨false :: q, get_next_path_cons_false_some l x r lv hq⟩
    · have hrne : r ≠ AATree.bottom := by
        intro hh
        apply hpne
        rw [hh]
        rfl
      have hrlv : 0 < r.level := level_pos_of_posLevels hpr hrne
      exact ⟨true :: leftSpinePath r, by
        rw [get_next_path_nil l x r lv (by omega), if_pos hrlv]⟩
    · have hne' : q' ≠ rightSpinePath r := by
        intro hh
        apply hpne
        rw [hh]
        cases r with
        | bottom => simp [inorderPaths] at hq'
        | node ra ry rb rlv => rfl
      obtain ⟨q, hq⟩ := ihr hpr q' hq' hne'
      refine ⟨true :: q, ?_⟩
      rw [get_next_path_cons_true, hq]
      rfl

theorem travel_end (t : AATree α) (fuel : Nat) (it : Iter) (h : it.is_end = true) :
    travel t fuel it = [] := by
  cases fuel with
  | zero => rfl
  | succ f => simp [travel, h]

/-- Repeated `operator++` from the head of a successor chain visits exactly
the chain. -/
theorem travel_spec (t : AATree α) (ps : List (List Bool)) :
    ∀ fuel : Nat, ps.length ≤ fuel →
      List.Chain' (fun p q => get_next_path t p = some q) ps →
      (∀ m, ps.getLast? = some m → get_next_path t m = none) →
      (∀ p ∈ ps, subtreeAt t p ≠ AATree.bottom) →
      ∀ p₀, ps.head? = some p₀ →
        (travel t fuel ⟨p₀, false⟩).map some = ps.map (valueAt t) := by
  induction ps with
  | nil =>
    intro fuel _ _ _ _ p₀ h
    simp at h
  | cons p ps ih =>
    intro fuel hfuel hch hlast hreal p₀ hp₀
    obtain rfl : p = p₀ := by simpa using hp₀
    cases fuel with
    | zero =>
      simp only [List.length_cons] at hfuel
      omega
    | succ f =>
      have hreal0 : subtreeAt t p ≠ AATree.bottom := hreal p (by simp)
      obtain ⟨x, hx⟩ : ∃ x, (subtreeAt t p).value? = some x := by
        cases htt : subtreeAt t p with
        | bottom => exact absurd htt hreal0
        | node a b c d => exact ⟨b, rfl⟩
      have hstep : travel t (f + 1) ⟨p, false⟩ =
          x :: travel t f (iterSucc t ⟨p, false⟩) := by
        simp [travel, hx]
      cases ps with
      | nil =>
        have hnone : get_next_path t p = none := hlast p (by simp)
        have hsucc : iterSucc t ⟨p, false⟩ = ⟨p, true⟩ := by
          simp [iterSucc, hnone]
        rw [hstep, hsucc, travel_end t f _ rfl]
        simp [valueAt, hx]
      | cons p₁ ps' =>
        obtain ⟨hR, hch'⟩ := List.chain'_cons.1 hch
        have hsucc : iterSucc t ⟨p, false⟩ = ⟨p₁, false⟩ := by
          simp [iterSucc, hR]
        have hrec := ih f (by simpa using Nat.le_of_succ_le_succ hfuel) hch'
          (fun m hm => hlast m (by rw [List.getLast?_cons_cons]; exact hm))
          (fun q hq => hreal q (by simp [hq]))
          p₁ rfl
        rw [hstep, hsucc]
        simp only [List.map_cons, hrec, valueAt, hx]

/-- The full `begin()`-to-`end()` traversal of a valid container is exactly
its in-order value sequence. -/
theorem Set.traverse_eq_toList {s : Set α} (h : Valid s) :
    s.traverse = s.toList := by
  obtain ⟨ha, hb, hc⟩ := h
  have hp : PosLevels s.root := posLevels_of_aainv ha
  by_cases hne : s.root = AATree.bottom
  · have hend : (s.beginIt).is_end = true := by
      show (mkIter s.root (leftSpinePath s.root) false).is_end = true
      rw [hne]
      rfl
    show travel s.root (s.size + 1) s.beginIt = s.toList
    rw [travel_end _ _ _ hend]
    show ([] : List α) = s.root.inorder
    rw [hne]
    rfl
  · obtain ⟨hch, hlast⟩ := chain_inorderPaths s.root hp
    have hlsne : subtreeAt s.root (leftSpinePath s.root) ≠ AATree.bottom := by
      cases hroot : s.root with
      | bottom => exact absurd hroot hne
      | node l x r lv => exact subtreeAt_leftSpine_ne
    have hlev : 0 < (subtreeAt s.root (leftSpinePath s.root)).level :=
      level_pos_of_posLevels (posLevels_subtreeAt hp _) hlsne
    have hbeg : s.beginIt = ⟨leftSpinePath s.root, false⟩ := by
      show mkIter s.root (leftSpinePath s.root) false = _
      unfold mkIter
      rw [if_neg (by omega)]
    have hlen : (inorderPaths s.root).length ≤ s.size + 1 := by
      rw [inorderPaths_length]
      show s.root.inorder.length ≤ s.node_count + 1
      omega
    have htr := travel_spec s.root (inorderPaths s.root) (s.size + 1) hlen hch
      hlast (inorderPaths_real s.root) (leftSpinePath s.root)
      (inorderPaths_head s.root hne)
    rw [inorderPaths_values] at htr
    have hinj : Function.Injective (fun y : α => some y) := fun a b hab =>
      Option.some.inj hab
    show travel s.root (s.size + 1) s.beginIt = s.root.inorder
    rw [hbeg]
    exact List.map_injective_iff.2 hinj htr

end Paths

section History

/-- One step of the stored-or-not history of a single value `v`: a later
`insert`/`erase` call mentioning `v` overrides the earlier state. -/
def storedStep (v : α) (b : Bool) : Op α → Bool
  | .ins w => if w = v then true else b
  | .del w => if w = v then false else b

/-- Whether `v` has been inserted and not subsequently erased over an
operation sequence applied to an initially empty container. -/
def storedAfter (v : α) (ops : List (Op α)) : Bool :=
  ops.foldl (storedStep v) false

/-- Membership after an operation sequence is the history fold of the
initial membership. -/
theorem mem_applyOps (ops : List (Op α)) (v : α) :
    ∀ s : Set α, Valid s →
      (v ∈ (applyOps s ops).toList ↔
        ops.foldl (storedStep v) (decide (v ∈ s.toList)) = true) := by
  induction ops with
  | nil =>
    intro s h
    simp [applyOps]
  | cons op rest ih =>
    intro s h
    cases op with
    | ins w =>
      have hmem := (Set.insert_valid h w).2
      have hval := (Set.insert_valid h w).1
      have hinit : decide (v ∈ (s.insert w).toList) =
          storedStep v (decide (v ∈ s.toList)) (Op.ins w) := by
        by_cases hw : w = v
        · subst hw
          simp [storedStep, hmem w]
        · simp only [storedStep, if_neg hw]
          rw [decide_eq_decide]
          rw [hmem v]
          constructor
          · rintro (rfl | hy)
            · exact absurd rfl hw
            · exact hy
          · exact Or.inr
      show v ∈ (applyOps (s.insert w) rest).toList ↔ _
      rw [ih (s.insert w) hval, List.foldl_cons, ← hinit]
    | del w =>
      have hmem := (Set.erase_valid h w).2
      have hval := (Set.erase_valid h w).1
      have hinit : decide (v ∈ (s.erase w).toList) =
          storedStep v (decide (v ∈ s.toList)) (Op.del w) := by
        by_cases hw : w = v
        · subst hw
          simp [storedStep, hmem w]
        · simp only [storedStep, if_neg hw]
          rw [decide_eq_decide]
          rw [hmem v]
          constructor
          · exact fun hy => hy.1
          · exact fun hy => ⟨hy, fun hh => hw hh.symm⟩
      show v ∈ (applyOps (s.erase w) rest).toList ↔ _
      rw [ih (s.erase w) hval, List.foldl_cons, ← hinit]

/-- `storedAfter` against a run from the empty container. -/
theorem storedAfter_iff_mem (ops : List (Op α)) (v : α) :
    storedAfter v ops = true ↔ v ∈ (applyOps Set.empty ops).toList := by
  rw [mem_applyOps ops v Set.empty valid_empty]
  have : decide (v ∈ (Set.empty : Set α).toList) = false := by
    simp [Set.toList, Set.empty]
  rw [storedAfter, this]

end History

namespace Ptr

/-- A heap cell of the pointer-level model: the fields of `struct Node`
(`value`, `left`, `right`, `parent`, `level`), pointers being heap indices.
Index 0 is the container's sentinel `bottom` node; a null pointer never
occurs as a link (the source replaces nulls by the sentinel). -/
structure Node (α : Type) where
  value : α
  left : Nat
  right : Nat
  parent : Nat
  level : Nat

/-- The mutable state of one container: the memory, the `root` pointer and
the next unused index (`new` hands indices out in order; the sentinel holds
index 0, so allocation starts at 1). -/
structure Heap (α : Type) where
  mem : Nat → Node α
  root : Nat
  next : Nat
  node_count : Nat

/-- A single field assignment `*i := n`. -/
def hset (m : Nat → Node α) (i : Nat) (n : Node α) : Nat → Node α :=
  fun k => if k = i then n else m k

def setLeft (m : Nat → Node α) (i j : Nat) : Nat → Node α :=
  hset m i { m i with left := j }

def setRight (m : Nat → Node α) (i j : Nat) : Nat → Node α :=
  hset m i { m i with right := j }

def setParent (m : Nat → Node α) (i j : Nat) : Nat → Node α :=
  hset m i { m i with parent := j }

def setLevel (m : Nat → Node α) (i lv : Nat) : Nat → Node α :=
  hset m i { m i with level := lv }

def setValue (m : Nat → Node α) (i : Nat) (v : α) : Nat → Node α :=
  hset m i { m i with value := v }

/-- `initialize()` (tree.h 240-248): allocate the sentinel at index 0 with
level 0 and all three links pointing to itself (`d` stands for the
default-constructed value), and let `root` point at it. -/
def init (m : Nat → Node α) (d : α) : Heap α :=
  { mem := hset m 0 { value := d, left := 0, right := 0, parent := 0, level := 0 },
    root := 0, next := 1, node_count := 0 }

/-- `make_node(value)` (tree.h 250-257): a fresh level-1 node whose links
all point at the sentinel.  Returns (memory, next free index, new node). -/
def make_node (m : Nat → Node α) (next : Nat) (value : α) :
    (Nat → Node α) × Nat × Nat :=
  (hset m next { value := value, left := 0, right := 0, parent := 0, level := 1 },
    next + 1, next)

/-- `rotate_left(v)` (tree.h 268-284), transcribed write for write; returns
(memory, `new_v`). -/
def rotate_left (m : Nat → Node α) (v : Nat) : (Nat → Node α) × Nat :=
  let parent := (m v).parent
  let new_v := (m v).right
  let m1 := setRight m v (m new_v).left
  let m2 := if (m1 v).right ≠ 0 then setParent m1 (m1 v).right v else m1
  let m3 := setLeft m2 new_v v
  let m4 := setParent m3 v new_v
  let m5 := setParent m4 new_v parent
  let m6 :=
    if (m5 parent).left = v then setLeft m5 parent new_v
    else if (m5 parent).right = v then setRight m5 parent new_v
    else m5
  (m6, new_v)

/-- `rotate_right(v)` (tree.h 286-302). -/
def rotate_right (m : Nat → Node α) (v : Nat) : (Nat → Node α) × Nat :=
  let parent := (m v).parent
  let new_v := (m v).left
  let m1 := setLeft m v (m new_v).right
  let m2 := if (m1 v).left ≠ 0 then setParent m1 (m1 v).left v else m1
  let m3 := setRight m2 new_v v
  let m4 := setParent m3 v new_v
  let m5 := setParent m4 new_v parent
  let m6 :=
    if (m5 parent).left = v then setLeft m5 parent new_v
    else if (m5 parent).right = v then setRight m5 parent new_v
    else m5
  (m6, new_v)

/-- `skew(node)` (tree.h 304-312). -/
def skew (m : Nat → Node α) (node : Nat) : (Nat → Node α) × Nat :=
  if node = 0 then (m, node)
  else if (m node).level = (m (m node).left).level then rotate_right m node
  else (m, node)

/-- `split(node)` (tree.h 314-323). -/
def split (m : Nat → Node α) (node : Nat) : (Nat → Node α) × Nat :=
  if node = 0 then (m, node)
  else if (m node).level = (m (m node).right).level ∧
      (m node).level = (m (m (m node).right).right).level then
    rotate_left (setLevel m (m node).right ((m (m node).right).level + 1)) node
  else (m, node)

/-- `internal_insert(node, is_inserted, value)` (tree.h 342-363) at the
pointer level, fuel-bounded (out of fuel: no writes, nothing inserted).
Returns (memory, next free index, replacement subtree root, `is_inserted`). -/
def internal_insert [LinearOrder α] :
    Nat → (Nat → Node α) → Nat → Nat → α → (Nat → Node α) × Nat × Nat × Bool
  | 0, m, next, nd, _ => (m, next, nd, false)
  | fuel + 1, m, next, nd, value =>
    if nd = 0 then
      let r := make_node m next value
      (r.1, r.2.1, r.2.2, true)
    else if value < (m nd).value then
      let r := internal_insert fuel m next (m nd).left value
      let m2 := setLeft r.1 nd r.2.2.1
      let m3 := if (m2 nd).left ≠ 0 then setParent m2 (m2 nd).left nd else m2
      if r.2.2.2 then
        let s1 := skew m3 nd
        let s2 := split s1.1 s1.2
        (s2.1, r.2.1, s2.2, true)
      else (m3, r.2.1, nd, false)
    else if (m nd).value < value then
      let r := internal_insert fuel m next (m nd).right value
      let m2 := setRight r.1 nd r.2.2.1
      let m3 := if (m2 nd).right ≠ 0 then setParent m2 (m2 nd).right nd else m2
      if r.2.2.2 then
        let s1 := skew m3 nd
        let s2 := split s1.1 s1.2
        (s2.1, r.2.1, s2.2, true)
      else (m3, r.2.1, nd, false)
    else (m, next, nd, false)

/-- The repair block at the end of `internal_erase` (tree.h 400-410): when
a child's level is more than one below the node's, decrement the node's
level (and the right child's, if it now exceeds the node's), then
`node = skew(node)`, `skew(node->right)`, `skew(node->right->right)`,
`node = split(node)`, `split(node->right)` — the calls whose results are
dropped still act through the parent-slot rewiring inside the rotations. -/
def erase_repair (m : Nat → Node α) (nd : Nat) : (Nat → Node α) × Nat :=
  if (m (m nd).left).level + 1 < (m nd).level ∨
      (m (m nd).right).level + 1 < (m nd).level then
    let m5 := setLevel m nd ((m nd).level - 1)
    let m6 :=
      if (m5 (m5 nd).right).level > (m5 nd).level then
        setLevel m5 (m5 nd).right ((m5 (m5 nd).right).level - 1)
      else m5
    let s1 := skew m6 nd
    let m7 := (skew s1.1 (s1.1 s1.2).right).1
    let m8 := (skew m7 (m7 (m7 s1.2).right).right).1
    let s2 := split m8 s1.2
    let m9 := (split s2.1 (s2.1 s2.2).right).1
    (m9, s2.2)
  else (m, nd)

/-- The tail of `internal_erase` after the recursive descent: the splice
block (tree.h 389-398) followed by the repair block (tree.h 400-410).
`toE` is the member `to_erase`, `last` the static `last`, both as heap
indices (`none` = null). -/
def erase_finish [LinearOrder α] (m : Nat → Node α) (node : Nat)
    (is_erased : Bool) (toE : Option Nat) (last : Nat) (value : α) :
    (Nat → Node α) × Nat × Bool × Option Nat × Nat :=
  let spliced :=
    match toE with
    | some te =>
      if node = last ∧ ¬ (m te).value < value ∧ ¬ value < (m te).value then
        let m1 := setValue m te (m last).value
        (m1, if last = te then (m1 last).left else (m1 last).right, true)
      else (m, node, is_erased)
    | none => (m, node, is_erased)
  let rep := erase_repair spliced.1 spliced.2.1
  (rep.1, rep.2, spliced.2.2, toE, last)

/-- `internal_erase(node, is_erased, value)` (tree.h 367-413) at the
pointer level, fuel-bounded.  Returns (memory, replacement subtree root,
`is_erased`, `to_erase`, `last`). -/
def internal_erase [LinearOrder α] :
    Nat → (Nat → Node α) → Nat → α → Option Nat → Nat →
      (Nat → Node α) × Nat × Bool × Option Nat × Nat
  | 0, m, nd, _, toE, last => (m, nd, false, toE, last)
  | fuel + 1, m, nd, value, toE, last =>
    if nd = 0 then (m, nd, false, toE, last)
    else if value < (m nd).value then
      let r := internal_erase fuel m (m nd).left value toE nd
      let m2 := setLeft r.1 nd r.2.1
      let m3 := if (m2 nd).left ≠ 0 then setParent m2 (m2 nd).left nd else m2
      erase_finish m3 nd r.2.2.1 r.2.2.2.1 r.2.2.2.2 value
    else
      let r := internal_erase fuel m (m nd).right value (some nd) nd
      let m2 := setRight r.1 nd r.2.1
      let m3 := if (m2 nd).right ≠ 0 then setParent m2 (m2 nd).right nd else m2
      erase_finish m3 nd r.2.2.1 r.2.2.2.1 r.2.2.2.2 value

/-- `insert(value)` (tree.h 185-191) at the pointer level. -/
def insert [LinearOrder α] (fuel : Nat) (h : Heap α) (value : α) : Heap α :=
  let r := internal_insert fuel h.mem h.next h.root value
  { mem := r.1, next := r.2.1, root := r.2.2.1,
    node_count := if r.2.2.2 then h.node_count + 1 else h.node_count }

/-- `erase(value)` (tree.h 193-201) at the pointer level: reset `to_erase`,
erase from the root, then `root->parent = bottom`. -/
def erase [LinearOrder α] (fuel : Nat) (h : Heap α) (value : α) : Heap α :=
  let r := internal_erase fuel h.mem h.root value none h.root
  { mem := setParent r.1 r.2.1 0, next := h.next, root := r.2.1,
    node_count := if r.2.2.1 then h.node_count - 1 else h.node_count }

/-- `clear()` (tree.h 229-233): free every node (frees do not change the
memory cells) and point `root` back at the sentinel. -/
def clear (h : Heap α) : Heap α := { h with root := 0, node_count := 0 }

/-- A pointer-level public mutation; each call carries its own recursion
fuel (the preservation results hold for every fuel). -/
inductive HeapOp (α : Type) where
  | ins (v : α) (fuel : Nat)
  | del (v : α) (fuel : Nat)
  | clr

def applyHeapOp [LinearOrder α] (h : Heap α) : HeapOp α → Heap α
  | .ins v fuel => insert fuel h v
  | .del v fuel => erase fuel h v
  | .clr => clear h

def applyHeapOps [LinearOrder α] (h : Heap α) : List (HeapOp α) → Heap α
  | [] => h
  | op :: rest => applyHeapOps (applyHeapOp h op) rest

/-- The sentinel facts of spec §2: the node at index 0 has level 0 and its
left, right and parent links all point to itself. -/
def SentinelOK (m : Nat → Node α) : Prop :=
  (m 0).level = 0 ∧ (m 0).left = 0 ∧ (m 0).right = 0 ∧ (m 0).parent = 0

/-- Every cell apart from the sentinel carries a positive level.  Allocated
nodes always do (they are born at level 1, `split` raises, the erase repair
only lowers a level that is at least 2); the operations never read an
unallocated cell, so assuming the junk cells positive too is harmless and
makes the invariant global. -/
def PosHeap (m : Nat → Node α) : Prop := ∀ i, i ≠ 0 → 1 ≤ (m i).level

/-- The heap invariant the pointer-level proofs maintain. -/
def Inv (m : Nat → Node α) : Prop := SentinelOK m ∧ PosHeap m

/-- The per-container invariant: the memory invariant plus a nonzero
allocation pointer (the sentinel owns index 0). -/
def HeapInv (h : Heap α) : Prop := Inv h.mem ∧ 1 ≤ h.next

@[simp] theorem hset_same (m : Nat → Node α) (i : Nat) (n : Node α) :
    hset m i n i = n := by
  simp [hset]

theorem hset_other (m : Nat → Node α) {i k : Nat} {n : Node α} (h : k ≠ i) :
    hset m i n k = m k := by
  simp [hset, h]

theorem setLeft_parent (m : Nat → Node α) (i j k : Nat) :
    ((setLeft m i j) k).parent = (m k).parent := by
  by_cases h : k = i
  · subst h
    simp [setLeft]
  · rw [setLeft, hset_other _ h]

theorem setRight_parent (m : Nat → Node α) (i j k : Nat) :
    ((setRight m i j) k).parent = (m k).parent := by
  by_cases h : k = i
  · subst h
    simp [setRight]
  · rw [setRight, hset_other _ h]

theorem setParent_parent_same (m : Nat → Node α) (i j : Nat) :
    ((setParent m i j) i).parent = j := by
  simp [setParent]

theorem setLevel_right (m : Nat → Node α) (i lv k : Nat) :
    ((setLevel m i lv) k).right = (m k).right := by
  by_cases h : k = i
  · subst h
    simp [setLevel]
  · rw [setLevel, hset_other _ h]

theorem sentinelOK_hset {m : Nat → Node α} (h : SentinelOK m) {i : Nat}
    (n : Node α) (hi : i ≠ 0) : SentinelOK (hset m i n) := by
  unfold SentinelOK at h ⊢
  rw [hset_other _ (Ne.symm hi)]
  exact h

theorem posHeap_hset {m : Nat → Node α} (h : PosHeap m) {i : Nat} {n : Node α}
    (hn : 1 ≤ n.level) : PosHeap (hset m i n) := by
  intro k hk
  by_cases hki : k = i
  · subst hki
    simpa using hn
  · rw [hset_other _ hki]
    exact h k hk

theorem inv_hset {m : Nat → Node α} (h : Inv m) {i : Nat} {n : Node α}
    (hi : i ≠ 0) (hn : 1 ≤ n.level) : Inv (hset m i n) :=
  ⟨sentinelOK_hset h.1 n hi, posHeap_hset h.2 hn⟩

theorem inv_setLeft {m : Nat → Node α} (h : Inv m) {i : Nat} (j : Nat)
    (hi : i ≠ 0) : Inv (setLeft m i j) :=
  inv_hset h hi (by simpa using h.2 i hi)

theorem inv_setRight {m : Nat → Node α} (h : Inv m) {i : Nat} (j : Nat)
    (hi : i ≠ 0) : Inv (setRight m i j) :=
  inv_hset h hi (by simpa using h.2 i hi)

theorem inv_setParent {m : Nat → Node α} (h : Inv m) {i : Nat} (j : Nat)
    (hi : i ≠ 0) : Inv (setParent m i j) :=
  inv_hset h hi (by simpa using h.2 i hi)

theorem inv_setValue {m : Nat → Node α} (h : Inv m) {i : Nat} (v : α)
    (hi : i ≠ 0) : Inv (setValue m i v) :=
  inv_hset h hi (by simpa using h.2 i hi)

theorem inv_setLevel {m : Nat → Node α} (h : Inv m) {i lv : Nat}
    (hi : i ≠ 0) (hlv : 1 ≤ lv) : Inv (setLevel m i lv) :=
  inv_hset h hi (by simpa using hlv)

/-- Rewriting the sentinel's parent link to itself (the `erase` wrapper does
this when the tree became empty) keeps the sentinel facts. -/
theorem inv_setParent_zero {m : Nat → Node α} (h : Inv m) :
    Inv (setParent m 0 0) := by
  obtain ⟨⟨h1, h2, h3, h4⟩, hp⟩ := h
  refine ⟨⟨?_, ?_, ?_, ?_⟩, ?_⟩
  · simpa [setParent] using h1
  · simpa [setParent] using h2
  · simpa [setParent] using h3
  · simp [setParent]
  · intro k hk
    rw [setParent, hset_other _ hk]
    exact hp k hk

/-- `rotate_left` keeps the heap invariant: every unguarded write targets
`v`, `v->right` or the old parent, and the parent-slot update is skipped
when the parent is the sentinel because the sentinel's child links point at
itself, never at `v`. -/
theorem rotate_left_inv {m : Nat → Node α} {v : Nat} (h : Inv m) (hv : v ≠ 0)
    (hr : (m v).right ≠ 0) : Inv (rotate_left m v).1 := by
  simp only [rotate_left]
  set p := (m v).parent with hp
  set w := (m v).right with hw
  set m1 := setRight m v (m w).left with hm1
  have h1 : Inv m1 := inv_setRight h _ hv
  set m2 := if (m1 v).right ≠ 0 then setParent m1 (m1 v).right v else m1 with hm2
  have h2 : Inv m2 := by
    rw [hm2]
    by_cases hg : (m1 v).right ≠ 0
    · rw [if_pos hg]
      exact inv_setParent h1 _ hg
    · rw [if_neg hg]
      exact h1
  set m3 := setLeft m2 w v with hm3
  have h3 : Inv m3 := inv_setLeft h2 _ hr
  set m4 := setParent m3 v w with hm4
  have h4 : Inv m4 := inv_setParent h3 _ hv
  set m5 := setParent m4 w p with hm5
  have h5 : Inv m5 := inv_setParent h4 _ hr
  by_cases hg1 : (m5 p).left = v
  · rw [if_pos hg1]
    have hp0 : p ≠ 0 := by
      intro hh
      rw [hh] at hg1
      rw [h5.1.2.1] at hg1
      exact hv hg1.symm
    exact inv_setLeft h5 _ hp0
  · rw [if_neg hg1]
    by_cases hg2 : (m5 p).right = v
    · rw [if_pos hg2]
      have hp0 : p ≠ 0 := by
        intro hh
        rw [hh] at hg2
        rw [h5.1.2.2.1] at hg2
        exact hv hg2.symm
      exact inv_setRight h5 _ hp0
    · rw [if_neg hg2]
      exact h5

theorem rotate_right_inv {m : Nat → Node α} {v : Nat} (h : Inv m) (hv : v ≠ 0)
    (hl : (m v).left ≠ 0) : Inv (rotate_right m v).1 := by
  simp only [rotate_right]
  set p := (m v).parent with hp
  set w := (m v).left with hw
  set m1 := setLeft m v (m w).right with hm1
  have h1 : Inv m1 := inv_setLeft h _ hv
  set m2 := if (m1 v).left ≠ 0 then setParent m1 (m1 v).left v else m1 with hm2
  have h2 : Inv m2 := by
    rw [hm2]
    by_cases hg : (m1 v).left ≠ 0
    · rw [if_pos hg]
      exact inv_setParent h1 _ hg
    · rw [if_neg hg]
      exact h1
  set m3 := setRight m2 w v with hm3
  have h3 : Inv m3 := inv_setRight h2 _ hl
  set m4 := setParent m3 v w with hm4
  have h4 : Inv m4 := inv_setParent h3 _ hv
  set m5 := setParent m4 w p with hm5
  have h5 : Inv m5 := inv_setParent h4 _ hl
  by_cases hg1 : (m5 p).left = v
  · rw [if_pos hg1]
    have hp0 : p ≠ 0 := by
      intro hh
      rw [hh] at hg1
      rw [h5.1.2.1] at hg1
      exact hv hg1.symm
    exact inv_setLeft h5 _ hp0
  · rw [if_neg hg1]
    by_cases hg2 : (m5 p).right = v
    · rw [if_pos hg2]
      have hp0 : p ≠ 0 := by
        intro hh
        rw [hh] at hg2
        rw [h5.1.2.2.1] at hg2
        exact hv hg2.symm
      exact inv_setRight h5 _ hp0
    · rw [if_neg hg2]
      exact h5

/-- The rotation hands the rotated node's parent link over to the new
subtree root: this is how the root's parent stays the sentinel when
`insert`'s rebalancing rotates at the root. -/
theorem rotate_left_parent (m : Nat → Node α) (v : Nat) :
    ((rotate_left m v).1 (rotate_left m v).2).parent = (m v).parent := by
  simp only [rotate_left]
  set p := (m v).parent with hp
  set w := (m v).right with hw
  set m1 := setRight m v (m w).left with hm1
  set m2 := if (m1 v).right ≠ 0 then setParent m1 (m1 v).right v else m1 with hm2
  set m3 := setLeft m2 w v with hm3
  set m4 := setParent m3 v w with hm4
  set m5 := setParent m4 w p with hm5
  by_cases hg1 : (m5 p).left = v
  · rw [if_pos hg1, setLeft_parent]
    exact setParent_parent_same m4 w p
  · rw [if_neg hg1]
    by_cases hg2 : (m5 p).right = v
    · rw [if_pos hg2, setRight_parent]
      exact setParent_parent_same m4 w p
    · rw [if_neg hg2]
      exact setParent_parent_same m4 w p

theorem rotate_right_parent (m : Nat → Node α) (v : Nat) :
    ((rotate_right m v).1 (rotate_right m v).2).parent = (m v).parent := by
  simp only [rotate_right]
  set p := (m v).parent with hp
  set w := (m v).left with hw
  set m1 := setLeft m v (m w).right with hm1
  set m2 := if (m1 v).left ≠ 0 then setParent m1 (m1 v).left v else m1 with hm2
  set m3 := setRight m2 w v with hm3
  set m4 := setParent m3 v w with hm4
  set m5 := setParent m4 w p with hm5
  by_cases hg1 : (m5 p).left = v
  · rw [if_pos hg1, setLeft_parent]
    exact setParent_parent_same m4 w p
  · rw [if_neg hg1]
    by_cases hg2 : (m5 p).right = v
    · rw [if_pos hg2, setRight_parent]
      exact setParent_parent_same m4 w p
    · rw [if_neg hg2]
      exact setParent_parent_same m4 w p

theorem skew_inv {m : Nat → Node α} (h : Inv m) (i : Nat) :
    Inv (skew m i).1 := by
  unfold skew
  by_cases h0 : i = 0
  · rw [if_pos h0]
    exact h
  · rw [if_neg h0]
    by_cases hg : (m i).level = (m (m i).left).level
    · rw [if_pos hg]
      have hl : (m i).left ≠ 0 := by
        intro hh
        rw [hh, h.1.1] at hg
        have := h.2 i h0
        omega
      exact rotate_right_inv h h0 hl
    · rw [if_neg hg]
      exact h

theorem split_inv {m : Nat → Node α} (h : Inv m) (i : Nat) :
    Inv (split m i).1 := by
  unfold split
  by_cases h0 : i = 0
  · rw [if_pos h0]
    exact h
  · rw [if_neg h0]
    by_cases hg : (m i).level = (m (m i).right).level ∧
        (m i).level = (m (m (m i).right).right).level
    · rw [if_pos hg]
      have hr : (m i).right ≠ 0 := by
        intro hh
        rw [hh, h.1.1] at hg
        have := h.2 i h0
        omega
      have h1 : Inv (setLevel m (m i).right ((m (m i).right).level + 1)) :=
        inv_setLevel h hr (by omega)
      have hr1 : ((setLevel m (m i).right ((m (m i).right).level + 1)) i).right ≠ 0 := by
        rw [setLevel_right]
        exact hr
      exact rotate_left_inv h1 h0 hr1
    · rw [if_neg hg]
      exact h

theorem erase_repair_inv {m : Nat → Node α} (h : Inv m) (nd : Nat) :
    Inv (erase_repair m nd).1 := by
  unfold erase_repair
  by_cases hc : (m (m nd).left).level + 1 < (m nd).level ∨
      (m (m nd).right).level + 1 < (m nd).level
  · rw [if_pos hc]
    have hnd : nd ≠ 0 := by
      intro hh
      rw [hh] at hc
      rw [h.1.2.1, h.1.1, h.1.2.2.1, h.1.1] at hc
      omega
    have hlv2 : 2 ≤ (m nd).level := by omega
    have h5 : Inv (setLevel m nd ((m nd).level - 1)) :=
      inv_setLevel h hnd (by omega)
    set m5 := setLevel m nd ((m nd).level - 1) with hm5
    have h6 : Inv (if (m5 (m5 nd).right).level > (m5 nd).level then
        setLevel m5 (m5 nd).right ((m5 (m5 nd).right).level - 1) else m5) := by
      by_cases hg : (m5 (m5 nd).right).level > (m5 nd).level
      · rw [if_pos hg]
        have hlv5 : 1 ≤ (m5 nd).level := by
          rw [hm5, setLevel]
          simp only [hset_same]
          omega
        have hrne : (m5 (m5 nd).right).level ≠ 0 := by omega
        have hrne2 : (m5 nd).right ≠ 0 := by
          intro hh
          rw [hh, h5.1.1] at hrne
          exact hrne rfl
        exact inv_setLevel h5 hrne2 (by omega)
      · rw [if_neg hg]
        exact h5
    set m6 := if (m5 (m5 nd).right).level > (m5 nd).level then
        setLevel m5 (m5 nd).right ((m5 (m5 nd).right).level - 1) else m5 with hm6
    have h7 := skew_inv h6 nd
    have h8 := skew_inv h7 ((skew m6 nd).1 (skew m6 nd).2).right
    have h9 := skew_inv h8
      (((skew (skew m6 nd).1 ((skew m6 nd).1 (skew m6 nd).2).right).1
        ((skew (skew m6 nd).1 ((skew m6 nd).1 (skew m6 nd).2).right).1
          (skew m6 nd).2).right).right)
    have h10 := split_inv h9 (skew m6 nd).2
    exact split_inv h10 _
  · rw [if_neg hc]
    exact h

theorem erase_finish_inv [LinearOrder α] {m : Nat → Node α} (h : Inv m)
    (nd : Nat) (is_erased : Bool) (toE : Option Nat) (last : Nat) (value : α)
    (htoE : ∀ te, toE = some te → te ≠ 0) :
    Inv (erase_finish m nd is_erased toE last value).1 := by
  unfold erase_finish
  match toE with
  | none => exact erase_repair_inv h nd
  | some te =>
    by_cases hcc : nd = last ∧ ¬ (m te).value < value ∧ ¬ value < (m te).value
    · have hte : te ≠ 0 := htoE te rfl
      have h1 : Inv (setValue m te (m last).value) := inv_setValue h _ hte
      simp only [if_pos hcc]
      exact erase_repair_inv h1 _
    · simp only [if_neg hcc]
      exact erase_repair_inv h nd

/-- `internal_insert` keeps the heap invariant and a nonzero allocation
pointer, for every fuel: the sentinel's fields are never written. -/
theorem internal_insert_inv [LinearOrder α] (fuel : Nat) :
    ∀ (m : Nat → Node α) (next nd : Nat) (value : α), Inv m → 1 ≤ next →
      Inv (internal_insert fuel m next nd value).1 ∧
        1 ≤ (internal_insert fuel m next nd value).2.1 := by
  induction fuel with
  | zero =>
    intro m next nd value h hn
    exact ⟨h, hn⟩
  | succ fuel ih =>
    intro m next nd value h hn
    rw [internal_insert]
    by_cases h0 : nd = 0
    · rw [if_pos h0]
      refine ⟨inv_hset h (by omega) (by simp), by simp [make_node]⟩
    · rw [if_neg h0]
      by_cases hlt : value < (m nd).value
      · rw [if_pos hlt]
        obtain ⟨hr, hrn⟩ := ih m next (m nd).left value h hn
        have h2 : Inv (setLeft (internal_insert fuel m next (m nd).left value).1
            nd (internal_insert fuel m next (m nd).left value).2.2.1) :=
          inv_setLeft hr _ h0
        set m2 := setLeft (internal_insert fuel m next (m nd).left value).1
            nd (internal_insert fuel m next (m nd).left value).2.2.1 with hm2
        have h3 : Inv (if (m2 nd).left ≠ 0 then setParent m2 (m2 nd).left nd
            else m2) := by
          by_cases hg : (m2 nd).left ≠ 0
          · rw [if_pos hg]
            exact inv_setParent h2 _ hg
          · rw [if_neg hg]
            exact h2
        set m3 := if (m2 nd).left ≠ 0 then setParent m2 (m2 nd).left nd else m2
          with hm3
        by_cases hins : (internal_insert fuel m next (m nd).left value).2.2.2
        · rw [if_pos hins]
          exact ⟨split_inv (skew_inv h3 nd) _, hrn⟩
        · rw [if_neg hins]
          exact ⟨h3, hrn⟩
      · rw [if_neg hlt]
        by_cases hgt : (m nd).value < value
        · rw [if_pos hgt]
          obtain ⟨hr, hrn⟩ := ih m next (m nd).right value h hn
          have h2 : Inv (setRight (internal_insert fuel m next (m nd).right value).1
              nd (internal_insert fuel m next (m nd).right value).2.2.1) :=
            inv_setRight hr _ h0
          set m2 := setRight (internal_insert fuel m next (m nd).right value).1
              nd (internal_insert fuel m next (m nd).right value).2.2.1 with hm2
          have h3 : Inv (if (m2 nd).right ≠ 0 then setParent m2 (m2 nd).right nd
              else m2) := by
            by_cases hg : (m2 nd).right ≠ 0
            · rw [if_pos hg]
              exact inv_setParent h2 _ hg
            · rw [if_neg hg]
              exact h2
          set m3 := if (m2 nd).right ≠ 0 then setParent m2 (m2 nd).right nd
            else m2 with hm3
          by_cases hins : (internal_insert fuel m next (m nd).right value).2.2.2
          · rw [if_pos hins]
            exact ⟨split_inv (skew_inv h3 nd) _, hrn⟩
          · rw [if_neg hins]
            exact ⟨h3, hrn⟩
        · rw [if_neg hgt]
          exact ⟨h, hn⟩

/-- `internal_erase` keeps the heap invariant, for every fuel; the
`to_erase` pointer it hands back never points at the sentinel. -/
theorem internal_erase_inv [LinearOrder α] (fuel : Nat) :
    ∀ (m : Nat → Node α) (nd : Nat) (value : α) (toE : Option Nat) (last : Nat),
      Inv m → (∀ te, toE = some te → te ≠ 0) →
      Inv (internal_erase fuel m nd value toE last).1 ∧
        (∀ te, (internal_erase fuel m nd value toE last).2.2.2.1 = some te →
          te ≠ 0) := by
  induction fuel with
  | zero =>
    intro m nd value toE last h htoE
    exact ⟨h, htoE⟩
  | succ fuel ih =>
    intro m nd value toE last h htoE
    rw [internal_erase]
    by_cases h0 : nd = 0
    · rw [if_pos h0]
      exact ⟨h, htoE⟩
    · rw [if_neg h0]
      by_cases hlt : value < (m nd).value
      · rw [if_pos hlt]
        obtain ⟨hr, hrtoE⟩ := ih m (m nd).left value toE nd h htoE
        have h2 : Inv (setLeft (internal_erase fuel m (m nd).left value toE nd).1
            nd (internal_erase fuel m (m nd).left value toE nd).2.1) :=
          inv_setLeft hr _ h0
        set m2 := setLeft (internal_erase fuel m (m nd).left value toE nd).1
            nd (internal_erase fuel m (m nd).left value toE nd).2.1 with hm2
        have h3 : Inv (if (m2 nd).left ≠ 0 then setParent m2 (m2 nd).left nd
            else m2) := by
          by_cases hg : (m2 nd).left ≠ 0
          · rw [if_pos hg]
            exact inv_setParent h2 _ hg
          · rw [if_neg hg]
            exact h2
        refine ⟨erase_finish_inv h3 _ _ _ _ _ hrtoE, ?_⟩
        intro te hte
        exact hrtoE te hte
      · rw [if_neg hlt]
        have htoE2 : ∀ te, (some nd : Option Nat) = some te → te ≠ 0 := by
          intro te hte
          obtain rfl : nd = te := Option.some.inj hte
          exact h0
        obtain ⟨hr, hrtoE⟩ := ih m (m nd).right value (some nd) nd h htoE2
        have h2 : Inv (setRight
            (internal_erase fuel m (m nd).right value (some nd) nd).1
            nd (internal_erase fuel m (m nd).right value (some nd) nd).2.1) :=
          inv_setRight hr _ h0
        set m2 := setRight (internal_erase fuel m (m nd).right value (some nd) nd).1
            nd (internal_erase fuel m (m nd).right value (some nd) nd).2.1 with hm2
        have h3 : Inv (if (m2 nd).right ≠ 0 then setParent m2 (m2 nd).right nd
            else m2) := by
          by_cases hg : (m2 nd).right ≠ 0
          · rw [if_pos hg]
            exact inv_setParent h2 _ hg
          · rw [if_neg hg]
            exact h2
        refine ⟨erase_finish_inv h3 _ _ _ _ _ hrtoE, ?_⟩
        intro te hte
        exact hrtoE te hte

/-- `insert` keeps the container invariant. -/
theorem insert_inv [LinearOrder α] {h : Heap α} (hh : HeapInv h) (fuel : Nat)
    (value : α) : HeapInv (insert fuel h value) := by
  obtain ⟨hi, hn⟩ := hh
  obtain ⟨hi2, hn2⟩ := internal_insert_inv fuel h.mem h.next h.root value hi hn
  exact ⟨hi2, hn2⟩

/-- `erase` keeps the container invariant, and the new root's parent is the
sentinel (line 197 of the source restores it explicitly: when the tree
became empty this very write re-points the sentinel's parent at itself). -/
theorem erase_inv [LinearOrder α] {h : Heap α} (hh : HeapInv h) (fuel : Nat)
    (value : α) : HeapInv (erase fuel h value) ∧
      ((erase fuel h value).mem (erase fuel h value).root).parent = 0 := by
  obtain ⟨hi, hn⟩ := hh
  obtain ⟨hi2, -⟩ := internal_erase_inv fuel h.mem h.root value none h.root hi
    (by intro te hte; exact absurd hte (by simp))
  set r := internal_erase fuel h.mem h.root value none h.root with hr
  have h3 : Inv (setParent r.1 r.2.1 0) := by
    by_cases h0 : r.2.1 = 0
    · rw [h0]
      exact inv_setParent_zero hi2
    · exact inv_setParent hi2 _ h0
  exact ⟨⟨h3, hn⟩, setParent_parent_same r.1 r.2.1 0⟩

/-- `clear` keeps the container invariant, and points the root at the
sentinel, whose parent is itself. -/
theorem clear_inv {h : Heap α} (hh : HeapInv h) :
    HeapInv (clear h) ∧ ((clear h).mem (clear h).root).parent = 0 :=
  ⟨⟨hh.1, hh.2⟩, hh.1.1.2.2.2⟩

/-- `initialize` establishes the container invariant from any level-positive
memory, with the root at the sentinel. -/
theorem init_inv (m0 : Nat → Node α) (d : α) (hm0 : PosHeap m0) :
    HeapInv (init m0 d) ∧ ((init m0 d).mem (init m0 d).root).parent = 0 := by
  refine ⟨⟨⟨⟨?_, ?_, ?_, ?_⟩, ?_⟩, ?_⟩, ?_⟩
  · simp [init]
  · simp [init]
  · simp [init]
  · simp [init]
  · intro k hk
    show ((hset m0 0 _) k).level ≥ 1
    rw [hset_other _ hk]
    exact hm0 k hk
  · exact le_refl 1
  · simp [init]

/-- Every public mutation keeps the container invariant. -/
theorem applyHeapOp_inv [LinearOrder α] {h : Heap α} (hh : HeapInv h)
    (op : HeapOp α) : HeapInv (applyHeapOp h op) := by
  cases op with
  | ins v fuel => exact insert_inv hh fuel v
  | del v fuel => exact (erase_inv hh fuel v).1
  | clr => exact (clear_inv hh).1

theorem applyHeapOps_inv [LinearOrder α] (ops : List (HeapOp α)) :
    ∀ {h : Heap α}, HeapInv h → HeapInv (applyHeapOps h ops) := by
  induction ops with
  | nil =>
    intro h hh
    exact hh
  | cons op rest ih =>
    intro h hh
    exact ih (applyHeapOp_inv hh op)

theorem setLeft_cell_other {m : Nat → Node α} {i k : Nat} (j : Nat) (h : k ≠ i) :
    (setLeft m i j) k = m k := by
  rw [setLeft, hset_other _ h]

theorem setRight_cell_other {m : Nat → Node α} {i k : Nat} (j : Nat) (h : k ≠ i) :
    (setRight m i j) k = m k := by
  rw [setRight, hset_other _ h]

theorem setParent_cell_other {m : Nat → Node α} {i k : Nat} (j : Nat) (h : k ≠ i) :
    (setParent m i j) k = m k := by
  rw [setParent, hset_other _ h]

theorem setLevel_cell_other {m : Nat → Node α} {i k : Nat} (j : Nat) (h : k ≠ i) :
    (setLevel m i j) k = m k := by
  rw [setLevel, hset_other _ h]

theorem setValue_cell_other {m : Nat → Node α} {i k : Nat} (v : α) (h : k ≠ i) :
    (setValue m i v) k = m k := by
  rw [setValue, hset_other _ h]

theorem setLeft_cell_same (m : Nat → Node α) (i j : Nat) :
    (setLeft m i j) i = { m i with left := j } := by
  rw [setLeft, hset_same]

theorem setRight_cell_same (m : Nat → Node α) (i j : Nat) :
    (setRight m i j) i = { m i with right := j } := by
  rw [setRight, hset_same]

theorem setParent_cell_same (m : Nat → Node α) (i j : Nat) :
    (setParent m i j) i = { m i with parent := j } := by
  rw [setParent, hset_same]

theorem setLevel_cell_same (m : Nat → Node α) (i j : Nat) :
    (setLevel m i j) i = { m i with level := j } := by
  rw [setLevel, hset_same]

theorem setValue_cell_same (m : Nat → Node α) (i : Nat) (v : α) :
    (setValue m i v) i = { m i with value := v } := by
  rw [setValue, hset_same]

/-- The pointer structure under `i` is a well-formed binary tree: `d` lists
its cells (root first), every cell is distinct from the sentinel and from
every cell of the sibling subtree, and each real child's parent link points
back at its parent.  This is the heap shape the container maintains between
operations, and what makes the in-place rotations rewire the intended
parent slot. -/
inductive PTree (m : Nat → Node α) : Nat → List Nat → Prop where
  | bottom : PTree m 0 []
  | node {i : Nat} {dl dr : List Nat} :
      i ≠ 0 →
      PTree m (m i).left dl →
      PTree m (m i).right dr →
      ((m i).left ≠ 0 → (m (m i).left).parent = i) →
      ((m i).right ≠ 0 → (m (m i).right).parent = i) →
      (∀ j ∈ dl, j ∉ dr) →
      i ∉ dl → i ∉ dr →
      PTree m i (i :: (dl ++ dr))

theorem PTree.mem_ne_zero {m : Nat → Node α} {i : Nat} {d : List Nat}
    (h : PTree m i d) : ∀ j ∈ d, j ≠ 0 := by
  induction h with
  | bottom => simp
  | node hi hl hr hbl hbr hdisj hil hir ihl ihr =>
    intro j hj
    rcases List.mem_cons.1 hj with rfl | hj2
    · exact hi
    · rcases List.mem_append.1 hj2 with h3 | h3
      · exact ihl j h3
      · exact ihr j h3

theorem PTree.head_mem {m : Nat → Node α} {i : Nat} {d : List Nat}
    (h : PTree m i d) (hi : i ≠ 0) : i ∈ d := by
  cases h with
  | bottom => exact absurd rfl hi
  | node => exact List.mem_cons_self _ _

theorem PTree.zero_nil {m : Nat → Node α} {d : List Nat}
    (h : PTree m 0 d) : d = [] := by
  cases h with
  | bottom => rfl
  | node h0 => exact absurd rfl h0

/-- The tree shape reads only the `left`/`right`/`parent` fields of its own
cells: any memory agreeing there carries the same shape. -/
theorem PTree.frame {m m' : Nat → Node α} {i : Nat} {d : List Nat}
    (h : PTree m i d)
    (he : ∀ j ∈ d, (m' j).left = (m j).left ∧ (m' j).right = (m j).right ∧
      (m' j).parent = (m j).parent) :
    PTree m' i d := by
  induction h with
  | bottom => exact PTree.bottom
  | node hi hl hr hbl hbr hdisj hil hir ihl ihr =>
    rename_i i dl dr
    obtain ⟨e1, e2, e3⟩ := he i (List.mem_cons_self _ _)
    have hl2 := ihl (fun j hj => he j (by simp [hj]))
    have hr2 := ihr (fun j hj => he j (by simp [hj]))
    refine PTree.node hi ?_ ?_ ?_ ?_ hdisj hil hir
    · rw [e1]
      exact hl2
    · rw [e2]
      exact hr2
    · intro hne
      rw [e1] at hne ⊢
      have hmem : (m i).left ∈ dl := hl.head_mem hne
      obtain ⟨-, -, e⟩ := he ((m i).left) (by simp [hmem])
      rw [e]
      exact hbl hne
    · intro hne
      rw [e2] at hne ⊢
      have hmem : (m i).right ∈ dr := hr.head_mem hne
      obtain ⟨-, -, e⟩ := he ((m i).right) (by simp [hmem])
      rw [e]
      exact hbr hne

/-- Re-pointing the parent link of a subtree root keeps the subtree shape
(the root's own parent is not constrained by the shape). -/
theorem PTree.setParent_root {m : Nat → Node α} {i : Nat} {d : List Nat}
    (h : PTree m i d) (q : Nat) : PTree (setParent m i q) i d := by
  cases h with
  | bottom => exact PTree.bottom
  | node hi hl hr hbl hbr hdisj hil hir =>
    rename_i dl dr
    have hfl : ∀ j ∈ dl, ((setParent m i q) j).left = (m j).left ∧
        ((setParent m i q) j).right = (m j).right ∧
        ((setParent m i q) j).parent = (m j).parent := by
      intro j hj
      rw [setParent_cell_other _ (fun hh => hil (by rw [← hh]; exact hj))]
      exact ⟨rfl, rfl, rfl⟩
    have hfr : ∀ j ∈ dr, ((setParent m i q) j).left = (m j).left ∧
        ((setParent m i q) j).right = (m j).right ∧
        ((setParent m i q) j).parent = (m j).parent := by
      intro j hj
      rw [setParent_cell_other _ (fun hh => hir (by rw [← hh]; exact hj))]
      exact ⟨rfl, rfl, rfl⟩
    have hsame : (setParent m i q) i = { m i with parent := q } :=
      setParent_cell_same m i q
    refine PTree.node hi ?_ ?_ ?_ ?_ hdisj hil hir
    · rw [hsame]
      show PTree _ (m i).left dl
      exact hl.frame hfl
    · rw [hsame]
      show PTree _ (m i).right dr
      exact hr.frame hfr
    · rw [hsame]
      show (m i).left ≠ 0 → ((setParent m i q) (m i).left).parent = i
      intro hne
      rw [(hfl ((m i).left) (hl.head_mem hne)).2.2]
      exact hbl hne
    · rw [hsame]
      show (m i).right ≠ 0 → ((setParent m i q) (m i).right).parent = i
      intro hne
      rw [(hfr ((m i).right) (hr.head_mem hne)).2.2]
      exact hbr hne

/-- Level writes anywhere keep the shape. -/
theorem PTree.setLevel_any {m : Nat → Node α} {i : Nat} {d : List Nat}
    (h : PTree m i d) (j lv : Nat) : PTree (setLevel m j lv) i d := by
  refine h.frame ?_
  intro k hk
  by_cases hkj : k = j
  · subst hkj
    rw [setLevel_cell_same]
    exact ⟨rfl, rfl, rfl⟩
  · rw [setLevel_cell_other _ hkj]
    exact ⟨rfl, rfl, rfl⟩

/-- Value writes anywhere keep the shape. -/
theorem PTree.setValue_any {m : Nat → Node α} {i : Nat} {d : List Nat}
    (h : PTree m i d) (j : Nat) (v : α) : PTree (setValue m j v) i d := by
  refine h.frame ?_
  intro k hk
  by_cases hkj : k = j
  · subst hkj
    rw [setValue_cell_same]
    exact ⟨rfl, rfl, rfl⟩
  · rw [setValue_cell_other _ hkj]
    exact ⟨rfl, rfl, rfl⟩


/-- Inversion of the shape at a real node. -/
theorem PTree.node_inv {m : Nat → Node α} {i : Nat} {d : List Nat}
    (h : PTree m i d) (hi : i ≠ 0) :
    ∃ dl dr, d = i :: (dl ++ dr) ∧ PTree m (m i).left dl ∧
      PTree m (m i).right dr ∧
      ((m i).left ≠ 0 → (m (m i).left).parent = i) ∧
      ((m i).right ≠ 0 → (m (m i).right).parent = i) ∧
      (∀ j ∈ dl, j ∉ dr) ∧ i ∉ dl ∧ i ∉ dr := by
  cases h with
  | bottom => exact absurd rfl hi
  | node h1 h2 h3 h4 h5 h6 h7 h8 => exact ⟨_, _, rfl, h2, h3, h4, h5, h6, h7, h8⟩

/-- `rotate_left` on a well-formed subtree whose parent `p` lies outside it:
the new subtree root is the old right child, the subtree keeps exactly its
cells and its shape (with the rotated links), the new root inherits the old
root's parent link, nothing outside the subtree changes apart from the
parent's child slot that pointed at the old root, which now points at the
new root. -/
theorem rotate_left_shape {m : Nat → Node α} {v p : Nat} {d : List Nat}
    (h : PTree m v d) (hv : v ≠ 0) (hw0 : (m v).right ≠ 0)
    (hp : (m v).parent = p) (hpd : p ∉ d)
    (hsent : p = 0 → (m 0).left = 0 ∧ (m 0).right = 0) :
    (rotate_left m v).2 = (m v).right ∧
    (∃ d2, PTree (rotate_left m v).1 (m v).right d2 ∧ (∀ j, j ∈ d2 ↔ j ∈ d)) ∧
    ((rotate_left m v).1 (m v).right).parent = p ∧
    (∀ k, k ∉ d → k ≠ p → (rotate_left m v).1 k = m k) ∧
    (p ≠ 0 →
      ((rotate_left m v).1 p).parent = (m p).parent ∧
      ((rotate_left m v).1 p).level = (m p).level ∧
      ((rotate_left m v).1 p).value = (m p).value ∧
      ((m p).left = v → ((rotate_left m v).1 p).left = (m v).right ∧
        ((rotate_left m v).1 p).right = (m p).right) ∧
      ((m p).left ≠ v → (m p).right = v →
        ((rotate_left m v).1 p).right = (m v).right ∧
        ((rotate_left m v).1 p).left = (m p).left) ∧
      ((m p).left ≠ v → (m p).right ≠ v → (rotate_left m v).1 p = m p)) ∧
    (p = 0 → (rotate_left m v).1 p = m p) := by
  obtain ⟨dl, dr, rfl, hl, hr, hbl, hbr, hdisj, hvl, hvr⟩ := h.node_inv hv
  obtain ⟨d2l, d2r, hdreq, hwl, hwr, hwbl, hwbr, hwdisj, hwnl, hwnr⟩ :=
    hr.node_inv hw0
  subst hdreq
  simp only [rotate_left]
  rw [hp]
  set w := (m v).right with hwdef
  set b := (m w).left with hbdef
  set r2 := (m w).right with hr2def
  -- basic facts about the cells involved
  have hwmemdr : w ∈ w :: (d2l ++ d2r) := List.mem_cons_self _ _
  have hwv : w ≠ v := fun hh => hvr (by rw [← hh]; exact hwmemdr)
  have hpv : p ≠ v := fun hh => hpd (by rw [hh]; exact List.mem_cons_self _ _)
  have hpw : p ≠ w := fun hh => hpd (by
    rw [hh]
    simp)
  have hbdr : b ≠ 0 → b ∈ w :: (d2l ++ d2r) := by
    intro hb0
    have := hwl.head_mem hb0
    simp [this]
  have hbv : b ≠ 0 → b ≠ v := by
    intro hb0 hh
    exact hvr (by rw [← hh]; exact hbdr hb0)
  have hbw : b ≠ 0 → b ≠ w := by
    intro hb0 hh
    exact hwnl (by rw [← hh]; exact hwl.head_mem hb0)
  have hbp : b ≠ 0 → b ≠ p := by
    intro hb0 hh
    apply hpd
    rw [← hh]
    have h1 : b ∈ d2l := hwl.head_mem hb0
    simp [h1]
  set m1 := setRight m v b with hm1
  set m2 := if (m1 v).right ≠ 0 then setParent m1 (m1 v).right v else m1 with hm2
  set m3 := setLeft m2 w v with hm3
  set m4 := setParent m3 v w with hm4
  set m5 := setParent m4 w p with hm5
  set m6 := if (m5 p).left = v then setLeft m5 p w
    else if (m5 p).right = v then setRight m5 p w else m5 with hm6
  have hm1v : m1 v = { m v with right := b } := setRight_cell_same m v b
  have hm1vr : (m1 v).right = b := by rw [hm1v]
  have hm2k : ∀ k, (b ≠ 0 → k ≠ b) → m2 k = m1 k := by
    intro k hk
    rw [hm2]
    by_cases hb0 : (m1 v).right ≠ 0
    · rw [if_pos hb0, hm1vr]
      exact setParent_cell_other _ (hk (by rwa [hm1vr] at hb0))
    · rw [if_neg hb0]
  have hm2b : b ≠ 0 → m2 b = { m1 b with parent := v } := by
    intro hb0
    rw [hm2, if_pos (show (m1 v).right ≠ 0 by rw [hm1vr]; exact hb0), hm1vr]
    exact setParent_cell_same m1 b v
  have hcv : m5 v = { m v with right := b, parent := w } := by
    rw [hm5, setParent_cell_other _ (Ne.symm hwv), hm4, setParent_cell_same,
      hm3, setLeft_cell_other _ (Ne.symm hwv),
      hm2k v (fun hb0 => Ne.symm (hbv hb0)), hm1v]
  have hcw : m5 w = { m w with left := v, parent := p } := by
    rw [hm5, setParent_cell_same, hm4, setParent_cell_other _ hwv,
      hm3, setLeft_cell_same, hm2k w (fun hb0 => Ne.symm (hbw hb0)),
      hm1, setRight_cell_other _ hwv]
  have hcb : b ≠ 0 → m5 b = { m b with parent := v } := by
    intro hb0
    rw [hm5, setParent_cell_other _ (hbw hb0), hm4, setParent_cell_other _ (hbv hb0),
      hm3, setLeft_cell_other _ (hbw hb0), hm2b hb0,
      hm1, setRight_cell_other _ (hbv hb0)]
  have hother : ∀ k, k ≠ v → k ≠ w → (b ≠ 0 → k ≠ b) → m5 k = m k := by
    intro k hkv hkw hkb
    rw [hm5, setParent_cell_other _ hkw, hm4, setParent_cell_other _ hkv,
      hm3, setLeft_cell_other _ hkw, hm2k k hkb, hm1, setRight_cell_other _ hkv]
  have hdl_frame : ∀ j ∈ dl, m5 j = m j := by
    intro j hj
    have hjv : j ≠ v := fun hh => hvl (by rw [← hh]; exact hj)
    have hjw : j ≠ w := fun hh => hdisj j hj (by rw [hh]; exact hwmemdr)
    have hjb : b ≠ 0 → j ≠ b := fun hb0 hh => hdisj j hj (by rw [hh]; exact hbdr hb0)
    exact hother j hjv hjw hjb
  have hd2r_frame : ∀ j ∈ d2r, m5 j = m j := by
    intro j hj
    have hjv : j ≠ v := fun hh => hvr (by rw [← hh]; simp [hj])
    have hjw : j ≠ w := fun hh => hwnr (by rw [← hh]; exact hj)
    have hjb : b ≠ 0 → j ≠ b := fun hb0 hh => hwdisj b (hwl.head_mem hb0) (by rw [← hh]; exact hj)
    exact hother j hjv hjw hjb
  have hPl1 : PTree m5 (m v).left dl :=
    hl.frame (fun j hj => by rw [hdl_frame j hj]; exact ⟨rfl, rfl, rfl⟩)
  have hPr2 : PTree m5 r2 d2r :=
    hwr.frame (fun j hj => by rw [hd2r_frame j hj]; exact ⟨rfl, rfl, rfl⟩)
  have hPb : PTree m5 b d2l := by
    by_cases hb0 : b = 0
    · rw [hb0] at hwl
      have hnil := hwl.zero_nil
      rw [hb0, hnil]
      exact PTree.bottom
    · have hfr1 : PTree m1 b d2l := hwl.frame (fun j hj => by
        have hjv : j ≠ v := fun hh => hvr (by rw [← hh]; simp [hj])
        rw [hm1, setRight_cell_other _ hjv]
        exact ⟨rfl, rfl, rfl⟩)
      have hfr2 : PTree m2 b d2l := by
        rw [hm2, if_pos (show (m1 v).right ≠ 0 by rw [hm1vr]; exact hb0), hm1vr]
        exact hfr1.setParent_root v
      exact hfr2.frame (fun j hj => by
        have hjv : j ≠ v := fun hh => hvr (by rw [← hh]; simp [hj])
        have hjw : j ≠ w := fun hh => hwnl (by rw [← hh]; exact hj)
        rw [hm5, setParent_cell_other _ hjw, hm4, setParent_cell_other _ hjv,
          hm3, setLeft_cell_other _ hjw]
        exact ⟨rfl, rfl, rfl⟩)
  have hPv : PTree m5 v (v :: (dl ++ d2l)) := by
    refine PTree.node hv ?_ ?_ ?_ ?_ ?_ ?_ ?_
    · rw [hcv]
      show PTree m5 (m v).left dl
      exact hPl1
    · rw [hcv]
      show PTree m5 b d2l
      exact hPb
    · rw [hcv]
      show (m v).left ≠ 0 → (m5 (m v).left).parent = v
      intro hne
      rw [hdl_frame _ (hl.head_mem hne)]
      exact hbl hne
    · rw [hcv]
      show b ≠ 0 → (m5 b).parent = v
      intro hb0
      rw [hcb hb0]
    · intro j hj
      have := hdisj j hj
      simp only [List.mem_cons, List.mem_append] at this
      intro hc
      exact this (Or.inr (Or.inl hc))
    · exact hvl
    · intro hc
      exact hvr (by simp [hc])
  have hPw : PTree m5 w (w :: ((v :: (dl ++ d2l)) ++ d2r)) := by
    refine PTree.node hw0 ?_ ?_ ?_ ?_ ?_ ?_ ?_
    · rw [hcw]
      show PTree m5 v (v :: (dl ++ d2l))
      exact hPv
    · rw [hcw]
      show PTree m5 r2 d2r
      exact hPr2
    · rw [hcw]
      show v ≠ 0 → (m5 v).parent = w
      intro _
      rw [hcv]
    · rw [hcw]
      show r2 ≠ 0 → (m5 r2).parent = w
      intro hne
      rw [hd2r_frame _ (hwr.head_mem hne)]
      exact hwbr hne
    · intro j hj
      simp only [List.mem_cons, List.mem_append] at hj
      rcases hj with rfl | hj2
      · intro hc
        exact hvr (by simp [hc])
      · rcases hj2 with hj3 | hj3
        · intro hc
          have := hdisj j hj3
          simp only [List.mem_cons, List.mem_append] at this
          exact this (Or.inr (Or.inr hc))
        · exact hwdisj j hj3
    · intro hc
      simp only [List.mem_cons, List.mem_append] at hc
      rcases hc with hc1 | hc2
      · exact hwv hc1
      · rcases hc2 with hc3 | hc3
        · exact hdisj w hc3 hwmemdr
        · exact hwnl hc3
    · exact hwnr
  have hp5 : m5 p = m p :=
    hother p hpv hpw (fun hb0 => Ne.symm (hbp hb0))
  have hm6k : ∀ k, k ≠ p → m6 k = m5 k := by
    intro k hk
    rw [hm6]
    by_cases hg1 : (m5 p).left = v
    · rw [if_pos hg1]
      exact setLeft_cell_other _ hk
    · rw [if_neg hg1]
      by_cases hg2 : (m5 p).right = v
      · rw [if_pos hg2]
        exact setRight_cell_other _ hk
      · rw [if_neg hg2]
  have hseteq : ∀ j, j ∈ w :: ((v :: (dl ++ d2l)) ++ d2r) ↔
      j ∈ v :: (dl ++ (w :: (d2l ++ d2r))) := by
    intro j
    simp only [List.mem_cons, List.mem_append]
    constructor
    · rintro (h1 | (h1 | h1 | h1) | h1)
      · exact Or.inr (Or.inr (Or.inl h1))
      · exact Or.inl h1
      · exact Or.inr (Or.inl h1)
      · exact Or.inr (Or.inr (Or.inr (Or.inl h1)))
      · exact Or.inr (Or.inr (Or.inr (Or.inr h1)))
    · rintro (h1 | h1 | h1 | h1 | h1)
      · exact Or.inr (Or.inl (Or.inl h1))
      · exact Or.inr (Or.inl (Or.inr (Or.inl h1)))
      · exact Or.inl h1
      · exact Or.inr (Or.inl (Or.inr (Or.inr h1)))
      · exact Or.inr (Or.inr h1)
  have hwd2 : w ∉ w :: ((v :: (dl ++ d2l)) ++ d2r) → False := by
    intro hc
    exact hc (List.mem_cons_self _ _)
  have hpd2 : p ∉ w :: ((v :: (dl ++ d2l)) ++ d2r) := by
    intro hc
    exact hpd ((hseteq p).1 hc)
  have hP6 : PTree m6 w (w :: ((v :: (dl ++ d2l)) ++ d2r)) := by
    refine hPw.frame ?_
    intro j hj
    have hjp : j ≠ p := fun hh => hpd2 (by rw [← hh]; exact hj)
    rw [hm6k j hjp]
    exact ⟨rfl, rfl, rfl⟩
  refine ⟨trivial, ⟨w :: ((v :: (dl ++ d2l)) ++ d2r), hP6, hseteq⟩, ?_, ?_, ?_, ?_⟩
  · rw [hm6k w (Ne.symm hpw), hcw]
  · intro k hk hkp
    have hkv : k ≠ v := fun hh => hk (by rw [hh]; exact List.mem_cons_self _ _)
    have hkw : k ≠ w := fun hh => hk (by rw [hh]; simp)
    have hkb : b ≠ 0 → k ≠ b := fun hb0 hh => hk (by
      rw [hh]
      have h1 : b ∈ d2l := hwl.head_mem hb0
      simp [h1])
    rw [hm6k k hkp]
    exact hother k hkv hkw hkb
  · intro hp0
    have hg1eq : (m5 p).left = (m p).left := by rw [hp5]
    have hg2eq : (m5 p).right = (m p).right := by rw [hp5]
    refine ⟨?_, ?_, ?_, ?_, ?_, ?_⟩
    · by_cases hg1 : (m p).left = v
      · rw [hm6, if_pos (by rw [hg1eq]; exact hg1), setLeft_cell_same, hp5]
      · rw [hm6, if_neg (by rw [hg1eq]; exact hg1)]
        by_cases hg2 : (m p).right = v
        · rw [if_pos (by rw [hg2eq]; exact hg2), setRight_cell_same, hp5]
        · rw [if_neg (by rw [hg2eq]; exact hg2), hp5]
    · by_cases hg1 : (m p).left = v
      · rw [hm6, if_pos (by rw [hg1eq]; exact hg1), setLeft_cell_same, hp5]
      · rw [hm6, if_neg (by rw [hg1eq]; exact hg1)]
        by_cases hg2 : (m p).right = v
        · rw [if_pos (by rw [hg2eq]; exact hg2), setRight_cell_same, hp5]
        · rw [if_neg (by rw [hg2eq]; exact hg2), hp5]
    · by_cases hg1 : (m p).left = v
      · rw [hm6, if_pos (by rw [hg1eq]; exact hg1), setLeft_cell_same, hp5]
      · rw [hm6, if_neg (by rw [hg1eq]; exact hg1)]
        by_cases hg2 : (m p).right = v
        · rw [if_pos (by rw [hg2eq]; exact hg2), setRight_cell_same, hp5]
        · rw [if_neg (by rw [hg2eq]; exact hg2), hp5]
    · intro hg1
      rw [hm6, if_pos (by rw [hg1eq]; exact hg1), setLeft_cell_same, hp5]
      exact ⟨rfl, rfl⟩
    · intro hg1 hg2
      rw [hm6, if_neg (by rw [hg1eq]; exact hg1),
        if_pos (by rw [hg2eq]; exact hg2), setRight_cell_same, hp5]
      exact ⟨rfl, rfl⟩
    · intro hg1 hg2
      rw [hm6, if_neg (by rw [hg1eq]; exact hg1),
        if_neg (by rw [hg2eq]; exact hg2), hp5]
  · intro hp0
    subst hp0
    obtain ⟨hs1, hs2⟩ := hsent rfl
    rw [hm6, if_neg (by rw [hp5, hs1]; exact Ne.symm hv),
      if_neg (by rw [hp5, hs2]; exact Ne.symm hv), hp5]
/-- The uniform conclusion of the shape lemmas for the subtree-rewriting
operations (`rotate_left`, `rotate_right`, `skew`, `split`): the operation
run at root `v` of a well-formed subtree with footprint `d` and parent `p`
(`p` outside the footprint) returns a root that is null iff `v` was,
rebuilds a well-formed subtree on the same cell set, hands `p` to the new
root's parent field, leaves every cell outside `d ∪ \x7bp\x7d` untouched, and
rewrites at most the child slot of `p` that pointed at `v`, redirecting it
to the new root. -/
def ShapeStep (m : Nat → Node α) (v : Nat) (d : List Nat) (p : Nat)
    (r : (Nat → Node α) × Nat) : Prop :=
  (r.2 = 0 ↔ v = 0) ∧
  (∃ d2, PTree r.1 r.2 d2 ∧ (∀ j, j ∈ d2 ↔ j ∈ d)) ∧
  (r.2 ≠ 0 → (r.1 r.2).parent = p) ∧
  (∀ k, k ∉ d → k ≠ p → r.1 k = m k) ∧
  (p ≠ 0 →
    (r.1 p).parent = (m p).parent ∧
    (r.1 p).level = (m p).level ∧
    (r.1 p).value = (m p).value ∧
    ((m p).left = v → (r.1 p).left = r.2 ∧ (r.1 p).right = (m p).right) ∧
    ((m p).left ≠ v → (m p).right = v →
      (r.1 p).right = r.2 ∧ (r.1 p).left = (m p).left)) ∧
  (p = 0 → r.1 p = m p)

/-- The identity operation is a `ShapeStep`. -/
theorem shapeStep_refl {m : Nat → Node α} {v p : Nat} {d : List Nat}
    (h : PTree m v d) (hp : v ≠ 0 → (m v).parent = p) :
    ShapeStep m v d p (m, v) := by
  refine ⟨Iff.rfl, ⟨d, h, fun j => Iff.rfl⟩, hp, fun k _ _ => rfl, ?_, fun _ => rfl⟩
  intro _
  exact ⟨rfl, rfl, rfl, fun h4 => ⟨h4, rfl⟩, fun _ h5 => ⟨h5, rfl⟩⟩

/-- Mirror of `rotate_left_shape` for `rotate_right` (tree.h 286-302): the
rotation returns the old left child, rebuilds a well-formed subtree on the same
footprint, hands the old parent pointer to the new root, touches no cell
outside the footprint except the parent slot of `p`, and rewires only the
child slot of `p` that pointed at `v`. -/
theorem rotate_right_shape {m : Nat → Node α} {v p : Nat} {d : List Nat}
    (h : PTree m v d) (hv : v ≠ 0) (hw0 : (m v).left ≠ 0)
    (hp : (m v).parent = p) (hpd : p ∉ d)
    (hsent : p = 0 → (m 0).left = 0 ∧ (m 0).right = 0) :
    (rotate_right m v).2 = (m v).left ∧
    (∃ d2, PTree (rotate_right m v).1 (m v).left d2 ∧ (∀ j, j ∈ d2 ↔ j ∈ d)) ∧
    ((rotate_right m v).1 (m v).left).parent = p ∧
    (∀ k, k ∉ d → k ≠ p → (rotate_right m v).1 k = m k) ∧
    (p ≠ 0 →
      ((rotate_right m v).1 p).parent = (m p).parent ∧
      ((rotate_right m v).1 p).level = (m p).level ∧
      ((rotate_right m v).1 p).value = (m p).value ∧
      ((m p).left = v → ((rotate_right m v).1 p).left = (m v).left ∧
        ((rotate_right m v).1 p).right = (m p).right) ∧
      ((m p).left ≠ v → (m p).right = v →
        ((rotate_right m v).1 p).right = (m v).left ∧
        ((rotate_right m v).1 p).left = (m p).left) ∧
      ((m p).left ≠ v → (m p).right ≠ v → (rotate_right m v).1 p = m p)) ∧
    (p = 0 → (rotate_right m v).1 p = m p) := by
  obtain ⟨dl, dr, rfl, hl, hr, hbl, hbr, hdisj, hvl, hvr⟩ := h.node_inv hv
  obtain ⟨d2l, d2r, hdleq, hwl, hwr, hwbl, hwbr, hwdisj, hwnl, hwnr⟩ :=
    hl.node_inv hw0
  subst hdleq
  simp only [rotate_right]
  rw [hp]
  set w := (m v).left with hwdef
  set b := (m w).right with hbdef
  set l2 := (m w).left with hl2def
  -- basic facts about the cells involved
  have hwmemdl : w ∈ w :: (d2l ++ d2r) := List.mem_cons_self _ _
  have hwv : w ≠ v := fun hh => hvl (by rw [← hh]; exact hwmemdl)
  have hpv : p ≠ v := fun hh => hpd (by rw [hh]; exact List.mem_cons_self _ _)
  have hpw : p ≠ w := fun hh => hpd (by
    rw [hh]
    simp)
  have hbdl : b ≠ 0 → b ∈ w :: (d2l ++ d2r) := by
    intro hb0
    have := hwr.head_mem hb0
    simp [this]
  have hbv : b ≠ 0 → b ≠ v := by
    intro hb0 hh
    exact hvl (by rw [← hh]; exact hbdl hb0)
  have hbw : b ≠ 0 → b ≠ w := by
    intro hb0 hh
    exact hwnr (by rw [← hh]; exact hwr.head_mem hb0)
  have hbp : b ≠ 0 → b ≠ p := by
    intro hb0 hh
    apply hpd
    rw [← hh]
    have h1 : b ∈ d2r := hwr.head_mem hb0
    simp [h1]
  set m1 := setLeft m v b with hm1
  set m2 := if (m1 v).left ≠ 0 then setParent m1 (m1 v).left v else m1 with hm2
  set m3 := setRight m2 w v with hm3
  set m4 := setParent m3 v w with hm4
  set m5 := setParent m4 w p with hm5
  set m6 := if (m5 p).left = v then setLeft m5 p w
    else if (m5 p).right = v then setRight m5 p w else m5 with hm6
  have hm1v : m1 v = { m v with left := b } := setLeft_cell_same m v b
  have hm1vl : (m1 v).left = b := by rw [hm1v]
  have hm2k : ∀ k, (b ≠ 0 → k ≠ b) → m2 k = m1 k := by
    intro k hk
    rw [hm2]
    by_cases hb0 : (m1 v).left ≠ 0
    · rw [if_pos hb0, hm1vl]
      exact setParent_cell_other _ (hk (by rwa [hm1vl] at hb0))
    · rw [if_neg hb0]
  have hm2b : b ≠ 0 → m2 b = { m1 b with parent := v } := by
    intro hb0
    rw [hm2, if_pos (show (m1 v).left ≠ 0 by rw [hm1vl]; exact hb0), hm1vl]
    exact setParent_cell_same m1 b v
  have hcv : m5 v = { m v with left := b, parent := w } := by
    rw [hm5, setParent_cell_other _ (Ne.symm hwv), hm4, setParent_cell_same,
      hm3, setRight_cell_other _ (Ne.symm hwv),
      hm2k v (fun hb0 => Ne.symm (hbv hb0)), hm1v]
  have hcw : m5 w = { m w with right := v, parent := p } := by
    rw [hm5, setParent_cell_same, hm4, setParent_cell_other _ hwv,
      hm3, setRight_cell_same, hm2k w (fun hb0 => Ne.symm (hbw hb0)),
      hm1, setLeft_cell_other _ hwv]
  have hcb : b ≠ 0 → m5 b = { m b with parent := v } := by
    intro hb0
    rw [hm5, setParent_cell_other _ (hbw hb0), hm4, setParent_cell_other _ (hbv hb0),
      hm3, setRight_cell_other _ (hbw hb0), hm2b hb0,
      hm1, setLeft_cell_other _ (hbv hb0)]
  have hother : ∀ k, k ≠ v → k ≠ w → (b ≠ 0 → k ≠ b) → m5 k = m k := by
    intro k hkv hkw hkb
    rw [hm5, setParent_cell_other _ hkw, hm4, setParent_cell_other _ hkv,
      hm3, setRight_cell_other _ hkw, hm2k k hkb, hm1, setLeft_cell_other _ hkv]
  have hdr_frame : ∀ j ∈ dr, m5 j = m j := by
    intro j hj
    have hjv : j ≠ v := fun hh => hvr (by rw [← hh]; exact hj)
    have hjw : j ≠ w := fun hh => hdisj w hwmemdl (by rw [← hh]; exact hj)
    have hjb : b ≠ 0 → j ≠ b := fun hb0 hh => hdisj b (hbdl hb0) (by rw [← hh]; exact hj)
    exact hother j hjv hjw hjb
  have hd2l_frame : ∀ j ∈ d2l, m5 j = m j := by
    intro j hj
    have hjv : j ≠ v := fun hh => hvl (by rw [← hh]; simp [hj])
    have hjw : j ≠ w := fun hh => hwnl (by rw [← hh]; exact hj)
    have hjb : b ≠ 0 → j ≠ b := fun hb0 hh => hwdisj j hj (by rw [hh]; exact hwr.head_mem hb0)
    exact hother j hjv hjw hjb
  have hPr1 : PTree m5 (m v).right dr :=
    hr.frame (fun j hj => by rw [hdr_frame j hj]; exact ⟨rfl, rfl, rfl⟩)
  have hPl2 : PTree m5 l2 d2l :=
    hwl.frame (fun j hj => by rw [hd2l_frame j hj]; exact ⟨rfl, rfl, rfl⟩)
  have hPb : PTree m5 b d2r := by
    by_cases hb0 : b = 0
    · rw [hb0] at hwr
      have hnil := hwr.zero_nil
      rw [hb0, hnil]
      exact PTree.bottom
    · have hfr1 : PTree m1 b d2r := hwr.frame (fun j hj => by
        have hjv : j ≠ v := fun hh => hvl (by rw [← hh]; simp [hj])
        rw [hm1, setLeft_cell_other _ hjv]
        exact ⟨rfl, rfl, rfl⟩)
      have hfr2 : PTree m2 b d2r := by
        rw [hm2, if_pos (show (m1 v).left ≠ 0 by rw [hm1vl]; exact hb0), hm1vl]
        exact hfr1.setParent_root v
      exact hfr2.frame (fun j hj => by
        have hjv : j ≠ v := fun hh => hvl (by rw [← hh]; simp [hj])
        have hjw : j ≠ w := fun hh => hwnr (by rw [← hh]; exact hj)
        rw [hm5, setParent_cell_other _ hjw, hm4, setParent_cell_other _ hjv,
          hm3, setRight_cell_other _ hjw]
        exact ⟨rfl, rfl, rfl⟩)
  have hPv : PTree m5 v (v :: (d2r ++ dr)) := by
    refine PTree.node hv ?_ ?_ ?_ ?_ ?_ ?_ ?_
    · rw [hcv]
      show PTree m5 b d2r
      exact hPb
    · rw [hcv]
      show PTree m5 (m v).right dr
      exact hPr1
    · rw [hcv]
      show b ≠ 0 → (m5 b).parent = v
      intro hb0
      rw [hcb hb0]
    · rw [hcv]
      show (m v).right ≠ 0 → (m5 (m v).right).parent = v
      intro hne
      rw [hdr_frame _ (hr.head_mem hne)]
      exact hbr hne
    · intro j hj hc
      exact hdisj j (by simp [hj]) hc
    · intro hc
      exact hvl (by simp [hc])
    · exact hvr
  have hPw : PTree m5 w (w :: (d2l ++ (v :: (d2r ++ dr)))) := by
    refine PTree.node hw0 ?_ ?_ ?_ ?_ ?_ ?_ ?_
    · rw [hcw]
      show PTree m5 l2 d2l
      exact hPl2
    · rw [hcw]
      show PTree m5 v (v :: (d2r ++ dr))
      exact hPv
    · rw [hcw]
      show l2 ≠ 0 → (m5 l2).parent = w
      intro hne
      rw [hd2l_frame _ (hwl.head_mem hne)]
      exact hwbl hne
    · rw [hcw]
      show v ≠ 0 → (m5 v).parent = w
      intro _
      rw [hcv]
    · intro j hj hc
      simp only [List.mem_cons, List.mem_append] at hc
      rcases hc with hc1 | hc2
      · exact hvl (by rw [← hc1]; simp [hj])
      · rcases hc2 with hc3 | hc3
        · exact hwdisj j hj hc3
        · exact hdisj j (by simp [hj]) hc3
    · exact hwnl
    · intro hc
      simp only [List.mem_cons, List.mem_append] at hc
      rcases hc with hc1 | hc2
      · exact hwv hc1
      · rcases hc2 with hc3 | hc3
        · exact hwnr hc3
        · exact hdisj w hwmemdl hc3
  have hp5 : m5 p = m p :=
    hother p hpv hpw (fun hb0 => Ne.symm (hbp hb0))
  have hm6k : ∀ k, k ≠ p → m6 k = m5 k := by
    intro k hk
    rw [hm6]
    by_cases hg1 : (m5 p).left = v
    · rw [if_pos hg1]
      exact setLeft_cell_other _ hk
    · rw [if_neg hg1]
      by_cases hg2 : (m5 p).right = v
      · rw [if_pos hg2]
        exact setRight_cell_other _ hk
      · rw [if_neg hg2]
  have hseteq : ∀ j, j ∈ w :: (d2l ++ (v :: (d2r ++ dr))) ↔
      j ∈ v :: ((w :: (d2l ++ d2r)) ++ dr) := by
    intro j
    simp only [List.mem_cons, List.mem_append]
    constructor
    · rintro (h1 | h1 | h1 | h1 | h1)
      · exact Or.inr (Or.inl (Or.inl h1))
      · exact Or.inr (Or.inl (Or.inr (Or.inl h1)))
      · exact Or.inl h1
      · exact Or.inr (Or.inl (Or.inr (Or.inr h1)))
      · exact Or.inr (Or.inr h1)
    · rintro (h1 | (h1 | h1 | h1) | h1)
      · exact Or.inr (Or.inr (Or.inl h1))
      · exact Or.inl h1
      · exact Or.inr (Or.inl h1)
      · exact Or.inr (Or.inr (Or.inr (Or.inl h1)))
      · exact Or.inr (Or.inr (Or.inr (Or.inr h1)))
  have hpd2 : p ∉ w :: (d2l ++ (v :: (d2r ++ dr))) := by
    intro hc
    exact hpd ((hseteq p).1 hc)
  have hP6 : PTree m6 w (w :: (d2l ++ (v :: (d2r ++ dr)))) := by
    refine hPw.frame ?_
    intro j hj
    have hjp : j ≠ p := fun hh => hpd2 (by rw [← hh]; exact hj)
    rw [hm6k j hjp]
    exact ⟨rfl, rfl, rfl⟩
  refine ⟨trivial, ⟨w :: (d2l ++ (v :: (d2r ++ dr))), hP6, hseteq⟩, ?_, ?_, ?_, ?_⟩
  · rw [hm6k w (Ne.symm hpw), hcw]
  · intro k hk hkp
    have hkv : k ≠ v := fun hh => hk (by rw [hh]; exact List.mem_cons_self _ _)
    have hkw : k ≠ w := fun hh => hk (by rw [hh]; simp)
    have hkb : b ≠ 0 → k ≠ b := fun hb0 hh => hk (by
      rw [hh]
      have h1 : b ∈ d2r := hwr.head_mem hb0
      simp [h1])
    rw [hm6k k hkp]
    exact hother k hkv hkw hkb
  · intro hp0
    have hg1eq : (m5 p).left = (m p).left := by rw [hp5]
    have hg2eq : (m5 p).right = (m p).right := by rw [hp5]
    refine ⟨?_, ?_, ?_, ?_, ?_, ?_⟩
    · by_cases hg1 : (m p).left = v
      · rw [hm6, if_pos (by rw [hg1eq]; exact hg1), setLeft_cell_same, hp5]
      · rw [hm6, if_neg (by rw [hg1eq]; exact hg1)]
        by_cases hg2 : (m p).right = v
        · rw [if_pos (by rw [hg2eq]; exact hg2), setRight_cell_same, hp5]
        · rw [if_neg (by rw [hg2eq]; exact hg2), hp5]
    · by_cases hg1 : (m p).left = v
      · rw [hm6, if_pos (by rw [hg1eq]; exact hg1), setLeft_cell_same, hp5]
      · rw [hm6, if_neg (by rw [hg1eq]; exact hg1)]
        by_cases hg2 : (m p).right = v
        · rw [if_pos (by rw [hg2eq]; exact hg2), setRight_cell_same, hp5]
        · rw [if_neg (by rw [hg2eq]; exact hg2), hp5]
    · by_cases hg1 : (m p).left = v
      · rw [hm6, if_pos (by rw [hg1eq]; exact hg1), setLeft_cell_same, hp5]
      · rw [hm6, if_neg (by rw [hg1eq]; exact hg1)]
        by_cases hg2 : (m p).right = v
        · rw [if_pos (by rw [hg2eq]; exact hg2), setRight_cell_same, hp5]
        · rw [if_neg (by rw [hg2eq]; exact hg2), hp5]
    · intro hg1
      rw [hm6, if_pos (by rw [hg1eq]; exact hg1), setLeft_cell_same, hp5]
      exact ⟨rfl, rfl⟩
    · intro hg1 hg2
      rw [hm6, if_neg (by rw [hg1eq]; exact hg1),
        if_pos (by rw [hg2eq]; exact hg2), setRight_cell_same, hp5]
      exact ⟨rfl, rfl⟩
    · intro hg1 hg2
      rw [hm6, if_neg (by rw [hg1eq]; exact hg1),
        if_neg (by rw [hg2eq]; exact hg2), hp5]
  · intro hp0
    subst hp0
    obtain ⟨hs1, hs2⟩ := hsent rfl
    rw [hm6, if_neg (by rw [hp5, hs1]; exact Ne.symm hv),
      if_neg (by rw [hp5, hs2]; exact Ne.symm hv), hp5]

/-- `rotate_left_shape` packaged as a `ShapeStep`. -/
theorem rotate_left_step {m : Nat → Node α} {v p : Nat} {d : List Nat}
    (h : PTree m v d) (hv : v ≠ 0) (hw0 : (m v).right ≠ 0)
    (hp : (m v).parent = p) (hpd : p ∉ d)
    (hsent : p = 0 → (m 0).left = 0 ∧ (m 0).right = 0) :
    ShapeStep m v d p (rotate_left m v) := by
  obtain ⟨e1, e2, e3, e4, e5, e6⟩ := rotate_left_shape h hv hw0 hp hpd hsent
  refine ⟨?_, ?_, ?_, e4, ?_, e6⟩
  · rw [e1]
    exact iff_of_false hw0 hv
  · rw [e1]
    exact e2
  · rw [e1]
    intro _
    exact e3
  · intro hp0
    obtain ⟨f1, f2, f3, f4, f5, _⟩ := e5 hp0
    refine ⟨f1, f2, f3, ?_, ?_⟩
    · intro hx
      obtain ⟨g1, g2⟩ := f4 hx
      exact ⟨by rw [e1]; exact g1, g2⟩
    · intro hx hy
      obtain ⟨g1, g2⟩ := f5 hx hy
      exact ⟨by rw [e1]; exact g1, g2⟩

/-- `rotate_right_shape` packaged as a `ShapeStep`. -/
theorem rotate_right_step {m : Nat → Node α} {v p : Nat} {d : List Nat}
    (h : PTree m v d) (hv : v ≠ 0) (hw0 : (m v).left ≠ 0)
    (hp : (m v).parent = p) (hpd : p ∉ d)
    (hsent : p = 0 → (m 0).left = 0 ∧ (m 0).right = 0) :
    ShapeStep m v d p (rotate_right m v) := by
  obtain ⟨e1, e2, e3, e4, e5, e6⟩ := rotate_right_shape h hv hw0 hp hpd hsent
  refine ⟨?_, ?_, ?_, e4, ?_, e6⟩
  · rw [e1]
    exact iff_of_false hw0 hv
  · rw [e1]
    exact e2
  · rw [e1]
    intro _
    exact e3
  · intro hp0
    obtain ⟨f1, f2, f3, f4, f5, _⟩ := e5 hp0
    refine ⟨f1, f2, f3, ?_, ?_⟩
    · intro hx
      obtain ⟨g1, g2⟩ := f4 hx
      exact ⟨by rw [e1]; exact g1, g2⟩
    · intro hx hy
      obtain ⟨g1, g2⟩ := f5 hx hy
      exact ⟨by rw [e1]; exact g1, g2⟩

/-- Two `ShapeStep`s in sequence at the same root position compose.  The
hypothesis `hpl` rules out the aliasing where the untouched other child
slot of `p` happens to point at the first step's result. -/
theorem shapeStep_comp {m : Nat → Node α} {v p : Nat} {d d2 : List Nat}
    {r r' : (Nat → Node α) × Nat}
    (hv : v ≠ 0)
    (h1 : ShapeStep m v d p r)
    (hP2 : PTree r.1 r.2 d2) (hd2 : ∀ j, j ∈ d2 ↔ j ∈ d)
    (h2 : ShapeStep r.1 r.2 d2 p r')
    (hpl : p ≠ 0 → (m p).left ≠ v → (m p).left ∉ d) :
    ShapeStep m v d p r' := by
  obtain ⟨a1, a2, a3, a4, a5, a6⟩ := h1
  obtain ⟨b1, b2, b3, b4, b5, b6⟩ := h2
  have hr2 : r.2 ≠ 0 := fun hc => hv (a1.1 hc)
  refine ⟨Iff.trans b1 a1, ?_, b3, ?_, ?_, ?_⟩
  · obtain ⟨d3, hP3, hiff⟩ := b2
    exact ⟨d3, hP3, fun j => Iff.trans (hiff j) (hd2 j)⟩
  · intro k hk hkp
    rw [b4 k (fun hc => hk ((hd2 k).1 hc)) hkp]
    exact a4 k hk hkp
  · intro hp0
    obtain ⟨c1, c2, c3, c4, c5⟩ := a5 hp0
    obtain ⟨e1, e2, e3, e4, e5⟩ := b5 hp0
    refine ⟨by rw [e1, c1], by rw [e2, c2], by rw [e3, c3], ?_, ?_⟩
    · intro hx
      obtain ⟨g1, g2⟩ := c4 hx
      obtain ⟨k1, k2⟩ := e4 g1
      exact ⟨k1, by rw [k2, g2]⟩
    · intro hx hy
      obtain ⟨g1, g2⟩ := c5 hx hy
      have hne : (r.1 p).left ≠ r.2 := by
        rw [g2]
        intro hc
        exact hpl hp0 hx (by rw [hc]; exact (hd2 _).1 (hP2.head_mem hr2))
      obtain ⟨k1, k2⟩ := e5 hne g1
      exact ⟨k1, by rw [k2, g2]⟩
  · intro hp0
    rw [b6 hp0, a6 hp0]

/-- `skew` is a `ShapeStep`: when its rotation fires the left child is
nonnull (its level equals the node's, which is positive), so
`rotate_right_shape` applies; otherwise `skew` is the identity. -/
theorem skew_shape {m : Nat → Node α} {v p : Nat} {d : List Nat}
    (hinv : Inv m) (h : PTree m v d)
    (hp : v ≠ 0 → (m v).parent = p) (hpd : p ∉ d) :
    ShapeStep m v d p (skew m v) := by
  by_cases hv : v = 0
  · subst hv
    simp only [skew]
    rw [if_pos trivial]
    exact shapeStep_refl h (fun hc => absurd rfl hc)
  · have hsent : p = 0 → (m 0).left = 0 ∧ (m 0).right = 0 :=
      fun _ => ⟨hinv.1.2.1, hinv.1.2.2.1⟩
    by_cases hg : (m v).level = (m (m v).left).level
    · have hw0 : (m v).left ≠ 0 := by
        intro hl0
        rw [hl0] at hg
        have h1 : (m 0).level = 0 := hinv.1.1
        have h2 : 1 ≤ (m v).level := hinv.2 v hv
        omega
      simp only [skew]
      rw [if_neg hv, if_pos hg]
      exact rotate_right_step h hv hw0 (hp hv) hpd hsent
    · simp only [skew]
      rw [if_neg hv, if_neg hg]
      exact shapeStep_refl h hp

/-- `split` is a `ShapeStep`: when its guard fires the right child is
nonnull, the level bump on it does not move any pointer, and
`rotate_left_shape` applies; otherwise `split` is the identity. -/
theorem split_shape {m : Nat → Node α} {v p : Nat} {d : List Nat}
    (hinv : Inv m) (h : PTree m v d)
    (hp : v ≠ 0 → (m v).parent = p) (hpd : p ∉ d) :
    ShapeStep m v d p (split m v) := by
  by_cases hv : v = 0
  · subst hv
    simp only [split]
    rw [if_pos trivial]
    exact shapeStep_refl h (fun hc => absurd rfl hc)
  · by_cases hg : (m v).level = (m (m v).right).level ∧
        (m v).level = (m (m (m v).right).right).level
    · have hw0 : (m v).right ≠ 0 := by
        intro hl0
        have hg1 := hg.1
        rw [hl0] at hg1
        have h1 : (m 0).level = 0 := hinv.1.1
        have h2 : 1 ≤ (m v).level := hinv.2 v hv
        omega
      obtain ⟨dl, dr, rfl, hl, hr, hbl, hbr, hdisj, hvl, hvr⟩ := h.node_inv hv
      have hrd : (m v).right ∈ v :: (dl ++ dr) := by
        have := hr.head_mem hw0
        simp [this]
      simp only [split]
      rw [if_neg hv, if_pos hg]
      set m2 := setLevel m (m v).right ((m (m v).right).level + 1) with hm2
      have hpr : p ≠ (m v).right := fun hh => hpd (by rw [hh]; exact hrd)
      have hm2k : ∀ k, k ≠ (m v).right → m2 k = m k :=
        fun k hk => setLevel_cell_other _ hk
      have hvrne : v ≠ (m v).right := fun hh => hvr (by
        rw [hh]
        exact hr.head_mem hw0)
      have hP2 : PTree m2 v (v :: (dl ++ dr)) :=
        (PTree.node hv hl hr hbl hbr hdisj hvl hvr).setLevel_any _ _
      have h2v : m2 v = m v := hm2k v hvrne
      have h2vr0 : (m2 v).right ≠ 0 := by rw [h2v]; exact hw0
      have h2vp : (m2 v).parent = p := by rw [h2v]; exact hp hv
      have hsent2 : p = 0 → (m2 0).left = 0 ∧ (m2 0).right = 0 := by
        intro _
        rw [hm2k 0 (Ne.symm hw0)]
        exact ⟨hinv.1.2.1, hinv.1.2.2.1⟩
      obtain ⟨e1, e2, e3, e4, e5, e6⟩ :=
        rotate_left_shape hP2 hv h2vr0 h2vp hpd hsent2
      have h2vreq : (m2 v).right = (m v).right := by rw [h2v]
      rw [h2vreq] at e1 e2 e3 e5
      have hp2 : m2 p = m p := hm2k p hpr
      refine ⟨?_, ?_, ?_, ?_, ?_, ?_⟩
      · rw [e1]
        exact iff_of_false hw0 hv
      · rw [e1]
        exact e2
      · rw [e1]
        intro _
        exact e3
      · intro k hk hkp
        have hkr : k ≠ (m v).right := fun hh => hk (by rw [hh]; exact hrd)
        rw [e4 k hk hkp]
        exact hm2k k hkr
      · intro hp0
        obtain ⟨f1, f2, f3, f4, f5, _⟩ := e5 hp0
        refine ⟨by rw [f1, hp2], by rw [f2, hp2], by rw [f3, hp2], ?_, ?_⟩
        · intro hx
          obtain ⟨g1, g2⟩ := f4 (by rw [hp2]; exact hx)
          exact ⟨by rw [e1]; exact g1, by rw [g2, hp2]⟩
        · intro hx hy
          obtain ⟨g1, g2⟩ := f5 (by rw [hp2]; exact hx) (by rw [hp2]; exact hy)
          exact ⟨by rw [e1]; exact g1, by rw [g2, hp2]⟩
      · intro hp0
        rw [e6 hp0]
        subst hp0
        exact hm2k 0 (Ne.symm hw0)
    · simp only [split]
      rw [if_neg hv, if_neg hg]
      exact shapeStep_refl h hp

theorem skew_zero (m : Nat → Node α) : skew m 0 = (m, 0) := by
  simp [skew]

theorem split_zero (m : Nat → Node α) : split m 0 = (m, 0) := by
  simp [split]

/-- Effect of a `ShapeStep` run at the right child of `n` (with `n` as the
handed-down parent): the node `n` is rebuilt on a set-equal footprint, only
the right-subtree cells and `n`'s right slot change, and `n`'s right slot
now holds the step's result. -/
theorem shape_child_right {m : Nat → Node α} {n : Nat} {dl dr : List Nat}
    {r : (Nat → Node α) × Nat}
    (hn : n ≠ 0)
    (hl : PTree m (m n).left dl)
    (hr : PTree m (m n).right dr)
    (hbl : (m n).left ≠ 0 → (m (m n).left).parent = n)
    (hdisj : ∀ j ∈ dl, j ∉ dr)
    (hnl : n ∉ dl) (hnr : n ∉ dr)
    (hstep : ShapeStep m (m n).right dr n r) :
    (∃ d2, (∀ j, j ∈ d2 ↔ j ∈ dr) ∧ PTree r.1 n (n :: (dl ++ d2))) ∧
    (∀ k, k ∉ dr → k ≠ n → r.1 k = m k) ∧
    (r.1 n).parent = (m n).parent ∧
    (r.1 n).level = (m n).level ∧
    (r.1 n).value = (m n).value ∧
    (r.1 n).left = (m n).left ∧
    (r.1 n).right = r.2 := by
  obtain ⟨a1, a2, a3, a4, a5, _⟩ := hstep
  have hslot : (r.1 n).parent = (m n).parent ∧ (r.1 n).level = (m n).level ∧
      (r.1 n).value = (m n).value ∧ (r.1 n).left = (m n).left ∧
      (r.1 n).right = r.2 := by
    obtain ⟨f1, f2, f3, f4, f5⟩ := a5 hn
    by_cases hc : (m n).left = (m n).right
    · by_cases h0 : (m n).right = 0
      · have hr2 : r.2 = 0 := a1.2 h0
        obtain ⟨g1, g2⟩ := f4 (by rw [hc])
        exact ⟨f1, f2, f3, by rw [g1, hr2, hc, h0], by rw [g2, h0, hr2]⟩
      · exfalso
        have hmem : (m n).right ∈ dr := hr.head_mem h0
        have hmeml : (m n).left ∈ dl := hl.head_mem (by rw [hc]; exact h0)
        rw [hc] at hmeml
        exact hdisj _ hmeml hmem
    · obtain ⟨g1, g2⟩ := f5 hc rfl
      exact ⟨f1, f2, f3, g2, g1⟩
  obtain ⟨d2, hP2, hd2⟩ := a2
  refine ⟨⟨d2, hd2, ?_⟩, a4, hslot.1, hslot.2.1, hslot.2.2.1,
    hslot.2.2.2.1, hslot.2.2.2.2⟩
  refine PTree.node hn ?_ ?_ ?_ ?_ ?_ ?_ ?_
  · rw [hslot.2.2.2.1]
    refine hl.frame ?_
    intro j hj
    rw [a4 j (hdisj j hj) (fun hh => hnl (by rw [← hh]; exact hj))]
    exact ⟨rfl, rfl, rfl⟩
  · rw [hslot.2.2.2.2]
    exact hP2
  · rw [hslot.2.2.2.1]
    intro hne
    have hmem : (m n).left ∈ dl := hl.head_mem hne
    rw [a4 _ (hdisj _ hmem) (fun hh => hnl (by rw [← hh]; exact hmem))]
    exact hbl hne
  · rw [hslot.2.2.2.2]
    exact a3
  · intro j hj hc2
    exact hdisj j hj ((hd2 j).1 hc2)
  · exact hnl
  · intro hc2
    exact hnr ((hd2 n).1 hc2)

/-- A memory change that keeps the subtree well formed on a set-equal
footprint, keeps the root's parent field, and touches nothing outside the
footprint is a `ShapeStep` that keeps the root. -/
theorem shapeStep_of_inner {m m2 : Nat → Node α} {v p : Nat} {d d2 : List Nat}
    (h : PTree m2 v d2) (hiff : ∀ j, j ∈ d2 ↔ j ∈ d)
    (hp : v ≠ 0 → (m2 v).parent = p)
    (hframe : ∀ k, k ∉ d → m2 k = m k)
    (hpd : p ∉ d) :
    ShapeStep m v d p (m2, v) := by
  have hpm : m2 p = m p := hframe p hpd
  refine ⟨Iff.rfl, ⟨d2, h, hiff⟩, hp, fun k hk _ => hframe k hk, ?_, fun _ => hpm⟩
  intro _
  change (m2 p).parent = _ ∧ (m2 p).level = _ ∧ (m2 p).value = _ ∧
    ((m p).left = v → (m2 p).left = v ∧ (m2 p).right = _) ∧
    ((m p).left ≠ v → (m p).right = v → (m2 p).right = v ∧ (m2 p).left = _)
  rw [hpm]
  exact ⟨rfl, rfl, rfl, fun h4 => ⟨h4, rfl⟩, fun _ h5 => ⟨h5, rfl⟩⟩

/-- A `ShapeStep` performed at the right child of `n` lifts to a root-keeping
`ShapeStep` at `n`: this is the shape content of the calls of the erase
repair block whose return values are discarded. -/
theorem shape_child_right_inner {m : Nat → Node α} {n p : Nat} {d : List Nat}
    {r : (Nat → Node α) × Nat}
    (h : PTree m n d) (hn : n ≠ 0) (hp : (m n).parent = p) (hpd : p ∉ d)
    (hop : ∀ dr, PTree m (m n).right dr →
      ((m n).right ≠ 0 → (m (m n).right).parent = n) → n ∉ dr →
      ShapeStep m (m n).right dr n r) :
    ShapeStep m n d p (r.1, n) := by
  obtain ⟨dl, dr, rfl, hl, hr, hbl, hbr, hdisj, hnl, hnr⟩ := h.node_inv hn
  have hstep := hop dr hr hbr hnr
  obtain ⟨⟨d2, hd2, hP2⟩, hframe, hpar, hlev, hval, hleft, hright⟩ :=
    shape_child_right hn hl hr hbl hdisj hnl hnr hstep
  refine shapeStep_of_inner hP2 ?_ ?_ ?_ hpd
  · intro j
    simp only [List.mem_cons, List.mem_append]
    constructor
    · rintro (h1 | h1 | h1)
      · exact Or.inl h1
      · exact Or.inr (Or.inl h1)
      · exact Or.inr (Or.inr ((hd2 j).1 h1))
    · rintro (h1 | h1 | h1)
      · exact Or.inl h1
      · exact Or.inr (Or.inl h1)
      · exact Or.inr (Or.inr ((hd2 j).2 h1))
  · intro _
    rw [hpar]
    exact hp
  · intro k hk
    simp only [List.mem_cons, List.mem_append] at hk
    push_neg at hk
    exact hframe k hk.2.2 hk.1

theorem setLevel_fields (m : Nat → Node α) (i lv k : Nat) :
    ((setLevel m i lv) k).left = (m k).left ∧
    ((setLevel m i lv) k).right = (m k).right ∧
    ((setLevel m i lv) k).parent = (m k).parent := by
  by_cases hk : k = i
  · subst hk
    rw [setLevel_cell_same]
    exact ⟨rfl, rfl, rfl⟩
  · rw [setLevel_cell_other _ hk]
    exact ⟨rfl, rfl, rfl⟩

/-- The repair block of `internal_erase` (tree.h 400-410) is a `ShapeStep`:
the two level decrements move no pointer, and the five skew/split calls are
root-position or child-position `ShapeStep`s composed in sequence — in
particular the three calls whose return values the source discards act only
through the parent-slot rewiring inside their rotations. -/
theorem erase_repair_shape {m : Nat → Node α} {nd p : Nat} {d : List Nat}
    (hinv : Inv m) (h : PTree m nd d)
    (hp : nd ≠ 0 → (m nd).parent = p) (hpd : p ∉ d)
    (hpl : p ≠ 0 → (m p).left ≠ nd → (m p).left ∉ d) :
    ShapeStep m nd d p (erase_repair m nd) := by
  by_cases hc : (m (m nd).left).level + 1 < (m nd).level ∨
      (m (m nd).right).level + 1 < (m nd).level
  case neg =>
    simp only [erase_repair]
    rw [if_neg hc]
    exact shapeStep_refl h hp
  case pos =>
  have hnd : nd ≠ 0 := by
    intro hh
    rw [hh] at hc
    rw [hinv.1.2.1, hinv.1.1, hinv.1.2.2.1, hinv.1.1] at hc
    omega
  have hlv2 : 2 ≤ (m nd).level := by
    rcases hc with hc | hc <;> omega
  simp only [erase_repair]
  rw [if_pos hc]
  set m5 := setLevel m nd ((m nd).level - 1) with hm5d
  set m6 := if (m5 (m5 nd).right).level > (m5 nd).level then
      setLevel m5 (m5 nd).right ((m5 (m5 nd).right).level - 1) else m5 with hm6d
  set s1 := skew m6 nd with hs1d
  set m7 := (skew s1.1 (s1.1 s1.2).right).1 with hm7d
  set m8 := (skew m7 (m7 (m7 s1.2).right).right).1 with hm8d
  set s2 := split m8 s1.2 with hs2d
  set m9 := (split s2.1 (s2.1 s2.2).right).1 with hm9d
  have hinv5 : Inv m5 := by
    rw [hm5d]
    exact inv_setLevel hinv hnd (by omega)
  have hm5f : ∀ k, (m5 k).left = (m k).left ∧ (m5 k).right = (m k).right ∧
      (m5 k).parent = (m k).parent := by
    intro k
    rw [hm5d]
    exact setLevel_fields _ _ _ _
  have hm5ndright : (m5 nd).right = (m nd).right := (hm5f nd).2.1
  have hm5lv : (m5 nd).level = (m nd).level - 1 := by
    rw [hm5d, setLevel_cell_same]
  have hinv6 : Inv m6 := by
    rw [hm6d]
    by_cases hg : (m5 (m5 nd).right).level > (m5 nd).level
    · rw [if_pos hg]
      have hlv5 : 1 ≤ (m5 nd).level := by
        rw [hm5lv]
        omega
      have hrne2 : (m5 nd).right ≠ 0 := by
        intro hh
        rw [hh, hinv5.1.1] at hg
        omega
      exact inv_setLevel hinv5 hrne2 (by omega)
    · rw [if_neg hg]
      exact hinv5
  have hm6f : ∀ k, (m6 k).left = (m5 k).left ∧ (m6 k).right = (m5 k).right ∧
      (m6 k).parent = (m5 k).parent := by
    intro k
    rw [hm6d]
    by_cases hg : (m5 (m5 nd).right).level > (m5 nd).level
    · rw [if_pos hg]
      exact setLevel_fields _ _ _ _
    · rw [if_neg hg]
      exact ⟨rfl, rfl, rfl⟩
  have hm6mf : ∀ k, (m6 k).left = (m k).left ∧ (m6 k).right = (m k).right ∧
      (m6 k).parent = (m k).parent := by
    intro k
    obtain ⟨a1, a2, a3⟩ := hm6f k
    obtain ⟨b1, b2, b3⟩ := hm5f k
    exact ⟨by rw [a1, b1], by rw [a2, b2], by rw [a3, b3]⟩
  have hm56 : ∀ k, k ≠ nd → m5 k = m k := by
    intro k hk
    rw [hm5d]
    exact setLevel_cell_other _ hk
  have hm6k : ∀ k, k ≠ nd → ((m nd).right ≠ 0 → k ≠ (m nd).right) →
      m6 k = m k := by
    intro k hk1 hk2
    rw [hm6d]
    by_cases hg : (m5 (m5 nd).right).level > (m5 nd).level
    · rw [if_pos hg]
      have hrne2 : (m5 nd).right ≠ 0 := by
        intro hh
        rw [hh, hinv5.1.1] at hg
        omega
      rw [setLevel_cell_other _ (by
        rw [hm5ndright]
        exact hk2 (by rw [← hm5ndright]; exact hrne2))]
      exact hm56 k hk1
    · rw [if_neg hg]
      exact hm56 k hk1
  have hndd : nd ∈ d := h.head_mem hnd
  have hrd : (m nd).right ≠ 0 → (m nd).right ∈ d := by
    intro hne
    obtain ⟨dl, dr, hdeq, _, hr, _, _, _, _, _⟩ := h.node_inv hnd
    rw [hdeq]
    have := hr.head_mem hne
    simp [this]
  have hP6 : PTree m6 nd d := h.frame (fun j _ => hm6mf j)
  have hT1 : ShapeStep m nd d p (m6, nd) :=
    shapeStep_of_inner hP6 (fun j => Iff.rfl)
      (fun _ => by rw [(hm6mf nd).2.2]; exact hp hnd)
      (fun k hk => hm6k k (fun hh => hk (by rw [hh]; exact hndd))
        (fun hne hh => hk (by rw [hh]; exact hrd hne)))
      hpd
  have hinvs1 : Inv s1.1 := by
    rw [hs1d]
    exact skew_inv hinv6 nd
  have hT2s : ShapeStep m6 nd d p s1 := by
    rw [hs1d]
    exact skew_shape hinv6 hP6 (fun _ => by rw [(hm6mf nd).2.2]; exact hp hnd) hpd
  have hT2 : ShapeStep m nd d p s1 :=
    shapeStep_comp hnd hT1 hP6 (fun j => Iff.rfl) hT2s hpl
  obtain ⟨d1, hPd1, hiff1⟩ := hT2.2.1
  have hs1nd : s1.2 ≠ 0 := fun hc2 => hnd (hT2.1.1 hc2)
  have hs1p : (s1.1 s1.2).parent = p := hT2.2.2.1 hs1nd
  have hpd1 : p ∉ d1 := fun hc2 => hpd ((hiff1 p).1 hc2)
  have hinv7 : Inv m7 := by
    rw [hm7d]
    exact skew_inv hinvs1 _
  have hT3s : ShapeStep s1.1 s1.2 d1 p (m7, s1.2) := by
    rw [hm7d]
    exact shape_child_right_inner hPd1 hs1nd hs1p hpd1
      (fun dr hPr hb hnin => skew_shape hinvs1 hPr hb hnin)
  have hT3 : ShapeStep m nd d p (m7, s1.2) :=
    shapeStep_comp hnd hT2 hPd1 hiff1 hT3s hpl
  obtain ⟨d2f, hPd2, hiff2⟩ := hT3.2.1
  have hpd2 : p ∉ d2f := fun hc2 => hpd ((hiff2 p).1 hc2)
  have hinv8 : Inv m8 := by
    rw [hm8d]
    exact skew_inv hinv7 _
  have hT4s : ShapeStep m7 s1.2 d2f p (m8, s1.2) := by
    have hop : ∀ dr, PTree m7 (m7 s1.2).right dr →
        ((m7 s1.2).right ≠ 0 → (m7 (m7 s1.2).right).parent = s1.2) →
        s1.2 ∉ dr →
        ShapeStep m7 (m7 s1.2).right dr s1.2
          ((skew m7 (m7 (m7 s1.2).right).right).1, (m7 s1.2).right) := by
      intro dr hPr hb hnin
      by_cases hc2 : (m7 s1.2).right = 0
      · have hz : (m7 (m7 s1.2).right).right = 0 := by
          rw [hc2, hinv7.1.2.2.1]
        rw [hz, skew_zero]
        exact shapeStep_refl hPr hb
      · exact shape_child_right_inner hPr hc2 (hb hc2) hnin
          (fun dr2 hPr2 hb2 hnin2 => skew_shape hinv7 hPr2 hb2 hnin2)
    have hres := shape_child_right_inner hPd2 hs1nd (hT3.2.2.1 hs1nd) hpd2 hop
    rw [hm8d]
    exact hres
  have hT4 : ShapeStep m nd d p (m8, s1.2) :=
    shapeStep_comp hnd hT3 hPd2 hiff2 hT4s hpl
  obtain ⟨d3f, hPd3, hiff3⟩ := hT4.2.1
  have hpd3 : p ∉ d3f := fun hc2 => hpd ((hiff3 p).1 hc2)
  have hinvs2 : Inv s2.1 := by
    rw [hs2d]
    exact split_inv hinv8 _
  have hT5s : ShapeStep m8 s1.2 d3f p s2 := by
    rw [hs2d]
    exact split_shape hinv8 hPd3 (fun _ => hT4.2.2.1 hs1nd) hpd3
  have hT5 : ShapeStep m nd d p s2 :=
    shapeStep_comp hnd hT4 hPd3 hiff3 hT5s hpl
  obtain ⟨d4f, hPd4, hiff4⟩ := hT5.2.1
  have hs2nd : s2.2 ≠ 0 := fun hc2 => hnd (hT5.1.1 hc2)
  have hpd4 : p ∉ d4f := fun hc2 => hpd ((hiff4 p).1 hc2)
  have hT6s : ShapeStep s2.1 s2.2 d4f p (m9, s2.2) := by
    rw [hm9d]
    exact shape_child_right_inner hPd4 hs2nd (hT5.2.2.1 hs2nd) hpd4
      (fun dr hPr hb hnin => split_shape hinvs2 hPr hb hnin)
  exact shapeStep_comp hnd hT5 hPd4 hiff4 hT6s hpl

/-- Equality of the four link/level fields of two cells (the `value` field
is excluded: the splice of `internal_erase` writes `to_erase->value`, which
may live above the subtree being rewritten, and no shape fact reads it). -/
def linksEq (a b : Node α) : Prop :=
  a.left = b.left ∧ a.right = b.right ∧ a.parent = b.parent ∧ a.level = b.level

theorem linksEq_of_eq {a b : Node α} (h : a = b) : linksEq a b := by
  rw [h]
  exact ⟨rfl, rfl, rfl, rfl⟩

theorem linksEq_trans {a b c : Node α} (h1 : linksEq a b) (h2 : linksEq b c) :
    linksEq a c :=
  ⟨by rw [h1.1, h2.1], by rw [h1.2.1, h2.2.1], by rw [h1.2.2.1, h2.2.2.1],
    by rw [h1.2.2.2, h2.2.2.2]⟩

theorem setValue_fields (m : Nat → Node α) (i : Nat) (v : α) (k : Nat) :
    linksEq ((setValue m i v) k) (m k) := by
  by_cases hk : k = i
  · subst hk
    rw [setValue_cell_same]
    exact ⟨rfl, rfl, rfl, rfl⟩
  · rw [setValue_cell_other _ hk]
    exact ⟨rfl, rfl, rfl, rfl⟩

theorem PTree.frame_links {m m2 : Nat → Node α} {i : Nat} {d : List Nat}
    (h : PTree m i d) (he : ∀ j ∈ d, linksEq (m2 j) (m j)) : PTree m2 i d :=
  h.frame (fun j hj => ⟨(he j hj).1, (he j hj).2.1, (he j hj).2.2.1⟩)

/-- The shape contract of `internal_erase` and its tail `erase_finish`,
relative to the subtree footprint `d` of the node `nd` it was run at and
the handed-down parent `p`: the returned subtree is well formed on a
sub-cell-set of `d` (erasing frees one cell), cells outside `d ∪ \x7bp\x7d keep
their links (only `to_erase`'s value may change), and of `p` only the child
slot that pointed at `nd` may change.  Nothing is claimed about the result
root's parent field: the caller rewrites it (tree.h 378-379, 384-385) and
the `erase` wrapper rewrites the root's (tree.h 197). -/
def EraseShape (m : Nat → Node α) (nd : Nat) (d : List Nat) (p : Nat)
    (m2 : Nat → Node α) (res : Nat) : Prop :=
  (∃ d2, PTree m2 res d2 ∧ (∀ j ∈ d2, j ∈ d)) ∧
  (∀ k, k ∉ d → k ≠ p → linksEq (m2 k) (m k)) ∧
  (p ≠ 0 →
    (m2 p).parent = (m p).parent ∧
    (m2 p).level = (m p).level ∧
    ((m p).left = nd → (m2 p).right = (m p).right) ∧
    ((m p).left ≠ nd → (m p).right = nd → (m2 p).left = (m p).left)) ∧
  (p = 0 → linksEq (m2 0) (m 0))

theorem shapeStep_eraseShape {m : Nat → Node α} {v p : Nat} {d : List Nat}
    {r : (Nat → Node α) × Nat} (h : ShapeStep m v d p r) :
    EraseShape m v d p r.1 r.2 := by
  obtain ⟨a1, a2, a3, a4, a5, a6⟩ := h
  refine ⟨?_, ?_, ?_, ?_⟩
  · obtain ⟨d2, hP, hiff⟩ := a2
    exact ⟨d2, hP, fun j hj => (hiff j).1 hj⟩
  · intro k hk hkp
    exact linksEq_of_eq (a4 k hk hkp)
  · intro hp0
    obtain ⟨f1, f2, _, f4, f5⟩ := a5 hp0
    exact ⟨f1, f2, fun hx => (f4 hx).2, fun hx hy => (f5 hx hy).2⟩
  · intro hp0
    subst hp0
    exact linksEq_of_eq (a6 rfl)

/-- `erase_finish` (the splice block of tree.h 389-398 followed by the
repair block) satisfies the erase shape contract.  In the splice case the
node itself is the last visited node, one of its children is promoted, the
freed cell leaves the footprint, and the repair's rotations write their
parent-slot updates into that freed cell, which still lies inside `d`. -/
theorem erase_finish_shape {m : Nat → Node α} {nd p : Nat} {d : List Nat}
    {is_erased : Bool} {toE : Option Nat} {last : Nat} {value : α}
    (hinv : Inv m) (h : PTree m nd d)
    (hp : nd ≠ 0 → (m nd).parent = p) (hpd : p ∉ d)
    (hpl : p ≠ 0 → (m p).left ≠ nd → (m p).left ∉ d) :
    EraseShape m nd d p (erase_finish m nd is_erased toE last value).1
      (erase_finish m nd is_erased toE last value).2.1 := by
  have h0d : 0 ∉ d := fun hc => h.mem_ne_zero 0 hc rfl
  cases toE with
  | none =>
    simp only [erase_finish]
    exact shapeStep_eraseShape (erase_repair_shape hinv h hp hpd hpl)
  | some te =>
    by_cases hg : nd = last ∧ ¬ (m te).value < value ∧ ¬ value < (m te).value
    · have hnl0 := hg.1
      subst hnl0
      simp only [erase_finish]
      rw [if_pos (show True ∧ ¬ (m te).value < value ∧ ¬ value < (m te).value
        from ⟨trivial, hg.2⟩)]
      set m1 := setValue m te (m nd).value with hm1d
      have hm1f : ∀ k, linksEq (m1 k) (m k) := by
        intro k
        rw [hm1d]
        exact setValue_fields _ _ _ _
      by_cases hnd : nd = 0
      · -- degenerate splice at the sentinel: both children are null, so the
        -- promoted child is null and the repair is the identity
        subst hnd
        have hz : (if (0:Nat) = te then (m1 0).left else (m1 0).right) = 0 := by
          by_cases hte : (0:Nat) = te
          · rw [if_pos hte, (hm1f 0).1, hinv.1.2.1]
          · rw [if_neg hte, (hm1f 0).2.1, hinv.1.2.2.1]
        rw [hz]
        have hrep : erase_repair m1 0 = (m1, 0) := by
          simp only [erase_repair]
          rw [if_neg]
          intro hc
          rw [(hm1f 0).2.2.2, hinv.1.1] at hc
          rcases hc with hc | hc <;> omega
        rw [hrep]
        refine ⟨⟨[], PTree.bottom, by simp⟩, ?_, ?_, ?_⟩
        · intro k _ _
          exact hm1f k
        · intro _
          exact ⟨(hm1f p).2.2.1, (hm1f p).2.2.2,
            fun _ => (hm1f p).2.1, fun _ _ => (hm1f p).1⟩
        · intro _
          exact hm1f 0
      · obtain ⟨dl, dr, rfl, hl, hr, hbl, hbr, hdisj, hnld, hnrd⟩ := h.node_inv hnd
        have hinv1 : Inv m1 := by
          rw [hm1d]
          by_cases hte0 : te = 0
          · subst hte0
            refine ⟨⟨?_, ?_, ?_, ?_⟩, ?_⟩
            · rw [setValue_cell_same]
              exact hinv.1.1
            · rw [setValue_cell_same]
              exact hinv.1.2.1
            · rw [setValue_cell_same]
              exact hinv.1.2.2.1
            · rw [setValue_cell_same]
              exact hinv.1.2.2.2
            · intro k hk
              rw [setValue_cell_other _ hk]
              exact hinv.2 k hk
          · exact inv_setValue hinv _ hte0
        have hmemsub : ∀ j, j ∈ dl ∨ j ∈ dr → j ∈ nd :: (dl ++ dr) := by
          intro j hj
          rcases hj with hj | hj <;> simp [hj]
        by_cases hte : nd = te
        · -- promote the left child
          rw [if_pos hte]
          have hP1 : PTree m1 (m nd).left dl := hl.frame_links (fun j _ => hm1f j)
          have hm1l : (m1 nd).left = (m nd).left := (hm1f nd).1
          rw [hm1l]
          have hstep := erase_repair_shape hinv1 hP1
            (fun hcl => by rw [(hm1f ((m nd).left)).2.2.1]; exact hbl hcl)
            hnld
            (fun _ hx => absurd hm1l hx)
          obtain ⟨e1, e2, e3, e4, e5, e6⟩ := hstep
          refine ⟨?_, ?_, ?_, ?_⟩
          · obtain ⟨d2, hP2, hiff2⟩ := e2
            exact ⟨d2, hP2, fun j hj => hmemsub j (Or.inl ((hiff2 j).1 hj))⟩
          · intro k hk hkp
            have hknd : k ≠ nd := fun hc => hk (by rw [hc]; simp)
            have hkdl : k ∉ dl := fun hc => hk (hmemsub k (Or.inl hc))
            exact linksEq_trans (linksEq_of_eq (e4 k hkdl hknd)) (hm1f k)
          · intro _
            have hpnd : p ≠ nd := fun hc => hpd (by rw [hc]; simp)
            have hpdl : p ∉ dl := fun hc => hpd (hmemsub p (Or.inl hc))
            have hq := linksEq_trans (linksEq_of_eq (e4 p hpdl hpnd)) (hm1f p)
            exact ⟨hq.2.2.1, hq.2.2.2, fun _ => hq.2.1, fun _ _ => hq.1⟩
          · intro _
            have h0dl : (0:Nat) ∉ dl := fun hc => h0d (hmemsub 0 (Or.inl hc))
            exact linksEq_trans (linksEq_of_eq (e4 0 h0dl (Ne.symm hnd))) (hm1f 0)
        · -- promote the right child
          rw [if_neg hte]
          have hP1 : PTree m1 (m nd).right dr := hr.frame_links (fun j _ => hm1f j)
          have hm1r : (m1 nd).right = (m nd).right := (hm1f nd).2.1
          rw [hm1r]
          have hstep := erase_repair_shape hinv1 hP1
            (fun hcr => by rw [(hm1f ((m nd).right)).2.2.1]; exact hbr hcr)
            hnrd
            (fun _ _ => by
              rw [(hm1f nd).1]
              by_cases hL : (m nd).left = 0
              · rw [hL]
                intro hc
                exact hP1.mem_ne_zero 0 hc rfl
              · exact hdisj _ (hl.head_mem hL))
          obtain ⟨e1, e2, e3, e4, e5, e6⟩ := hstep
          refine ⟨?_, ?_, ?_, ?_⟩
          · obtain ⟨d2, hP2, hiff2⟩ := e2
            exact ⟨d2, hP2, fun j hj => hmemsub j (Or.inr ((hiff2 j).1 hj))⟩
          · intro k hk hkp
            have hknd : k ≠ nd := fun hc => hk (by rw [hc]; simp)
            have hkdr : k ∉ dr := fun hc => hk (hmemsub k (Or.inr hc))
            exact linksEq_trans (linksEq_of_eq (e4 k hkdr hknd)) (hm1f k)
          · intro _
            have hpnd : p ≠ nd := fun hc => hpd (by rw [hc]; simp)
            have hpdr : p ∉ dr := fun hc => hpd (hmemsub p (Or.inr hc))
            have hq := linksEq_trans (linksEq_of_eq (e4 p hpdr hpnd)) (hm1f p)
            exact ⟨hq.2.2.1, hq.2.2.2, fun _ => hq.2.1, fun _ _ => hq.1⟩
          · intro _
            have h0dr : (0:Nat) ∉ dr := fun hc => h0d (hmemsub 0 (Or.inr hc))
            exact linksEq_trans (linksEq_of_eq (e4 0 h0dr (Ne.symm hnd))) (hm1f 0)
    · simp only [erase_finish]
      rw [if_neg hg]
      exact shapeStep_eraseShape (erase_repair_shape hinv h hp hpd hpl)

theorem internal_erase_zero [LinearOrder α] (fuel : Nat) (m : Nat → Node α)
    (value : α) (toE : Option Nat) (last : Nat) :
    internal_erase fuel m 0 value toE last = (m, 0, false, toE, last) := by
  cases fuel with
  | zero => rfl
  | succ fuel => simp [internal_erase]

theorem eraseShape_refl {m : Nat → Node α} {nd p : Nat} {d : List Nat}
    (h : PTree m nd d) : EraseShape m nd d p m nd :=
  ⟨⟨d, h, fun _ hj => hj⟩, fun k _ _ => linksEq_of_eq rfl,
    fun _ => ⟨rfl, rfl, fun _ => rfl, fun _ _ => rfl⟩,
    fun _ => linksEq_of_eq rfl⟩

/-- `internal_erase` (tree.h 367-413) satisfies the erase shape contract:
the recursion rewrites the child slot and the child's parent backlink
(tree.h 377-379, 383-385), and the tail is `erase_finish`. -/
theorem internal_erase_shape [LinearOrder α] (fuel : Nat) :
    ∀ {m : Nat → Node α} {nd p : Nat} {d : List Nat} {value : α}
      {toE : Option Nat} {last : Nat},
      Inv m → (∀ te, toE = some te → te ≠ 0) →
      PTree m nd d → (nd ≠ 0 → (m nd).parent = p) → p ∉ d →
      (p ≠ 0 → (m p).left ≠ nd → (m p).left ∉ d) →
      EraseShape m nd d p (internal_erase fuel m nd value toE last).1
        (internal_erase fuel m nd value toE last).2.1 := by
  induction fuel with
  | zero =>
    intro m nd p d value toE last hinv htoE h hp hpd hpl
    exact eraseShape_refl h
  | succ fuel ih =>
    intro m nd p d value toE last hinv htoE h hp hpd hpl
    by_cases hnd : nd = 0
    · subst hnd
      rw [internal_erase_zero]
      exact eraseShape_refl h
    · rw [internal_erase, if_neg hnd]
      obtain ⟨dl, dr, rfl, hl, hr, hbl, hbr, hdisj, hnld, hnrd⟩ := h.node_inv hnd
      have h0d : (0:Nat) ∉ nd :: (dl ++ dr) :=
        fun hc => h.mem_ne_zero 0 hc rfl
      by_cases hlt : value < (m nd).value
      · rw [if_pos hlt]
        set r := internal_erase fuel m (m nd).left value toE nd with hrd
        set m2 := setLeft r.1 nd r.2.1 with hm2d
        set m3 := if (m2 nd).left ≠ 0 then setParent m2 (m2 nd).left nd else m2
          with hm3d
        have hihl := @ih m (m nd).left nd dl value toE nd hinv htoE hl hbl
          hnld (fun _ hx => absurd rfl hx)
        rw [← hrd] at hihl
        obtain ⟨⟨d2, hP2, hsub2⟩, hB, hC, hD⟩ := hihl
        have hCnd := hC hnd
        have hndright : (r.1 nd).right = (m nd).right := hCnd.2.2.1 rfl
        have hndparent : (r.1 nd).parent = (m nd).parent := hCnd.1
        have hres_dl : r.2.1 ≠ 0 → r.2.1 ∈ dl :=
          fun hne => hsub2 _ (hP2.head_mem hne)
        have hresnd : r.2.1 ≠ 0 → r.2.1 ≠ nd :=
          fun hne hc => hnld (by rw [← hc]; exact hres_dl hne)
        have hm2k : ∀ k, k ≠ nd → m2 k = r.1 k := by
          intro k hk
          rw [hm2d]
          exact setLeft_cell_other _ hk
        have hm2nd : m2 nd = { r.1 nd with left := r.2.1 } := by
          rw [hm2d]
          exact setLeft_cell_same _ _ _
        have hm2ndl : (m2 nd).left = r.2.1 := by rw [hm2nd]
        have hm3k : ∀ k, k ≠ nd → (r.2.1 ≠ 0 → k ≠ r.2.1) → m3 k = r.1 k := by
          intro k hk1 hk2
          rw [hm3d]
          by_cases hz : (m2 nd).left ≠ 0
          · rw [if_pos hz, hm2ndl,
              setParent_cell_other _ (hk2 (by rw [← hm2ndl]; exact hz))]
            exact hm2k k hk1
          · rw [if_neg hz]
            exact hm2k k hk1
        have hm3nd : m3 nd = { r.1 nd with left := r.2.1 } := by
          rw [hm3d]
          by_cases hz : (m2 nd).left ≠ 0
          · rw [if_pos hz, hm2ndl, setParent_cell_other _
              (Ne.symm (hresnd (by rw [← hm2ndl]; exact hz)))]
            exact hm2nd
          · rw [if_neg hz]
            exact hm2nd
        have hm3res : r.2.1 ≠ 0 → m3 r.2.1 = { m2 r.2.1 with parent := nd } := by
          intro hne
          rw [hm3d, if_pos (show (m2 nd).left ≠ 0 by rw [hm2ndl]; exact hne), hm2ndl]
          exact setParent_cell_same _ _ _
        have hP2' : PTree m3 r.2.1 d2 := by
          by_cases hne : r.2.1 = 0
          · rw [hne] at hP2 ⊢
            rw [hP2.zero_nil]
            exact PTree.bottom
          · have hPa : PTree m2 r.2.1 d2 := hP2.frame (fun j hj => by
              rw [hm2k j (fun hc => hnld (by rw [← hc]; exact hsub2 j hj))]
              exact ⟨rfl, rfl, rfl⟩)
            have hPb := hPa.setParent_root nd
            rw [hm3d, if_pos (show (m2 nd).left ≠ 0 by rw [hm2ndl]; exact hne),
              hm2ndl]
            exact hPb
        have hdr_links : ∀ j ∈ dr, linksEq (m3 j) (m j) := by
          intro j hj
          have hjnd : j ≠ nd := fun hc => hnrd (by rw [← hc]; exact hj)
          have hjdl : j ∉ dl := fun hc => hdisj j hc hj
          have hjres : r.2.1 ≠ 0 → j ≠ r.2.1 := fun hne hc =>
            hdisj _ (hres_dl hne) (by rw [← hc]; exact hj)
          exact linksEq_trans (linksEq_of_eq (hm3k j hjnd hjres)) (hB j hjdl hjnd)
        have hPdr : PTree m3 (m nd).right dr := hr.frame_links hdr_links
        have hP3 : PTree m3 nd (nd :: (d2 ++ dr)) := by
          refine PTree.node hnd ?_ ?_ ?_ ?_ ?_ ?_ ?_
          · rw [hm3nd]
            show PTree m3 r.2.1 d2
            exact hP2'
          · rw [hm3nd]
            show PTree m3 (r.1 nd).right dr
            rw [hndright]
            exact hPdr
          · rw [hm3nd]
            show r.2.1 ≠ 0 → (m3 r.2.1).parent = nd
            intro hne
            rw [hm3res hne]
          · rw [hm3nd]
            show (r.1 nd).right ≠ 0 → (m3 (r.1 nd).right).parent = nd
            rw [hndright]
            intro hne
            rw [(hdr_links _ (hr.head_mem hne)).2.2.1]
            exact hbr hne
          · intro j hj hc
            exact hdisj j (hsub2 j hj) hc
          · intro hc
            exact hnld (hsub2 nd hc)
          · exact hnrd
        have hm3p : (m3 nd).parent = p := by
          rw [hm3nd]
          show (r.1 nd).parent = p
          rw [hndparent]
          exact hp hnd
        have hinvr : Inv r.1 := by
          rw [hrd]
          exact (internal_erase_inv fuel m (m nd).left value toE nd hinv htoE).1
        have hinv2 : Inv m2 := by
          rw [hm2d]
          exact inv_setLeft hinvr _ hnd
        have hinv3 : Inv m3 := by
          rw [hm3d]
          by_cases hz : (m2 nd).left ≠ 0
          · rw [if_pos hz]
            exact inv_setParent hinv2 _ hz
          · rw [if_neg hz]
            exact hinv2
        have hsubnew : ∀ j ∈ nd :: (d2 ++ dr), j ∈ nd :: (dl ++ dr) := by
          intro j hj
          rcases List.mem_cons.1 hj with hc1 | hc2
          · simp [hc1]
          · rcases List.mem_append.1 hc2 with hc3 | hc3
            · simp [hsub2 _ hc3]
            · simp [hc3]
        have hpd3 : p ∉ nd :: (d2 ++ dr) := fun hc => hpd (hsubnew _ hc)
        have hpnd : p ≠ nd := fun hc => hpd (by rw [hc]; simp)
        have hpdl : p ∉ dl := fun hc => hpd (by simp [hc])
        have hpres : r.2.1 ≠ 0 → p ≠ r.2.1 :=
          fun hne hc => hpd (by rw [hc]; simp [hres_dl hne])
        have hqp : linksEq (m3 p) (m p) :=
          linksEq_trans (linksEq_of_eq (hm3k p hpnd hpres)) (hB p hpdl hpnd)
        have hpl3 : p ≠ 0 → (m3 p).left ≠ nd →
            (m3 p).left ∉ nd :: (d2 ++ dr) := by
          intro hp0 hx
          rw [hqp.1] at hx ⊢
          intro hc
          exact hpl hp0 hx (hsubnew _ hc)
        obtain ⟨⟨df, hPf, hsubf⟩, hfinB, hfinC, hfinD⟩ :=
          erase_finish_shape hinv3 hP3 (fun _ => hm3p) hpd3 hpl3
        refine ⟨⟨df, hPf, fun j hj => hsubnew _ (hsubf j hj)⟩, ?_, ?_, ?_⟩
        · intro k hk hkp
          have hknew : k ∉ nd :: (d2 ++ dr) := fun hc => hk (hsubnew _ hc)
          have hknd : k ≠ nd := fun hc => hk (by rw [hc]; simp)
          have hkdl : k ∉ dl := fun hc => hk (by simp [hc])
          have hkres : r.2.1 ≠ 0 → k ≠ r.2.1 :=
            fun hne hc => hk (by rw [hc]; simp [hres_dl hne])
          exact linksEq_trans (hfinB k hknew hkp)
            (linksEq_trans (linksEq_of_eq (hm3k k hknd hkres)) (hB k hkdl hknd))
        · intro hp0
          obtain ⟨f1, f2, f3, f4⟩ := hfinC hp0
          refine ⟨by rw [f1, hqp.2.2.1], by rw [f2, hqp.2.2.2], ?_, ?_⟩
          · intro hx
            rw [f3 (by rw [hqp.1]; exact hx), hqp.2.1]
          · intro hx hy
            rw [f4 (by rw [hqp.1]; exact hx) (by rw [hqp.2.1]; exact hy), hqp.1]
        · intro hp0
          subst hp0
          have h0dl : (0:Nat) ∉ dl := fun hc => h0d (by simp [hc])
          exact linksEq_trans (hfinD rfl)
            (linksEq_trans (linksEq_of_eq (hm3k 0 (Ne.symm hnd)
              (fun hne => Ne.symm hne))) (hB 0 h0dl (Ne.symm hnd)))
      · rw [if_neg hlt]
        set r := internal_erase fuel m (m nd).right value (some nd) nd with hrd
        set m2 := setRight r.1 nd r.2.1 with hm2d
        set m3 := if (m2 nd).right ≠ 0 then setParent m2 (m2 nd).right nd else m2
          with hm3d
        have htoE2 : ∀ te, (some nd : Option Nat) = some te → te ≠ 0 := by
          intro te hte
          rw [← Option.some.inj hte]
          exact hnd
        have hihr := @ih m (m nd).right nd dr value (some nd) nd hinv htoE2
          hr hbr hnrd (fun _ hx => by
          by_cases hL : (m nd).left = 0
          · rw [hL]
            intro hc
            exact hr.mem_ne_zero 0 hc rfl
          · exact hdisj _ (hl.head_mem hL))
        rw [← hrd] at hihr
        obtain ⟨⟨d2, hP2, hsub2⟩, hB, hC, hD⟩ := hihr
        have hCnd := hC hnd
        have hndleft : (r.1 nd).left = (m nd).left := by
          by_cases hc0 : (m nd).right = 0
          · rw [hrd, hc0, internal_erase_zero]
          · have hner : (m nd).left ≠ (m nd).right := by
              intro hc
              by_cases hL : (m nd).left = 0
              · rw [hL] at hc
                exact hc0 hc.symm
              · exact hdisj _ (hl.head_mem hL) (by rw [hc]; exact hr.head_mem hc0)
            exact hCnd.2.2.2 hner rfl
        have hndparent : (r.1 nd).parent = (m nd).parent := hCnd.1
        have hres_dr : r.2.1 ≠ 0 → r.2.1 ∈ dr :=
          fun hne => hsub2 _ (hP2.head_mem hne)
        have hresnd : r.2.1 ≠ 0 → r.2.1 ≠ nd :=
          fun hne hc => hnrd (by rw [← hc]; exact hres_dr hne)
        have hm2k : ∀ k, k ≠ nd → m2 k = r.1 k := by
          intro k hk
          rw [hm2d]
          exact setRight_cell_other _ hk
        have hm2nd : m2 nd = { r.1 nd with right := r.2.1 } := by
          rw [hm2d]
          exact setRight_cell_same _ _ _
        have hm2ndr : (m2 nd).right = r.2.1 := by rw [hm2nd]
        have hm3k : ∀ k, k ≠ nd → (r.2.1 ≠ 0 → k ≠ r.2.1) → m3 k = r.1 k := by
          intro k hk1 hk2
          rw [hm3d]
          by_cases hz : (m2 nd).right ≠ 0
          · rw [if_pos hz, hm2ndr,
              setParent_cell_other _ (hk2 (by rw [← hm2ndr]; exact hz))]
            exact hm2k k hk1
          · rw [if_neg hz]
            exact hm2k k hk1
        have hm3nd : m3 nd = { r.1 nd with right := r.2.1 } := by
          rw [hm3d]
          by_cases hz : (m2 nd).right ≠ 0
          · rw [if_pos hz, hm2ndr, setParent_cell_other _
              (Ne.symm (hresnd (by rw [← hm2ndr]; exact hz)))]
            exact hm2nd
          · rw [if_neg hz]
            exact hm2nd
        have hm3res : r.2.1 ≠ 0 → m3 r.2.1 = { m2 r.2.1 with parent := nd } := by
          intro hne
          rw [hm3d, if_pos (show (m2 nd).right ≠ 0 by rw [hm2ndr]; exact hne),
            hm2ndr]
          exact setParent_cell_same _ _ _
        have hP2' : PTree m3 r.2.1 d2 := by
          by_cases hne : r.2.1 = 0
          · rw [hne] at hP2 ⊢
            rw [hP2.zero_nil]
            exact PTree.bottom
          · have hPa : PTree m2 r.2.1 d2 := hP2.frame (fun j hj => by
              rw [hm2k j (fun hc => hnrd (by rw [← hc]; exact hsub2 j hj))]
              exact ⟨rfl, rfl, rfl⟩)
            have hPb := hPa.setParent_root nd
            rw [hm3d, if_pos (show (m2 nd).right ≠ 0 by rw [hm2ndr]; exact hne),
              hm2ndr]
            exact hPb
        have hdl_links : ∀ j ∈ dl, linksEq (m3 j) (m j) := by
          intro j hj
          have hjnd : j ≠ nd := fun hc => hnld (by rw [← hc]; exact hj)
          have hjdr : j ∉ dr := hdisj j hj
          have hjres : r.2.1 ≠ 0 → j ≠ r.2.1 := fun hne hc =>
            hdisj j hj (by rw [hc]; exact hres_dr hne)
          exact linksEq_trans (linksEq_of_eq (hm3k j hjnd hjres)) (hB j hjdr hjnd)
        have hPdl : PTree m3 (m nd).left dl := hl.frame_links hdl_links
        have hP3 : PTree m3 nd (nd :: (dl ++ d2)) := by
          refine PTree.node hnd ?_ ?_ ?_ ?_ ?_ ?_ ?_
          · rw [hm3nd]
            show PTree m3 (r.1 nd).left dl
            rw [hndleft]
            exact hPdl
          · rw [hm3nd]
            show PTree m3 r.2.1 d2
            exact hP2'
          · rw [hm3nd]
            show (r.1 nd).left ≠ 0 → (m3 (r.1 nd).left).parent = nd
            rw [hndleft]
            intro hne
            rw [(hdl_links _ (hl.head_mem hne)).2.2.1]
            exact hbl hne
          · rw [hm3nd]
            show r.2.1 ≠ 0 → (m3 r.2.1).parent = nd
            intro hne
            rw [hm3res hne]
          · intro j hj hc
            exact hdisj j hj (hsub2 j hc)
          · exact hnld
          · intro hc
            exact hnrd (hsub2 nd hc)
        have hm3p : (m3 nd).parent = p := by
          rw [hm3nd]
          show (r.1 nd).parent = p
          rw [hndparent]
          exact hp hnd
        have hinvr : Inv r.1 := by
          rw [hrd]
          exact (internal_erase_inv fuel m (m nd).right value (some nd) nd
            hinv htoE2).1
        have hinv2 : Inv m2 := by
          rw [hm2d]
          exact inv_setRight hinvr _ hnd
        have hinv3 : Inv m3 := by
          rw [hm3d]
          by_cases hz : (m2 nd).right ≠ 0
          · rw [if_pos hz]
            exact inv_setParent hinv2 _ hz
          · rw [if_neg hz]
            exact hinv2
        have hsubnew : ∀ j ∈ nd :: (dl ++ d2), j ∈ nd :: (dl ++ dr) := by
          intro j hj
          rcases List.mem_cons.1 hj with hc1 | hc2
          · simp [hc1]
          · rcases List.mem_append.1 hc2 with hc3 | hc3
            · simp [hc3]
            · simp [hsub2 _ hc3]
        have hpd3 : p ∉ nd :: (dl ++ d2) := fun hc => hpd (hsubnew _ hc)
        have hpnd : p ≠ nd := fun hc => hpd (by rw [hc]; simp)
        have hpdr : p ∉ dr := fun hc => hpd (by simp [hc])
        have hpres : r.2.1 ≠ 0 → p ≠ r.2.1 :=
          fun hne hc => hpd (by rw [hc]; simp [hres_dr hne])
        have hqp : linksEq (m3 p) (m p) :=
          linksEq_trans (linksEq_of_eq (hm3k p hpnd hpres)) (hB p hpdr hpnd)
        have hpl3 : p ≠ 0 → (m3 p).left ≠ nd →
            (m3 p).left ∉ nd :: (dl ++ d2) := by
          intro hp0 hx
          rw [hqp.1] at hx ⊢
          intro hc
          exact hpl hp0 hx (hsubnew _ hc)
        obtain ⟨⟨df, hPf, hsubf⟩, hfinB, hfinC, hfinD⟩ :=
          erase_finish_shape hinv3 hP3 (fun _ => hm3p) hpd3 hpl3
        refine ⟨⟨df, hPf, fun j hj => hsubnew _ (hsubf j hj)⟩, ?_, ?_, ?_⟩
        · intro k hk hkp
          have hknew : k ∉ nd :: (dl ++ d2) := fun hc => hk (hsubnew _ hc)
          have hknd : k ≠ nd := fun hc => hk (by rw [hc]; simp)
          have hkdr : k ∉ dr := fun hc => hk (by simp [hc])
          have hkres : r.2.1 ≠ 0 → k ≠ r.2.1 :=
            fun hne hc => hk (by rw [hc]; simp [hres_dr hne])
          exact linksEq_trans (hfinB k hknew hkp)
            (linksEq_trans (linksEq_of_eq (hm3k k hknd hkres)) (hB k hkdr hknd))
        · intro hp0
          obtain ⟨f1, f2, f3, f4⟩ := hfinC hp0
          refine ⟨by rw [f1, hqp.2.2.1], by rw [f2, hqp.2.2.2], ?_, ?_⟩
          · intro hx
            rw [f3 (by rw [hqp.1]; exact hx), hqp.2.1]
          · intro hx hy
            rw [f4 (by rw [hqp.1]; exact hx) (by rw [hqp.2.1]; exact hy), hqp.1]
        · intro hp0
          subst hp0
          have h0dr : (0:Nat) ∉ dr := fun hc => h0d (by simp [hc])
          exact linksEq_trans (hfinD rfl)
            (linksEq_trans (linksEq_of_eq (hm3k 0 (Ne.symm hnd)
              (fun hne => Ne.symm hne))) (hB 0 h0dr (Ne.symm hnd)))

/-- The shape contract of `internal_insert`, relative to the subtree
footprint `d`, the handed-down parent `p` and the allocation pointer
`next`: the returned subtree is well formed on cells drawn from `d` and
the freshly allocated range, the returned root is nonnull (and carries
parent `p` — a fresh root is born with a null parent, which coincides with
`p` for the only call that can see one, the wrapper's with `p = 0`), cells
outside `d ∪ \x7bp\x7d` below `next` are untouched, and of `p` at most the
child slot that pointed at `nd` changes, redirected to the new root. -/
def InsertShape (m : Nat → Node α) (nd : Nat) (d : List Nat) (p next : Nat)
    (r : (Nat → Node α) × Nat × Nat × Bool) : Prop :=
  next ≤ r.2.1 ∧
  (∃ d2, PTree r.1 r.2.2.1 d2 ∧ ∀ j ∈ d2, j ∈ d ∨ (next ≤ j ∧ j < r.2.1)) ∧
  (nd ≠ 0 → r.2.2.1 ≠ 0) ∧
  (nd ≠ 0 → r.2.2.1 ≠ 0 → (r.1 r.2.2.1).parent = p) ∧
  (nd = 0 → r.2.2.1 ≠ 0 → (r.1 r.2.2.1).parent = 0) ∧
  (∀ k, k ∉ d → k ≠ p → k < next → r.1 k = m k) ∧
  (nd = 0 → ∀ k, k < next → r.1 k = m k) ∧
  (p ≠ 0 →
    (r.1 p).parent = (m p).parent ∧
    (r.1 p).level = (m p).level ∧
    (r.1 p).value = (m p).value ∧
    (nd ≠ 0 →
      ((m p).left = nd → (r.1 p).left = r.2.2.1 ∧ (r.1 p).right = (m p).right) ∧
      ((m p).left ≠ nd → (m p).right = nd →
        (r.1 p).right = r.2.2.1 ∧ (r.1 p).left = (m p).left))) ∧
  (p = 0 → r.1 0 = m 0)

theorem insertShape_refl {m : Nat → Node α} {nd p next : Nat} {d : List Nat}
    (h : PTree m nd d) (hp : nd ≠ 0 → (m nd).parent = p) :
    InsertShape m nd d p next (m, next, nd, false) := by
  refine ⟨le_refl _, ⟨d, h, fun j hj => Or.inl hj⟩, fun hz => hz,
    fun hz _ => hp hz, ?_, fun k _ _ _ => rfl, fun _ k _ => rfl, ?_, fun _ => rfl⟩
  · intro hz hz2
    exact absurd hz hz2
  · intro _
    exact ⟨rfl, rfl, rfl, fun _ =>
      ⟨fun h4 => ⟨h4, rfl⟩, fun _ h5 => ⟨h5, rfl⟩⟩⟩

/-- `internal_insert` (tree.h 342-363) satisfies the insert shape contract:
a fresh node is hung off the sentinel, the recursion rewrites the child
slot and the child's parent backlink (tree.h 349-350, 352-353), and the
skew/split calls at the node are `ShapeStep`s that hand `p` onward. -/
theorem internal_insert_shape [LinearOrder α] (fuel : Nat) :
    ∀ {m : Nat → Node α} {nd p next : Nat} {d : List Nat} {value : α},
      Inv m → 1 ≤ next → PTree m nd d →
      (nd ≠ 0 → (m nd).parent = p) → p ∉ d →
      (p ≠ 0 → (m p).left ≠ nd → (m p).left ∉ d) →
      (p ≠ 0 → (m p).left < next) →
      (∀ j ∈ d, j < next) → p < next →
      InsertShape m nd d p next (internal_insert fuel m next nd value) := by
  induction fuel with
  | zero =>
    intro m nd p next d value hinv hnx h hp hpd hpl hplt hd hpn
    exact insertShape_refl h hp
  | succ fuel ih =>
    intro m nd p next d value hinv hnx h hp hpd hpl hplt hd hpn
    by_cases hnd : nd = 0
    · subst hnd
      simp only [internal_insert]
      rw [if_pos trivial]
      simp only [make_node]
      have hnext0 : next ≠ 0 := by omega
      have hcell : (hset m next
          { value := value, left := 0, right := 0, parent := 0, level := 1 }) next
          = { value := value, left := 0, right := 0, parent := 0, level := 1 } :=
        hset_same _ _ _
      have hother2 : ∀ k, k ≠ next → (hset m next
          { value := value, left := 0, right := 0, parent := 0, level := 1 }) k
          = m k := fun k hk => hset_other _ hk
      have hPn : PTree (hset m next
          { value := value, left := 0, right := 0, parent := 0, level := 1 })
          next (next :: (([]:List Nat) ++ ([]:List Nat))) := by
        have hb : PTree (hset m next
            { value := value, left := 0, right := 0, parent := 0, level := 1 })
            0 [] := PTree.bottom
        refine PTree.node hnext0 ?_ ?_ ?_ ?_ (by simp) (by simp) (by simp)
        · rw [hcell]
          exact hb
        · rw [hcell]
          exact hb
        · rw [hcell]
          intro hc
          exact absurd rfl hc
        · rw [hcell]
          intro hc
          exact absurd rfl hc
      have hPn2 : PTree (hset m next
          { value := value, left := 0, right := 0, parent := 0, level := 1 })
          next [next] := hPn
      refine ⟨Nat.le_succ next, ⟨[next], hPn2, ?_⟩, fun hz => absurd rfl hz,
        fun hz => absurd rfl hz, ?_, ?_, ?_, ?_, ?_⟩
      · intro j hj
        rcases List.mem_cons.1 hj with rfl | hc
        · exact Or.inr ⟨le_refl _, Nat.lt_succ_self _⟩
        · simp at hc
      · intro _ _
        show ((hset m next
          { value := value, left := 0, right := 0, parent := 0, level := 1 })
          next).parent = 0
        rw [hcell]
      · intro k _ _ hk
        exact hother2 k (by omega)
      · intro _ k hk
        exact hother2 k (by omega)
      · intro _
        have hq := hother2 p (by omega)
        refine ⟨?_, ?_, ?_, fun hc => absurd rfl hc⟩
        · show ((hset m next
            { value := value, left := 0, right := 0, parent := 0, level := 1 })
            p).parent = (m p).parent
          rw [hq]
        · show ((hset m next
            { value := value, left := 0, right := 0, parent := 0, level := 1 })
            p).level = (m p).level
          rw [hq]
        · show ((hset m next
            { value := value, left := 0, right := 0, parent := 0, level := 1 })
            p).value = (m p).value
          rw [hq]
      · intro _
        exact hother2 0 (by omega)
    · simp only [internal_insert]
      rw [if_neg hnd]
      obtain ⟨dl, dr, rfl, hl, hr, hbl, hbr, hdisj, hnld, hnrd⟩ := h.node_inv hnd
      have h0d : (0:Nat) ∉ nd :: (dl ++ dr) :=
        fun hc => h.mem_ne_zero 0 hc rfl
      have hndnext : nd < next := hd nd (by simp)
      by_cases hlt : value < (m nd).value
      · rw [if_pos hlt]
        set r := internal_insert fuel m next (m nd).left value with hrd
        set m2 := setLeft r.1 nd r.2.2.1 with hm2d
        set m3 := if (m2 nd).left ≠ 0 then setParent m2 (m2 nd).left nd else m2
          with hm3d
        set s1 := skew m3 nd with hs1d
        set s2 := split s1.1 s1.2 with hs2d
        have hcnext : (m nd).left < next := by
          by_cases hL : (m nd).left = 0
          · omega
          · exact hd _ (by simp [hl.head_mem hL])
        have hdl_bound : ∀ j ∈ dl, j < next := fun j hj => hd j (by simp [hj])
        have hihl := @ih m (m nd).left nd next dl value hinv hnx hl hbl hnld
          (fun _ hx => absurd rfl hx) (fun _ => hcnext) hdl_bound hndnext
        rw [← hrd] at hihl
        obtain ⟨hN, ⟨d2, hP2, hsub2⟩, hZ, hE1, hE2, hB, hB0, hC, hD⟩ := hihl
        have hCnd := hC hnd
        have hndright : (r.1 nd).right = (m nd).right := by
          by_cases hL : (m nd).left = 0
          · rw [hB0 hL nd hndnext]
          · exact ((hCnd.2.2.2 hL).1 rfl).2
        have hndparent : (r.1 nd).parent = (m nd).parent := hCnd.1
        have hd2nd : ∀ j ∈ d2, j ≠ nd := by
          intro j hj hc
          rcases hsub2 j hj with hin | ⟨hge, _⟩
          · exact hnld (by rw [← hc]; exact hin)
          · rw [hc] at hge
            omega
        have hresnd : r.2.2.1 ≠ 0 → r.2.2.1 ≠ nd :=
          fun hne => hd2nd _ (hP2.head_mem hne)
        have hm2k : ∀ k, k ≠ nd → m2 k = r.1 k := by
          intro k hk
          rw [hm2d]
          exact setLeft_cell_other _ hk
        have hm2nd : m2 nd = { r.1 nd with left := r.2.2.1 } := by
          rw [hm2d]
          exact setLeft_cell_same _ _ _
        have hm2ndl : (m2 nd).left = r.2.2.1 := by rw [hm2nd]
        have hm3k : ∀ k, k ≠ nd → (r.2.2.1 ≠ 0 → k ≠ r.2.2.1) → m3 k = r.1 k := by
          intro k hk1 hk2
          rw [hm3d]
          by_cases hz : (m2 nd).left ≠ 0
          · rw [if_pos hz, hm2ndl,
              setParent_cell_other _ (hk2 (by rw [← hm2ndl]; exact hz))]
            exact hm2k k hk1
          · rw [if_neg hz]
            exact hm2k k hk1
        have hm3nd : m3 nd = { r.1 nd with left := r.2.2.1 } := by
          rw [hm3d]
          by_cases hz : (m2 nd).left ≠ 0
          · rw [if_pos hz, hm2ndl, setParent_cell_other _
              (Ne.symm (hresnd (by rw [← hm2ndl]; exact hz)))]
            exact hm2nd
          · rw [if_neg hz]
            exact hm2nd
        have hm3res : r.2.2.1 ≠ 0 → m3 r.2.2.1 = { m2 r.2.2.1 with parent := nd } := by
          intro hne
          rw [hm3d, if_pos (show (m2 nd).left ≠ 0 by rw [hm2ndl]; exact hne), hm2ndl]
          exact setParent_cell_same _ _ _
        have hP2' : PTree m3 r.2.2.1 d2 := by
          by_cases hne : r.2.2.1 = 0
          · rw [hne] at hP2 ⊢
            rw [hP2.zero_nil]
            exact PTree.bottom
          · have hPa : PTree m2 r.2.2.1 d2 := hP2.frame (fun j hj => by
              rw [hm2k j (hd2nd j hj)]
              exact ⟨rfl, rfl, rfl⟩)
            have hPb := hPa.setParent_root nd
            rw [hm3d, if_pos (show (m2 nd).left ≠ 0 by rw [hm2ndl]; exact hne),
              hm2ndl]
            exact hPb
        have hdr_cells : ∀ j ∈ dr, m3 j = m j := by
          intro j hj
          have hjnd : j ≠ nd := fun hc => hnrd (by rw [← hc]; exact hj)
          have hjdl : j ∉ dl := fun hc => hdisj j hc hj
          have hjres : r.2.2.1 ≠ 0 → j ≠ r.2.2.1 := by
            intro hne hc
            rcases hsub2 _ (hP2.head_mem hne) with hin | ⟨hge, _⟩
            · exact hdisj _ hin (by rw [← hc]; exact hj)
            · have := hd j (by simp [hj])
              rw [hc] at this
              omega
          rw [hm3k j hjnd hjres]
          exact hB j hjdl hjnd (hd j (by simp [hj]))
        have hPdr : PTree m3 (m nd).right dr :=
          hr.frame (fun j hj => by rw [hdr_cells j hj]; exact ⟨rfl, rfl, rfl⟩)
        have hP3 : PTree m3 nd (nd :: (d2 ++ dr)) := by
          refine PTree.node hnd ?_ ?_ ?_ ?_ ?_ ?_ ?_
          · rw [hm3nd]
            show PTree m3 r.2.2.1 d2
            exact hP2'
          · rw [hm3nd]
            show PTree m3 (r.1 nd).right dr
            rw [hndright]
            exact hPdr
          · rw [hm3nd]
            show r.2.2.1 ≠ 0 → (m3 r.2.2.1).parent = nd
            intro hne
            rw [hm3res hne]
          · rw [hm3nd]
            show (r.1 nd).right ≠ 0 → (m3 (r.1 nd).right).parent = nd
            rw [hndright]
            intro hne
            rw [hdr_cells _ (hr.head_mem hne)]
            exact hbr hne
          · intro j hj hc
            rcases hsub2 j hj with hin | ⟨hge, _⟩
            · exact hdisj j hin hc
            · have := hd j (by simp [hc])
              omega
          · intro hc
            exact hd2nd nd hc rfl
          · exact hnrd
        have hm3p : (m3 nd).parent = p := by
          rw [hm3nd]
          show (r.1 nd).parent = p
          rw [hndparent]
          exact hp hnd
        have hinvr := internal_insert_inv fuel m next (m nd).left value hinv hnx
        rw [← hrd] at hinvr
        have hinv2 : Inv m2 := by
          rw [hm2d]
          exact inv_setLeft hinvr.1 _ hnd
        have hinv3 : Inv m3 := by
          rw [hm3d]
          by_cases hz : (m2 nd).left ≠ 0
          · rw [if_pos hz]
            exact inv_setParent hinv2 _ hz
          · rw [if_neg hz]
            exact hinv2
        have hsubnew : ∀ j ∈ nd :: (d2 ++ dr),
            j ∈ nd :: (dl ++ dr) ∨ (next ≤ j ∧ j < r.2.1) := by
          intro j hj
          rcases List.mem_cons.1 hj with rfl | hc2
          · exact Or.inl (by simp)
          · rcases List.mem_append.1 hc2 with hc3 | hc3
            · rcases hsub2 j hc3 with hin | hfr
              · exact Or.inl (by simp [hin])
              · exact Or.inr hfr
            · exact Or.inl (by simp [hc3])
        have hpd3 : p ∉ nd :: (d2 ++ dr) := by
          intro hc
          rcases hsubnew _ hc with hin | ⟨hge, _⟩
          · exact hpd hin
          · omega
        have hpnd : p ≠ nd := fun hc => hpd (by rw [hc]; simp)
        have hpdl : p ∉ dl := fun hc => hpd (by simp [hc])
        have hpres : r.2.2.1 ≠ 0 → p ≠ r.2.2.1 := by
          intro hne hc
          rcases hsub2 _ (hP2.head_mem hne) with hin | ⟨hge, _⟩
          · exact hpd (by rw [hc]; simp [hin])
          · rw [← hc] at hge
            omega
        have hqp : m3 p = m p := by
          rw [hm3k p hpnd hpres]
          exact hB p hpdl hpnd hpn
        have h0dl : (0:Nat) ∉ dl := fun hc => h0d (by simp [hc])
        have hm30 : m3 0 = m 0 := by
          rw [hm3k 0 (Ne.symm hnd) (fun hne => Ne.symm hne)]
          exact hB 0 h0dl (Ne.symm hnd) (by omega)
        by_cases hflag : r.2.2.2 = true
        · rw [if_pos hflag]
          have hskew : ShapeStep m3 nd (nd :: (d2 ++ dr)) p s1 := by
            rw [hs1d]
            exact skew_shape hinv3 hP3 (fun _ => hm3p) hpd3
          have hinvs1 : Inv s1.1 := by
            rw [hs1d]
            exact skew_inv hinv3 nd
          obtain ⟨ds1, hPs1, hiffs1⟩ := hskew.2.1
          have hpds1 : p ∉ ds1 := fun hc => hpd3 ((hiffs1 p).1 hc)
          have hsplit : ShapeStep s1.1 s1.2 ds1 p s2 := by
            rw [hs2d]
            exact split_shape hinvs1 hPs1 hskew.2.2.1 hpds1
          have hplm3 : p ≠ 0 → (m3 p).left ≠ nd → (m3 p).left ∉ nd :: (d2 ++ dr) := by
            intro hp0 hx
            rw [hqp] at hx ⊢
            intro hc
            rcases hsubnew _ hc with hin | ⟨hge, _⟩
            · exact hpl hp0 hx hin
            · have := hplt hp0
              omega
          have hcomp : ShapeStep m3 nd (nd :: (d2 ++ dr)) p s2 :=
            shapeStep_comp hnd hskew hPs1 hiffs1 hsplit hplm3
          obtain ⟨c1, c2, c3, c4, c5, c6⟩ := hcomp
          obtain ⟨df, hPf, hifff⟩ := c2
          have hs2nd : s2.2 ≠ 0 := fun hc => hnd (c1.1 hc)
          refine ⟨hN, ⟨df, hPf, ?_⟩, fun _ => hs2nd, fun _ hne => c3 hne,
            fun hz => absurd hz hnd, ?_, fun hz => absurd hz hnd, ?_, ?_⟩
          · intro j hj
            exact hsubnew _ ((hifff j).1 hj)
          · intro k hk hkp hklt
            have hknew : k ∉ nd :: (d2 ++ dr) := by
              intro hc
              rcases hsubnew _ hc with hin | ⟨hge, _⟩
              · exact hk hin
              · omega
            rw [c4 k hknew hkp]
            have hknd : k ≠ nd := fun hc => hk (by rw [hc]; simp)
            have hkdl : k ∉ dl := fun hc => hk (by simp [hc])
            have hkres : r.2.2.1 ≠ 0 → k ≠ r.2.2.1 := by
              intro hne hc
              rcases hsub2 _ (hP2.head_mem hne) with hin | ⟨hge, _⟩
              · exact hk (by rw [hc]; simp [hin])
              · rw [← hc] at hge
                omega
            rw [hm3k k hknd hkres]
            exact hB k hkdl hknd hklt
          · intro hp0
            obtain ⟨f1, f2, f3, f4, f5⟩ := c5 hp0
            refine ⟨by rw [f1, hqp], by rw [f2, hqp], by rw [f3, hqp], ?_⟩
            intro _
            constructor
            · intro hx
              obtain ⟨g1, g2⟩ := f4 (by rw [hqp]; exact hx)
              exact ⟨g1, by rw [g2, hqp]⟩
            · intro hx hy
              obtain ⟨g1, g2⟩ := f5 (by rw [hqp]; exact hx) (by rw [hqp]; exact hy)
              exact ⟨g1, by rw [g2, hqp]⟩
          · intro hp0
            subst hp0
            rw [c6 rfl]
            exact hm30
        · rw [if_neg hflag]
          refine ⟨hN, ⟨nd :: (d2 ++ dr), hP3, hsubnew⟩, fun _ => hnd,
            fun _ _ => hm3p, fun hz => absurd hz hnd, ?_,
            fun hz => absurd hz hnd, ?_, ?_⟩
          · intro k hk hkp hklt
            have hknd : k ≠ nd := fun hc => hk (by rw [hc]; simp)
            have hkdl : k ∉ dl := fun hc => hk (by simp [hc])
            have hkres : r.2.2.1 ≠ 0 → k ≠ r.2.2.1 := by
              intro hne hc
              rcases hsub2 _ (hP2.head_mem hne) with hin | ⟨hge, _⟩
              · exact hk (by rw [hc]; simp [hin])
              · rw [← hc] at hge
                omega
            show m3 k = m k
            rw [hm3k k hknd hkres]
            exact hB k hkdl hknd hklt
          · intro hp0
            refine ⟨?_, ?_, ?_, ?_⟩
            · show (m3 p).parent = (m p).parent
              rw [hqp]
            · show (m3 p).level = (m p).level
              rw [hqp]
            · show (m3 p).value = (m p).value
              rw [hqp]
            · intro _
              constructor
              · intro hx
                refine ⟨?_, ?_⟩
                · show (m3 p).left = nd
                  rw [hqp]
                  exact hx
                · show (m3 p).right = (m p).right
                  rw [hqp]
              · intro hx hy
                refine ⟨?_, ?_⟩
                · show (m3 p).right = nd
                  rw [hqp]
                  exact hy
                · show (m3 p).left = (m p).left
                  rw [hqp]
          · intro hp0
            exact hm30
      · rw [if_neg hlt]
        by_cases hgt : (m nd).value < value
        · rw [if_pos hgt]
          set r := internal_insert fuel m next (m nd).right value with hrd
          set m2 := setRight r.1 nd r.2.2.1 with hm2d
          set m3 := if (m2 nd).right ≠ 0 then setParent m2 (m2 nd).right nd
            else m2 with hm3d
          set s1 := skew m3 nd with hs1d
          set s2 := split s1.1 s1.2 with hs2d
          have hlnext : (m nd).left < next := by
            by_cases hL : (m nd).left = 0
            · omega
            · exact hd _ (by simp [hl.head_mem hL])
          have hdr_bound : ∀ j ∈ dr, j < next := fun j hj => hd j (by simp [hj])
          have hihr := @ih m (m nd).right nd next dr value hinv hnx hr hbr hnrd
            (fun _ hx => by
              by_cases hL : (m nd).left = 0
              · rw [hL]
                intro hc
                exact hr.mem_ne_zero 0 hc rfl
              · exact hdisj _ (hl.head_mem hL))
            (fun _ => hlnext) hdr_bound hndnext
          rw [← hrd] at hihr
          obtain ⟨hN, ⟨d2, hP2, hsub2⟩, hZ, hE1, hE2, hB, hB0, hC, hD⟩ := hihr
          have hCnd := hC hnd
          have hndleft : (r.1 nd).left = (m nd).left := by
            by_cases hR : (m nd).right = 0
            · rw [hB0 hR nd hndnext]
            · have hner : (m nd).left ≠ (m nd).right := by
                intro hc
                by_cases hL : (m nd).left = 0
                · rw [hL] at hc
                  exact hR hc.symm
                · exact hdisj _ (hl.head_mem hL) (by rw [hc]; exact hr.head_mem hR)
              exact ((hCnd.2.2.2 hR).2 hner rfl).2
          have hndparent : (r.1 nd).parent = (m nd).parent := hCnd.1
          have hd2nd : ∀ j ∈ d2, j ≠ nd := by
            intro j hj hc
            rcases hsub2 j hj with hin | ⟨hge, _⟩
            · exact hnrd (by rw [← hc]; exact hin)
            · rw [hc] at hge
              omega
          have hresnd : r.2.2.1 ≠ 0 → r.2.2.1 ≠ nd :=
            fun hne => hd2nd _ (hP2.head_mem hne)
          have hm2k : ∀ k, k ≠ nd → m2 k = r.1 k := by
            intro k hk
            rw [hm2d]
            exact setRight_cell_other _ hk
          have hm2nd : m2 nd = { r.1 nd with right := r.2.2.1 } := by
            rw [hm2d]
            exact setRight_cell_same _ _ _
          have hm2ndr : (m2 nd).right = r.2.2.1 := by rw [hm2nd]
          have hm3k : ∀ k, k ≠ nd → (r.2.2.1 ≠ 0 → k ≠ r.2.2.1) → m3 k = r.1 k := by
            intro k hk1 hk2
            rw [hm3d]
            by_cases hz : (m2 nd).right ≠ 0
            · rw [if_pos hz, hm2ndr,
                setParent_cell_other _ (hk2 (by rw [← hm2ndr]; exact hz))]
              exact hm2k k hk1
            · rw [if_neg hz]
              exact hm2k k hk1
          have hm3nd : m3 nd = { r.1 nd with right := r.2.2.1 } := by
            rw [hm3d]
            by_cases hz : (m2 nd).right ≠ 0
            · rw [if_pos hz, hm2ndr, setParent_cell_other _
                (Ne.symm (hresnd (by rw [← hm2ndr]; exact hz)))]
              exact hm2nd
            · rw [if_neg hz]
              exact hm2nd
          have hm3res : r.2.2.1 ≠ 0 →
              m3 r.2.2.1 = { m2 r.2.2.1 with parent := nd } := by
            intro hne
            rw [hm3d, if_pos (show (m2 nd).right ≠ 0 by rw [hm2ndr]; exact hne),
              hm2ndr]
            exact setParent_cell_same _ _ _
          have hP2' : PTree m3 r.2.2.1 d2 := by
            by_cases hne : r.2.2.1 = 0
            · rw [hne] at hP2 ⊢
              rw [hP2.zero_nil]
              exact PTree.bottom
            · have hPa : PTree m2 r.2.2.1 d2 := hP2.frame (fun j hj => by
                rw [hm2k j (hd2nd j hj)]
                exact ⟨rfl, rfl, rfl⟩)
              have hPb := hPa.setParent_root nd
              rw [hm3d, if_pos (show (m2 nd).right ≠ 0 by rw [hm2ndr]; exact hne),
                hm2ndr]
              exact hPb
          have hdl_cells : ∀ j ∈ dl, m3 j = m j := by
            intro j hj
            have hjnd : j ≠ nd := fun hc => hnld (by rw [← hc]; exact hj)
            have hjdr : j ∉ dr := hdisj j hj
            have hjres : r.2.2.1 ≠ 0 → j ≠ r.2.2.1 := by
              intro hne hc
              rcases hsub2 _ (hP2.head_mem hne) with hin | ⟨hge, _⟩
              · exact hdisj j hj (by rw [hc]; exact hin)
              · have := hd j (by simp [hj])
                rw [hc] at this
                omega
            rw [hm3k j hjnd hjres]
            exact hB j hjdr hjnd (hd j (by simp [hj]))
          have hPdl : PTree m3 (m nd).left dl :=
            hl.frame (fun j hj => by rw [hdl_cells j hj]; exact ⟨rfl, rfl, rfl⟩)
          have hP3 : PTree m3 nd (nd :: (dl ++ d2)) := by
            refine PTree.node hnd ?_ ?_ ?_ ?_ ?_ ?_ ?_
            · rw [hm3nd]
              show PTree m3 (r.1 nd).left dl
              rw [hndleft]
              exact hPdl
            · rw [hm3nd]
              show PTree m3 r.2.2.1 d2
              exact hP2'
            · rw [hm3nd]
              show (r.1 nd).left ≠ 0 → (m3 (r.1 nd).left).parent = nd
              rw [hndleft]
              intro hne
              rw [hdl_cells _ (hl.head_mem hne)]
              exact hbl hne
            · rw [hm3nd]
              show r.2.2.1 ≠ 0 → (m3 r.2.2.1).parent = nd
              intro hne
              rw [hm3res hne]
            · intro j hj hc
              rcases hsub2 j hc with hin | ⟨hge, _⟩
              · exact hdisj j hj hin
              · have := hd j (by simp [hj])
                omega
            · exact hnld
            · intro hc
              exact hd2nd nd hc rfl
          have hm3p : (m3 nd).parent = p := by
            rw [hm3nd]
            show (r.1 nd).parent = p
            rw [hndparent]
            exact hp hnd
          have hinvr := internal_insert_inv fuel m next (m nd).right value hinv hnx
          rw [← hrd] at hinvr
          have hinv2 : Inv m2 := by
            rw [hm2d]
            exact inv_setRight hinvr.1 _ hnd
          have hinv3 : Inv m3 := by
            rw [hm3d]
            by_cases hz : (m2 nd).right ≠ 0
            · rw [if_pos hz]
              exact inv_setParent hinv2 _ hz
            · rw [if_neg hz]
              exact hinv2
          have hsubnew : ∀ j ∈ nd :: (dl ++ d2),
              j ∈ nd :: (dl ++ dr) ∨ (next ≤ j ∧ j < r.2.1) := by
            intro j hj
            rcases List.mem_cons.1 hj with rfl | hc2
            · exact Or.inl (by simp)
            · rcases List.mem_append.1 hc2 with hc3 | hc3
              · exact Or.inl (by simp [hc3])
              · rcases hsub2 j hc3 with hin | hfr
                · exact Or.inl (by simp [hin])
                · exact Or.inr hfr
          have hpd3 : p ∉ nd :: (dl ++ d2) := by
            intro hc
            rcases hsubnew _ hc with hin | ⟨hge, _⟩
            · exact hpd hin
            · omega
          have hpnd : p ≠ nd := fun hc => hpd (by rw [hc]; simp)
          have hpdr : p ∉ dr := fun hc => hpd (by simp [hc])
          have hpres : r.2.2.1 ≠ 0 → p ≠ r.2.2.1 := by
            intro hne hc
            rcases hsub2 _ (hP2.head_mem hne) with hin | ⟨hge, _⟩
            · exact hpd (by rw [hc]; simp [hin])
            · rw [← hc] at hge
              omega
          have hqp : m3 p = m p := by
            rw [hm3k p hpnd hpres]
            exact hB p hpdr hpnd hpn
          have h0dr : (0:Nat) ∉ dr := fun hc => h0d (by simp [hc])
          have hm30 : m3 0 = m 0 := by
            rw [hm3k 0 (Ne.symm hnd) (fun hne => Ne.symm hne)]
            exact hB 0 h0dr (Ne.symm hnd) (by omega)
          by_cases hflag : r.2.2.2 = true
          · rw [if_pos hflag]
            have hskew : ShapeStep m3 nd (nd :: (dl ++ d2)) p s1 := by
              rw [hs1d]
              exact skew_shape hinv3 hP3 (fun _ => hm3p) hpd3
            have hinvs1 : Inv s1.1 := by
              rw [hs1d]
              exact skew_inv hinv3 nd
            obtain ⟨ds1, hPs1, hiffs1⟩ := hskew.2.1
            have hpds1 : p ∉ ds1 := fun hc => hpd3 ((hiffs1 p).1 hc)
            have hsplit : ShapeStep s1.1 s1.2 ds1 p s2 := by
              rw [hs2d]
              exact split_shape hinvs1 hPs1 hskew.2.2.1 hpds1
            have hplm3 : p ≠ 0 → (m3 p).left ≠ nd →
                (m3 p).left ∉ nd :: (dl ++ d2) := by
              intro hp0 hx
              rw [hqp] at hx ⊢
              intro hc
              rcases hsubnew _ hc with hin | ⟨hge, _⟩
              · exact hpl hp0 hx hin
              · have := hplt hp0
                omega
            have hcomp : ShapeStep m3 nd (nd :: (dl ++ d2)) p s2 :=
              shapeStep_comp hnd hskew hPs1 hiffs1 hsplit hplm3
            obtain ⟨c1, c2, c3, c4, c5, c6⟩ := hcomp
            obtain ⟨df, hPf, hifff⟩ := c2
            have hs2nd : s2.2 ≠ 0 := fun hc => hnd (c1.1 hc)
            refine ⟨hN, ⟨df, hPf, ?_⟩, fun _ => hs2nd, fun _ hne => c3 hne,
              fun hz => absurd hz hnd, ?_, fun hz => absurd hz hnd, ?_, ?_⟩
            · intro j hj
              exact hsubnew _ ((hifff j).1 hj)
            · intro k hk hkp hklt
              have hknew : k ∉ nd :: (dl ++ d2) := by
                intro hc
                rcases hsubnew _ hc with hin | ⟨hge, _⟩
                · exact hk hin
                · omega
              rw [c4 k hknew hkp]
              have hknd : k ≠ nd := fun hc => hk (by rw [hc]; simp)
              have hkdr : k ∉ dr := fun hc => hk (by simp [hc])
              have hkres : r.2.2.1 ≠ 0 → k ≠ r.2.2.1 := by
                intro hne hc
                rcases hsub2 _ (hP2.head_mem hne) with hin | ⟨hge, _⟩
                · exact hk (by rw [hc]; simp [hin])
                · rw [← hc] at hge
                  omega
              rw [hm3k k hknd hkres]
              exact hB k hkdr hknd hklt
            · intro hp0
              obtain ⟨f1, f2, f3, f4, f5⟩ := c5 hp0
              refine ⟨by rw [f1, hqp], by rw [f2, hqp], by rw [f3, hqp], ?_⟩
              intro _
              constructor
              · intro hx
                obtain ⟨g1, g2⟩ := f4 (by rw [hqp]; exact hx)
                exact ⟨g1, by rw [g2, hqp]⟩
              · intro hx hy
                obtain ⟨g1, g2⟩ := f5 (by rw [hqp]; exact hx) (by rw [hqp]; exact hy)
                exact ⟨g1, by rw [g2, hqp]⟩
            · intro hp0
              subst hp0
              rw [c6 rfl]
              exact hm30
          · rw [if_neg hflag]
            refine ⟨hN, ⟨nd :: (dl ++ d2), hP3, hsubnew⟩, fun _ => hnd,
              fun _ _ => hm3p, fun hz => absurd hz hnd, ?_,
              fun hz => absurd hz hnd, ?_, ?_⟩
            · intro k hk hkp hklt
              have hknd : k ≠ nd := fun hc => hk (by rw [hc]; simp)
              have hkdr : k ∉ dr := fun hc => hk (by simp [hc])
              have hkres : r.2.2.1 ≠ 0 → k ≠ r.2.2.1 := by
                intro hne hc
                rcases hsub2 _ (hP2.head_mem hne) with hin | ⟨hge, _⟩
                · exact hk (by rw [hc]; simp [hin])
                · rw [← hc] at hge
                  omega
              show m3 k = m k
              rw [hm3k k hknd hkres]
              exact hB k hkdr hknd hklt
            · intro hp0
              refine ⟨?_, ?_, ?_, ?_⟩
              · show (m3 p).parent = (m p).parent
                rw [hqp]
              · show (m3 p).level = (m p).level
                rw [hqp]
              · show (m3 p).value = (m p).value
                rw [hqp]
              · intro _
                constructor
                · intro hx
                  refine ⟨?_, ?_⟩
                  · show (m3 p).left = nd
                    rw [hqp]
                    exact hx
                  · show (m3 p).right = (m p).right
                    rw [hqp]
                · intro hx hy
                  refine ⟨?_, ?_⟩
                  · show (m3 p).right = nd
                    rw [hqp]
                    exact hy
                  · show (m3 p).left = (m p).left
                    rw [hqp]
            · intro hp0
              exact hm30
        · rw [if_neg hgt]
          exact insertShape_refl h hp

/-- The heap-shape invariant of a container state: the cells reachable
from `root` form a well-formed tree (distinct nonnull cells, children's
parent links pointing back) below the allocation pointer, and the root's
parent link is the sentinel. -/
def ShapeInv (h : Heap α) : Prop :=
  ∃ d, PTree h.mem h.root d ∧ (∀ j ∈ d, j < h.next) ∧
    (h.root ≠ 0 → (h.mem h.root).parent = 0)

/-- `insert` keeps the shape invariant; in particular the new root's parent
is the sentinel — either it is the old root's parent handed through the
rotations, or a fresh node born with a null parent. -/
theorem insert_shape [LinearOrder α] {h : Heap α} (hh : HeapInv h)
    (hs : ShapeInv h) (fuel : Nat) (v : α) :
    ShapeInv (insert fuel h v) := by
  obtain ⟨d, hP, hbound, hrp⟩ := hs
  obtain ⟨hinv, hnx⟩ := hh
  have hcontract : InsertShape h.mem h.root d 0 h.next
      (internal_insert fuel h.mem h.next h.root v) :=
    internal_insert_shape fuel hinv hnx hP
      (fun hne => hrp hne)
      (fun hc => hP.mem_ne_zero 0 hc rfl)
      (fun hp0 _ => absurd rfl hp0)
      (fun hp0 => absurd rfl hp0)
      hbound
      (by omega)
  obtain ⟨hN, ⟨d2, hP2, hsub2⟩, hZ, hE1, hE2, hB, hB0, hC, hD⟩ := hcontract
  refine ⟨d2, hP2, ?_, ?_⟩
  · intro j hj
    rcases hsub2 j hj with hin | ⟨_, hlt⟩
    · exact lt_of_lt_of_le (hbound j hin) hN
    · exact hlt
  · intro hne
    by_cases hr0 : h.root = 0
    · exact hE2 hr0 hne
    · exact hE1 hr0 hne

/-- `erase` keeps the shape invariant; the wrapper's write at tree.h 197
re-points the new root's parent at the sentinel regardless of what the
recursion left there. -/
theorem erase_shape [LinearOrder α] {h : Heap α} (hh : HeapInv h)
    (hs : ShapeInv h) (fuel : Nat) (v : α) :
    ShapeInv (erase fuel h v) := by
  obtain ⟨d, hP, hbound, hrp⟩ := hs
  obtain ⟨hinv, hnx⟩ := hh
  have hcontract : EraseShape h.mem h.root d 0
      (internal_erase fuel h.mem h.root v none h.root).1
      (internal_erase fuel h.mem h.root v none h.root).2.1 :=
    internal_erase_shape fuel hinv
      (fun te hte => Option.noConfusion hte) hP
      (fun hne => hrp hne)
      (fun hc => hP.mem_ne_zero 0 hc rfl)
      (fun hp0 _ => absurd rfl hp0)
  obtain ⟨⟨d2, hP2, hsub2⟩, hB, hC, hD⟩ := hcontract
  refine ⟨d2, ?_, ?_, ?_⟩
  · exact hP2.setParent_root 0
  · intro j hj
    exact hbound j (hsub2 j hj)
  · intro _
    exact setParent_parent_same _ _ _

theorem clear_shape {h : Heap α} : ShapeInv (clear h) :=
  ⟨[], PTree.bottom, by simp, fun hc => absurd rfl hc⟩

theorem init_shape (m0 : Nat → Node α) (d : α) : ShapeInv (init m0 d) :=
  ⟨[], PTree.bottom, by simp, fun hc => absurd rfl hc⟩

/-- Both invariants survive every sequence of public mutations. -/
theorem applyHeapOps_shape [LinearOrder α] (ops : List (HeapOp α)) :
    ∀ {h : Heap α}, HeapInv h → ShapeInv h →
      HeapInv (applyHeapOps h ops) ∧ ShapeInv (applyHeapOps h ops) := by
  induction ops with
  | nil =>
    intro h h1 h2
    exact ⟨h1, h2⟩
  | cons op rest iho =>
    intro h h1 h2
    have hstep : HeapInv (applyHeapOp h op) := applyHeapOp_inv h1 op
    have hstep2 : ShapeInv (applyHeapOp h op) := by
      cases op with
      | ins v fuel => exact insert_shape h1 h2 fuel v
      | del v fuel => exact erase_shape h1 h2 fuel v
      | clr => exact clear_shape
    exact iho hstep hstep2

/-- The root's parent is the sentinel in every reachable state: the sentinel
itself when the tree is empty, and explicitly maintained otherwise. -/
theorem applyHeapOps_root_parent [LinearOrder α] (ops : List (HeapOp α))
    {h : Heap α} (h1 : HeapInv h) (h2 : ShapeInv h) :
    ((applyHeapOps h ops).mem (applyHeapOps h ops).root).parent = 0 := by
  obtain ⟨hI, hS⟩ := applyHeapOps_shape ops h1 h2
  obtain ⟨d, hP, hbound, hrp⟩ := hS
  by_cases hr0 : (applyHeapOps h ops).root = 0
  · rw [hr0]
    exact hI.1.1.2.2.2
  · exact hrp hr0

end Ptr


section Claims

/-- The spec's wording of the level decrement inside the erase repair block
("decrement `node.level`; if that makes `node.right.level > node.level`,
decrement the right child's level too"), written from the spec sentence and
separate from the source-translated `decLevelStep`, for comparison. -/
def decrease_level (t : AATree α) : AATree α :=
  let t1 := decLevelRoot t
  if t1.right.level > t1.level then updRight t1 decLevelRoot else t1

/-- The spec's five-call repair sequence, in its order: `skew(node)`,
`skew(node.right)`, `skew(node.right.right)`, `split(node)`,
`split(node.right)`. -/
def repair_sequence (t : AATree α) : AATree α :=
  let n1 := skew t
  let n2 := updRight n1 skew
  let n3 := updRight n2 (fun r => updRight r skew)
  let n4 := split n3
  updRight n4 split

theorem decrease_level_eq (t : AATree α) : decrease_level t = decLevelStep t := by
  cases t with
  | bottom => rfl
  | node l x r lv =>
    unfold decrease_level decLevelStep decLevelRoot
    simp only [right_node, level_node]
    by_cases hg : r.level > lv - 1
    · rw [if_pos hg, if_pos hg]
      cases r with
      | bottom => rfl
      | node ra ry rb rlv => rfl
    · rw [if_neg hg, if_neg hg]

/-- C1: starting from an empty container, after any sequence of `insert`
and `erase` calls every node reachable from the root satisfies the AA level
invariants — the left child's level is exactly one less, the right child's
level equals the node's level or is one less, a right-horizontal link is
never followed by another — and every leaf has level 1. -/
theorem C1_level_invariants (ops : List (Op α)) (p : List Bool) (l : AATree α)
    (x : α) (r : AATree α) (lv : Nat)
    (h : subtreeAt (applyOps Set.empty ops).root p = AATree.node l x r lv) :
    l.level + 1 = lv ∧ (r.level = lv ∨ r.level + 1 = lv) ∧
      (r.level = lv → r.right.level < lv) ∧
      (l = AATree.bottom ∧ r = AATree.bottom → lv = 1) := by
  have hv : Valid (applyOps Set.empty ops) := valid_applyOps ops
  have ha : AAInv (subtreeAt (applyOps Set.empty ops).root p) :=
    aainv_subtreeAt hv.1 p
  rw [h] at ha
  obtain ⟨-, -, hlx, hr, hrh⟩ := ha
  refine ⟨hlx, hr, hrh, ?_⟩
  rintro ⟨rfl, rfl⟩
  simp only [level_bottom] at hlx
  omega

theorem C1_level_invariants_witness :
    (AATree.bottom : AATree Int).level + 1 = 1 ∧
      ((AATree.bottom : AATree Int).level = 1 ∨
        (AATree.bottom : AATree Int).level + 1 = 1) ∧
      ((AATree.bottom : AATree Int).level = 1 →
        (AATree.bottom : AATree Int).right.level < 1) ∧
      ((AATree.bottom : AATree Int) = AATree.bottom ∧
        (AATree.bottom : AATree Int) = AATree.bottom → 1 = 1) :=
  C1_level_invariants [Op.ins 0] [] AATree.bottom 0 AATree.bottom 1 (by decide)

/-- C2: for every container reachable from empty by `insert`/`erase` calls,
the `begin()`-to-`end()` iterator traversal visits exactly the stored
values, in strictly increasing order. -/
theorem C2_traversal_sorted (ops : List (Op α)) :
    (applyOps Set.empty ops).traverse = (applyOps Set.empty ops).toList ∧
      List.Pairwise (· < ·) ((applyOps Set.empty ops).traverse) := by
  have hv := valid_applyOps ops
  have ht := Set.traverse_eq_toList hv
  refine ⟨ht, ?_⟩
  rw [ht]
  exact (bstinv_iff_pairwise _).1 hv.2.1

/-- C3: `lower_bound(v)` on any reachable container returns the least
stored value that is not less than `v`, or nothing (`end()`) when every
stored value is below `v`; on the empty container it returns nothing. -/
theorem C3_lower_bound (ops : List (Op α)) (v : α) :
    ((applyOps Set.empty ops).lower_bound v = none →
      ∀ y ∈ (applyOps Set.empty ops).toList, y < v) ∧
    (∀ w, (applyOps Set.empty ops).lower_bound v = some w →
      w ∈ (applyOps Set.empty ops).toList ∧ v ≤ w ∧
        ∀ y ∈ (applyOps Set.empty ops).toList, v ≤ y → w ≤ y) ∧
    (Set.empty : Set α).lower_bound v = none := by
  have hs := Set.lower_bound_spec (valid_applyOps ops) v
  exact ⟨hs.1, hs.2, rfl⟩

/-- C4: `find(v)` returns the stored value equal to `v` exactly when `v`
was inserted and not subsequently erased over the operation history, and
`end()` (here `none`) when `v` was never inserted or was erased again. -/
theorem C4_find (ops : List (Op α)) (v : α) :
    (storedAfter v ops = true → (applyOps Set.empty ops).find v = some v) ∧
    (storedAfter v ops = false → (applyOps Set.empty ops).find v = none) := by
  have hf := Set.find_spec (valid_applyOps ops) v
  have hm := storedAfter_iff_mem ops v
  constructor
  · intro hst
    rw [hf, if_pos (hm.1 hst)]
  · intro hst
    have hnm : v ∉ (applyOps Set.empty ops).toList := by
      intro hmem
      have h2 := hm.2 hmem
      rw [hst] at h2
      simp at h2
    rw [hf, if_neg hnm]

/-- C5: inserting an already stored value changes nothing — not the tree,
not `size()`, not the stored elements — and erasing an absent value leaves
the stored elements and `size()` unchanged. -/
theorem C5_redundant_ops {s : Set α} (h : Valid s) (v : α) :
    (v ∈ s.toList → s.insert v = s ∧ (s.insert v).size = s.size ∧
      (s.insert v).toList = s.toList) ∧
    (v ∉ s.toList → (s.erase v).toList = s.toList ∧ (s.erase v).size = s.size) := by
  obtain ⟨ha, hb, hc⟩ := h
  constructor
  · intro hv
    have he := Set.insert_of_mem ⟨ha, hb, hc⟩ hv
    exact ⟨he, by rw [he], by rw [he]⟩
  · intro hv
    have hs := (internal_erase_spec s.root v hb none (by simp)).2.2 hv (by simp)
    constructor
    · show (internal_erase s.root v none).1.inorder = s.root.inorder
      exact hs.1
    · show (if (internal_erase s.root v none).2.1 then s.node_count - 1
        else s.node_count) = s.node_count
      rw [hs.2.1]
      rfl

theorem C5_redundant_ops_witness :
    (Set.empty.insert (0 : Int)).insert 0 = Set.empty.insert 0 :=
  ((C5_redundant_ops ⟨by decide, by decide, by decide⟩ 0).1 (by decide)).1

/-- C6: erasing a stored value removes exactly that value and decrements
the count by exactly one; at a node holding the value whose right subtree
is real, the node's value is overwritten with the value found at the bottom
of the search — the in-order successor, the least stored value above `v` —
whose own (leftmost, hence left-childless) node is spliced out of the right
subtree, its in-order head. -/
theorem C6_erase_splice {s : Set α} (h : Valid s) (v : α) (hv : v ∈ s.toList) :
    (s.erase v).size + 1 = s.size ∧
    (s.erase v).toList = s.toList.filter (fun y => decide (y ≠ v)) ∧
    (∀ (l r : AATree α) (lv : Nat) (toE : Option α),
      BSTInv (AATree.node l v r lv) → r ≠ AATree.bottom →
      ∃ m L, r.inorder = m :: L ∧
        internal_erase (AATree.node l v r lv) v toE =
          (adjust (AATree.node l m (internal_erase r v (some v)).1 lv),
            true, none) ∧
        (internal_erase r v (some v)).1.inorder = L ∧
        (internal_erase r v (some v)).2.2 = some m ∧
        v < m ∧ ∀ y ∈ (AATree.node l v r lv).inorder, v < y → m ≤ y) := by
  obtain ⟨ha, hb, hc⟩ := h
  have hA := (internal_erase_spec s.root v hb none (by simp)).1 hv
  have hpos : 1 ≤ s.root.inorder.length :=
    List.length_pos.2 (List.ne_nil_of_mem hv)
  refine ⟨?_, ?_, ?_⟩
  · show (if (internal_erase s.root v none).2.1 then s.node_count - 1
      else s.node_count) + 1 = s.node_count
    rw [hA.2.1, if_pos rfl]
    omega
  · show (internal_erase s.root v none).1.inorder =
      s.root.inorder.filter (fun y => decide (y ≠ v))
    exact hA.1
  · intro l r lv toE hbst hrne
    obtain ⟨hbl, hbr, hlt, hgt⟩ := bstinv_node.1 hbst
    have hnotin : v ∉ r.inorder := fun hy => lt_irrefl v (hgt v hy)
    obtain ⟨m, L, e1, e2, e3, e4⟩ :=
      (internal_erase_spec r v hbr (some v) (fun _ => hgt)).2.1 hnotin rfl hrne
    have hm : m ∈ r.inorder := by
      rw [e1]
      exact List.mem_cons_self m L
    refine ⟨m, L, e1, ?_, e2, e4, hgt m hm, ?_⟩
    · cases r with
      | bottom => exact absurd rfl hrne
      | node ra ry rb rlv =>
        rw [internal_erase.eq_def]
        simp only [if_neg (lt_irrefl v), e4, e3]
    · intro y hy hvy
      simp only [inorder_node, List.mem_append, List.mem_cons] at hy
      rcases hy with hyl | rfl | hyr
      · exact absurd hvy (not_lt.2 (le_of_lt (hlt y hyl)))
      · exact absurd hvy (lt_irrefl y)
      · have hpw := (bstinv_iff_pairwise r).1 hbr
        rw [e1] at hpw
        obtain ⟨hma, -⟩ := List.pairwise_cons.1 hpw
        have : y ∈ m :: L := by
          rw [← e1]
          exact hyr
        rcases List.mem_cons.1 this with rfl | hyL
        · exact le_refl y
        · exact le_of_lt (hma y hyL)

theorem C6_erase_splice_witness :
    (0 : Int) ∈ (Set.empty.insert (0 : Int)).toList ∧
      ((Set.empty.insert (0 : Int)).erase 0).size + 1 =
        (Set.empty.insert (0 : Int)).size :=
  ⟨by decide,
    (C6_erase_splice ⟨by decide, by decide, by decide⟩ 0 (by decide)).1⟩

/-- C7: the erase repair block fires exactly when a child's level is more
than one below the node's: it then decrements the node's level (and the
right child's when that one now exceeds it) and applies, in order,
`skew(node)`, `skew(node.right)`, `skew(node.right.right)`, `split(node)`,
`split(node.right)`; with no such level drop the subtree is returned
untouched — in particular on any subtree still satisfying the level
invariants — and the repairs never change the stored value sequence. -/
theorem C7_erase_repair (t : AATree α) :
    (t.left.level + 1 < t.level ∨ t.right.level + 1 < t.level →
      adjust t = repair_sequence (decrease_level t)) ∧
    (¬ (t.left.level + 1 < t.level ∨ t.right.level + 1 < t.level) →
      adjust t = t) ∧
    (AAInv t → adjust t = t) ∧
    (adjust t).inorder = t.inorder := by
  refine ⟨?_, ?_, fun hinv => adjust_of_aainv hinv, inorder_adjust t⟩
  · intro hc
    unfold adjust
    rw [if_pos hc]
    unfold repair_sequence
    rw [decrease_level_eq]
  · intro hc
    unfold adjust
    rw [if_neg hc]

/-- C8: on a non-empty container, `operator++` at the maximum element sets
`is_end` and keeps the node (the rightmost node backs the end position);
`operator--` at `end()` clears `is_end` and keeps the node, so `--end()`
is at the maximum, the last stored value; an increment anywhere else moves
to the real successor with `is_end` still clear, and a decrement never
sets `is_end`: the two boundary transitions are the only flag toggles. -/
theorem C8_end_boundary {s : Set α} (h : Valid s)
    (hne : s.root ≠ AATree.bottom) :
    iterSucc s.root ⟨rightSpinePath s.root, false⟩ =
      ⟨rightSpinePath s.root, true⟩ ∧
    s.endIt = ⟨rightSpinePath s.root, true⟩ ∧
    iterPred s.root s.endIt = ⟨rightSpinePath s.root, false⟩ ∧
    valueAt s.root (rightSpinePath s.root) = s.toList.getLast? ∧
    (∀ p ∈ inorderPaths s.root, p ≠ rightSpinePath s.root →
      ∃ q, get_next_path s.root p = some q ∧
        iterSucc s.root ⟨p, false⟩ = ⟨q, false⟩) ∧
    (∀ it : Iter, (iterPred s.root it).is_end = false) := by
  obtain ⟨ha, hb, hc⟩ := h
  have hp : PosLevels s.root := posLevels_of_aainv ha
  have hnone : get_next_path s.root (rightSpinePath s.root) = none :=
    get_next_rightSpine hp hne
  have h2 : s.endIt = ⟨rightSpinePath s.root, true⟩ := by
    show mkIter s.root (rightSpinePath s.root) true = _
    unfold mkIter
    simp
  refine ⟨by simp [iterSucc, hnone], h2, ?_, ?_, ?_, ?_⟩
  · rw [h2]
    rfl
  · have h5 := congrArg List.getLast? (inorderPaths_values s.root)
    rw [List.getLast?_map, List.getLast?_map, inorderPaths_getLast _ hne] at h5
    cases hm : s.root.inorder.getLast? with
    | none =>
      rw [hm] at h5
      simp at h5
    | some m =>
      rw [hm] at h5
      simp only [Option.map_some'] at h5
      have hvm : valueAt s.root (rightSpinePath s.root) = some m :=
        Option.some.inj h5
      rw [hvm]
      show some m = s.root.inorder.getLast?
      rw [hm]
  · intro p hpm hpne
    obtain ⟨q, hq⟩ := get_next_of_ne_max hp p hpm hpne
    exact ⟨q, hq, by simp [iterSucc, hq]⟩
  · intro it
    unfold iterPred
    by_cases he : it.is_end = true
    · rw [if_pos he]
    · rw [if_neg he]
      have hf : it.is_end = false := by
        cases hie : it.is_end
        · rfl
        · exact absurd hie he
      cases hgp : get_previous_path s.root it.path with
      | some q => simp [hf]
      | none => simp [hf]

theorem C8_end_boundary_witness :
    (Set.empty.insert (0 : Int)).root ≠ AATree.bottom ∧
      (Set.empty.insert (0 : Int)).endIt =
        ⟨rightSpinePath (Set.empty.insert (0 : Int)).root, true⟩ :=
  ⟨by decide,
    (C8_end_boundary ⟨by decide, by decide, by decide⟩ (by decide)).2.1⟩

/-- C9: at the pointer level, across every sequence of `insert`, `erase`
and `clear` calls on an initialized container the sentinel node at index 0
keeps level 0 and left, right and parent links pointing to itself, and the
root's parent link is the sentinel after every public mutation (and right
after `initialize`): `insert` either hands the old root's parent — the
sentinel — through its skew/split rotations to the new root, or returns a
fresh root whose parent is born at the sentinel; `erase`'s wrapper rewrites
the root's parent explicitly (tree.h 197); `clear` points the root back at
the sentinel, whose parent is itself.  The queries (`find`, `lower_bound`,
iteration) take the container as const and do not touch the memory.  The
initial memory's junk cells are assumed level-positive, standing for the
fact that unallocated cells are never read. -/
theorem C9_sentinel (m0 : Nat → Ptr.Node α) (d : α) (hm0 : Ptr.PosHeap m0)
    (ops : List (Ptr.HeapOp α)) :
    Ptr.SentinelOK (Ptr.applyHeapOps (Ptr.init m0 d) ops).mem ∧
    ((Ptr.applyHeapOps (Ptr.init m0 d) ops).mem
      (Ptr.applyHeapOps (Ptr.init m0 d) ops).root).parent = 0 ∧
    ((Ptr.init m0 d).mem (Ptr.init m0 d).root).parent = 0 := by
  have hinit := Ptr.init_inv m0 d hm0
  have hops := Ptr.applyHeapOps_inv ops hinit.1
  exact ⟨hops.1.1,
    Ptr.applyHeapOps_root_parent ops hinit.1 (Ptr.init_shape m0 d), hinit.2⟩

theorem C9_sentinel_witness :
    Ptr.SentinelOK (Ptr.applyHeapOps
      (Ptr.init (fun _ => ⟨0, 0, 0, 0, 1⟩) (0 : Int))
      [Ptr.HeapOp.ins 5 3, Ptr.HeapOp.del 5 3]).mem :=
  (C9_sentinel (fun _ => ⟨0, 0, 0, 0, 1⟩) 0 (fun i _ => le_refl 1)
    [Ptr.HeapOp.ins 5 3, Ptr.HeapOp.del 5 3]).1

/-- C10: assigning a container to itself is a complete no-op — `operator=`
first tests for object identity and then skips the clear-and-reinsert —
while assignment between distinct objects does clear the destination and
re-insert the source's iteration order. -/
theorem C10_self_assignment (s : Set α) :
    Set.assign s s true = s ∧
    (Set.assign s s true).toList = s.toList ∧
    (Set.assign s s true).size = s.size ∧
    (∀ dst : Set α, Set.assign dst s false = insertList dst.clear s.toList) :=
  ⟨rfl, rfl, rfl, fun dst => rfl⟩

end Claims

end AA
